import Mathlib

/-!
# qtga: the TGA decoder of `qtgafile.h` / `qtgafile.cpp`

A shallow embedding of `QTgaFile` (header validation, footer inspection, the
depth-specific sample readers, the run-length packet loop and the orientation
transform) together with the properties established about it.

Conventions of the embedding

* A `char` delivered by the device is a natural number; the casts `uchar(c)` /
  `quint8(c)` of the source are `c % 256`.
* `QRgb` is the unsigned 32-bit value `0xAARRGGBB`, kept as a natural number.
* `int` values that can be negative (coordinates, palette indices, seek
  targets) are integers; narrowing conversions to 32 bits are explicit.
* Behaviour that C++ leaves undefined (a call through the null reader returned by
  `newReader`, `QVector::operator[]` outside its bounds, the overflow of the `int`
  column counter) is a `Fault`.
-/

namespace QTga

/-! ## The byte source (`QIODevice`) -/

/-- The part of a `QIODevice` the decoder observes: whether it is open for reading,
whether it is sequential, its content, its cursor, and whether a seek beyond the end
of the content succeeds (it does for a file, it does not for a read-only buffer). -/
structure QIODevice where
  readable : Bool
  sequential : Bool
  seekPastEnd : Bool
  data : List Nat
  pos : Nat
deriving DecidableEq, Repr

namespace QIODevice

/-- The total length of the source, `QIODevice::size()`. -/
def size (s : QIODevice) : Nat := s.data.length

/-- The unsigned byte stored at offset `i` (0 outside the content). -/
def byteAt (s : QIODevice) (i : Nat) : Nat := s.data.getD i 0 % 256

/-- Qt `QIODevice::getChar`: delivers the character under the cursor and advances, or
fails at the end of the content and leaves the cursor where it is. -/
def getChar (s : QIODevice) : Option Nat × QIODevice :=
  match s.data.get? s.pos with
  | some c => (some c, { s with pos := s.pos + 1 })
  | none => (none, s)

/-- Qt `QIODevice::seek`: a negative target is refused; a target beyond the end is
refused unless the device allows it; a refused seek leaves the cursor alone. -/
def seek (s : QIODevice) (p : Int) : Bool × QIODevice :=
  if 0 ≤ p ∧ (p.toNat ≤ s.data.length ∨ s.seekPastEnd = true) then
    (true, { s with pos := p.toNat })
  else
    (false, s)

/-- Qt `QIODevice::read(buf, n)`: copies up to `n` bytes into an `unsigned char` buffer
and advances the cursor by the number of bytes copied (the length of the result). -/
def read (s : QIODevice) (n : Nat) : List Nat × QIODevice :=
  let bytes := (s.data.drop s.pos).take n
  (bytes.map (fun c => c % 256), { s with pos := s.pos + bytes.length })

end QIODevice

/-- The conversion of a 64-bit or unsigned 32-bit quantity to `int`: the value is
reduced to 32 bits, two's complement. -/
def toInt (n : Nat) : Int :=
  if n % 2 ^ 32 < 2 ^ 31 then ((n % 2 ^ 32 : Nat) : Int) else ((n % 2 ^ 32 : Nat) : Int) - 2 ^ 32

/-! ## Colors -/

/-- An ARGB quadruplet `0xAARRGGBB`. -/
abbrev QRgb := Nat

/-- Qt: `qRgb(r, g, b)`, alpha set to 255. -/
def qRgb (r g b : Nat) : QRgb :=
  (0xff <<< 24) ||| ((r &&& 0xff) <<< 16) ||| ((g &&& 0xff) <<< 8) ||| (b &&& 0xff)

/-- Qt: `qRgba(r, g, b, a)`. -/
def qRgba (r g b a : Nat) : QRgb :=
  ((a &&& 0xff) <<< 24) ||| ((r &&& 0xff) <<< 16) ||| ((g &&& 0xff) <<< 8) ||| (b &&& 0xff)

/-- Qt: `qAlpha`. -/
def qAlpha (c : QRgb) : Nat := c >>> 24
/-- Qt: `qRed`. -/
def qRed (c : QRgb) : Nat := (c >>> 16) &&& 0xff
/-- Qt: `qGreen`. -/
def qGreen (c : QRgb) : Nat := (c >>> 8) &&& 0xff
/-- Qt: `qBlue`. -/
def qBlue (c : QRgb) : Nat := c &&& 0xff

/-! ## Run-length packet headers -/

/-- The decoded packet header; `RleInfo{}` is all zero. -/
structure RleInfo where
  repeat_ : Nat
  number : Nat
deriving DecidableEq, Repr

/-- Source `TgaRleReader::operator()`: one header byte, bit 7 the repeat flag, bits 0-6 the
run length minus one; the zero record when the source is exhausted. -/
def TgaRleReader.call (s : QIODevice) : RleInfo × QIODevice :=
  match s.getChar with
  | (some ch1, s1) => ({ repeat_ := (ch1 % 256) >>> 7, number := ((ch1 % 256) &&& 0x7F) + 1 }, s1)
  | (none, s1) => ({ repeat_ := 0, number := 0 }, s1)

/-! ## Sample readers -/

/-- Source `Tga8Reader::operator()`. -/
def Tga8Reader.call (s : QIODevice) : QRgb × QIODevice :=
  match s.getChar with
  | (some ch1, s1) => (qRgb (ch1 % 256) (ch1 % 256) (ch1 % 256), s1)
  | (none, s1) => (0, s1)

/-- Source `Tga8Reader::getIndex`. -/
def Tga8Reader.getIndex (s : QIODevice) : Int × QIODevice :=
  match s.getChar with
  | (some ch1, s1) => (((ch1 % 256 : Nat) : Int), s1)
  | (none, s1) => (0, s1)

/-- Source `Tga16Reader::operator()`; `d` is a `quint16`, the result an unsigned 32-bit value. -/
def Tga16Reader.call (s : QIODevice) : QRgb × QIODevice :=
  match s.getChar with
  | (some ch1, s1) =>
    match s1.getChar with
    | (some ch2, s2) =>
      let d := ((ch1 % 256) ||| ((ch2 % 256) <<< 8)) % 2 ^ 16
      let alpha := if d &&& 0x8000 ≠ 0 then 0xff000000 else 0x00000000
      (alpha ||| ((d &&& 0x7C00) <<< 9) ||| ((d &&& 0x03E0) <<< 6) ||| ((d &&& 0x001F) <<< 3), s2)
    | (none, s2) => (0, s2)
  | (none, s1) => (0, s1)

/-- Source `Tga16Reader::getIndex`. -/
def Tga16Reader.getIndex (s : QIODevice) : Int × QIODevice :=
  match s.getChar with
  | (some ch1, s1) =>
    match s1.getChar with
    | (some ch2, s2) =>
      let d := (((ch1 % 256) &&& 0xFF) ||| (((ch2 % 256) &&& 0xFF) <<< 8)) % 2 ^ 16
      (toInt d, s2)
    | (none, s2) => (0, s2)
  | (none, s1) => (0, s1)

/-- Source `Tga24Reader::operator()`: the bytes arrive in the order blue, green, red. -/
def Tga24Reader.call (s : QIODevice) : QRgb × QIODevice :=
  match s.getChar with
  | (some b, s1) =>
    match s1.getChar with
    | (some g, s2) =>
      match s2.getChar with
      | (some r, s3) => (qRgb (r % 256) (g % 256) (b % 256), s3)
      | (none, s3) => (0, s3)
    | (none, s2) => (0, s2)
  | (none, s1) => (0, s1)

/-- Source `Tga24Reader::getIndex`; `d` is a `quint32`, returned as `int`. -/
def Tga24Reader.getIndex (s : QIODevice) : Int × QIODevice :=
  match s.getChar with
  | (some ch1, s1) =>
    match s1.getChar with
    | (some ch2, s2) =>
      match s2.getChar with
      | (some ch3, s3) =>
        let d := (((ch3 % 256) <<< 16) ||| ((ch2 % 256) <<< 8) ||| (ch1 % 256)) % 2 ^ 32
        (toInt d, s3)
      | (none, s3) => (0, s3)
    | (none, s2) => (0, s2)
  | (none, s1) => (0, s1)

/-- Source `Tga32Reader::operator()`: the bytes arrive in the order blue, green, red, alpha. -/
def Tga32Reader.call (s : QIODevice) : QRgb × QIODevice :=
  match s.getChar with
  | (some b, s1) =>
    match s1.getChar with
    | (some g, s2) =>
      match s2.getChar with
      | (some r, s3) =>
        match s3.getChar with
        | (some a, s4) => (qRgba (r % 256) (g % 256) (b % 256) (a % 256), s4)
        | (none, s4) => (0, s4)
      | (none, s3) => (0, s3)
    | (none, s2) => (0, s2)
  | (none, s1) => (0, s1)

/-- Source `Tga32Reader::getIndex`; `d` is a `quint32`, returned as `int`. -/
def Tga32Reader.getIndex (s : QIODevice) : Int × QIODevice :=
  match s.getChar with
  | (some ch1, s1) =>
    match s1.getChar with
    | (some ch2, s2) =>
      match s2.getChar with
      | (some ch3, s3) =>
        match s3.getChar with
        | (some ch4, s4) =>
          let d := (((ch4 % 256) <<< 24) ||| ((ch3 % 256) <<< 16) ||| ((ch2 % 256) <<< 8)
            ||| (ch1 % 256)) % 2 ^ 32
          (toInt d, s4)
        | (none, s4) => (0, s4)
      | (none, s3) => (0, s3)
    | (none, s2) => (0, s2)
  | (none, s1) => (0, s1)

/-- The four concrete classes derived from `TgaReader`. -/
inductive TgaReader where
  | tga8
  | tga16
  | tga24
  | tga32
deriving DecidableEq, Repr

/-- The virtual `TgaReader::operator()`. -/
def TgaReader.call : TgaReader → QIODevice → QRgb × QIODevice
  | .tga8 => Tga8Reader.call
  | .tga16 => Tga16Reader.call
  | .tga24 => Tga24Reader.call
  | .tga32 => Tga32Reader.call

/-- The virtual `TgaReader::getIndex`. -/
def TgaReader.getIndex : TgaReader → QIODevice → Int × QIODevice
  | .tga8 => Tga8Reader.getIndex
  | .tga16 => Tga16Reader.getIndex
  | .tga24 => Tga24Reader.getIndex
  | .tga32 => Tga32Reader.getIndex

/-- Source `newReader(depth)`: the null pointer (`none`) for any depth other than 8, 16, 24, 32. -/
def newReader (depth : Nat) : Option TgaReader :=
  if depth = 8 then some .tga8
  else if depth = 16 then some .tga16
  else if depth = 24 then some .tga24
  else if depth = 32 then some .tga32
  else none

/-! ## The raster (`QImage`) -/

/-- A `QImage` of format ARGB32: its dimensions, its pixels in row-major order, and
the coordinates of the `setPixel` calls it refused with the warning "coordinate out of
range". A pixel that no `setPixel` has written yet is `none`: the constructor does not
initialise the pixel data. -/
structure QImage where
  width : Nat
  height : Nat
  pixels : List (Option QRgb)
  warnings : List (Int × Int)
deriving DecidableEq, Repr

namespace QImage

/-- The null image `QImage()`. -/
def null : QImage := { width := 0, height := 0, pixels := [], warnings := [] }

/-- The image `QImage(width, height, QImage::Format_ARGB32)`: null when a dimension is
zero, otherwise `width * height` uninitialised pixels. The allocation of the pixel data is
taken to succeed (Qt returns the null image when it does not). -/
def create (width height : Nat) : QImage :=
  if width = 0 ∨ height = 0 then null
  else { width := width, height := height, pixels := List.replicate (width * height) none,
         warnings := [] }

/-- Qt `QImage::isNull`. -/
def isNull (img : QImage) : Bool := img.width == 0 || img.height == 0

/-- Qt `QImage::setPixel(x, y, c)`: a coordinate outside the image is refused with a
warning and changes no pixel. -/
def setPixel (img : QImage) (x y : Int) (c : QRgb) : QImage :=
  if 0 ≤ x ∧ x < img.width ∧ 0 ≤ y ∧ y < img.height then
    { img with pixels := img.pixels.set (y.toNat * img.width + x.toNat) (some c) }
  else
    { img with warnings := img.warnings ++ [(x, y)] }

/-- The content of the pixel at column `x`, row `y` (row 0 is the top row). -/
def pixel (img : QImage) (x y : Nat) : Option QRgb :=
  if x < img.width ∧ y < img.height then img.pixels.getD (y * img.width + x) none else none

end QImage

/-! ## The decoder (`QTgaFile`) -/

/-- The members of `QTgaFile`. -/
structure QTgaFile where
  mErrorMessage : String
  mHeader : List Nat
  mDevice : QIODevice
  m_bHighVersion : Bool
deriving DecidableEq, Repr

/-- Source `enum Compression`. -/
inductive Compression where
  | NoCompression
  | RleCompression
deriving DecidableEq, Repr

/-- What the C++ code leaves undefined, and the mark of an exhausted iteration budget. -/
inductive Fault where
  /-- A virtual call through the null pointer that `newReader` returned. -/
  | nullReader
  /-- Qt `QVector::operator[]` with an index outside `0 .. size-1`. -/
  | cMapIndex (index : Int) (size : Nat)
  /-- The increment `x++` of an `int` that holds `2^31 - 1`. -/
  | intOverflow
  /-- The iteration budget of the packet loop ran out. -/
  | outOfFuel
deriving DecidableEq, Repr

deriving instance DecidableEq for Except

namespace QTgaFile

/-! `enum HeaderOffset` and `enum FooterOffset` -/

def IdLength : Nat := 0
def ColorMapType : Nat := 1
def ImageType : Nat := 2
def CMapStart : Nat := 3
def CMapLength : Nat := 5
def CMapDepth : Nat := 7
def XOffset : Nat := 8
def YOffset : Nat := 10
def Width : Nat := 12
def Height : Nat := 14
def PixelDepth : Nat := 16
def ImageDescriptor : Nat := 17
def HeaderSize : Nat := 18
def ExtensionOffset : Nat := 0
def DeveloperOffset : Nat := 4
def SignatureOffset : Nat := 8
def FooterSize : Nat := 26

/-- The 16 characters of "TRUEVISION-XFILE". -/
def signature : List Nat :=
  [84, 82, 85, 69, 86, 73, 83, 73, 79, 78, 45, 88, 70, 73, 76, 69]

/-- The header byte `mHeader[i]`. -/
def hdr (f : QTgaFile) (i : Nat) : Nat := f.mHeader.getD i 0

/-- Source `littleEndianInt(&mHeader[off])`: the two bytes at `off` and `off + 1`, as `quint16`. -/
def littleEndianInt (h : List Nat) (off : Nat) : Nat :=
  (h.getD off 0 + h.getD (off + 1) 0 * 256) % 2 ^ 16

def isValid (f : QTgaFile) : Bool := f.mErrorMessage.isEmpty
def errorMessage (f : QTgaFile) : String := f.mErrorMessage
def xOffset (f : QTgaFile) : Nat := littleEndianInt f.mHeader XOffset
def yOffset (f : QTgaFile) : Nat := littleEndianInt f.mHeader YOffset
def width (f : QTgaFile) : Nat := littleEndianInt f.mHeader Width
def height (f : QTgaFile) : Nat := littleEndianInt f.mHeader Height

def compression (f : QTgaFile) : Compression :=
  if f.hdr ImageType > 8 ∧ f.hdr ImageType < 12 then .RleCompression else .NoCompression

def yCorner (f : QTgaFile) : Bool := (f.hdr ImageDescriptor &&& 0x20) != 0
def xCorner (f : QTgaFile) : Bool := (f.hdr ImageDescriptor &&& 0x10) != 0

/-- The constructor `QTgaFile::QTgaFile(QIODevice *)`.

The footer buffer holds the bytes the read delivered; when the read is short the
remaining bytes of the C++ buffer are indeterminate and the comparison is taken to
fail. `qstrncmp` over 16 characters none of which is NUL in the literal is equality of
the 16 bytes. `pos()` and `size()` are narrowed to `int`; the difference
`fileBytes - FooterSize` is taken in the integers (as an `int` it overflows only when
`fileBytes < -2^31 + 26`, and is negative here). -/
def new (device : QIODevice) : QTgaFile :=
  let zero := List.replicate HeaderSize 0
  if device.readable = false then
    { mErrorMessage := "Could not read image data", mHeader := zero, mDevice := device,
      m_bHighVersion := false }
  else if device.sequential = true then
    { mErrorMessage := "Sequential device (eg socket) for image read not supported",
      mHeader := zero, mDevice := device, m_bHighVersion := false }
  else
    let sk := device.seek 0
    if sk.1 = false then
      { mErrorMessage := "Seek file/device for image read failed", mHeader := zero,
        mDevice := sk.2, m_bHighVersion := false }
    else
      let rd := sk.2.read HeaderSize
      let mHeader := rd.1 ++ List.replicate (HeaderSize - rd.1.length) 0
      if rd.1.length ≠ HeaderSize then
        { mErrorMessage := "Image header read failed", mHeader := mHeader, mDevice := rd.2,
          m_bHighVersion := false }
      else
        let ty := mHeader.getD ImageType 0
        let bSupport := (0 ≤ ty ∧ ty ≤ 3) ∨ (9 ≤ ty ∧ ty ≤ 11)
        if ¬ bSupport then
          { mErrorMessage := "Image type not supported", mHeader := mHeader, mDevice := rd.2,
            m_bHighVersion := false }
        else
          let bitsPerPixel := mHeader.getD PixelDepth 0
          let validDepth :=
            bitsPerPixel = 8 ∨ bitsPerPixel = 16 ∨ bitsPerPixel = 24 ∨ bitsPerPixel = 32
          let msg0 := if ¬ validDepth then "Image depth not valid" else ""
          let curPos := toInt rd.2.pos
          let fileBytes := toInt rd.2.size
          let sk2 := rd.2.seek (fileBytes - FooterSize)
          if sk2.1 = false then
            { mErrorMessage := "Could not seek to image read footer", mHeader := mHeader,
              mDevice := sk2.2, m_bHighVersion := false }
          else
            let ft := sk2.2.read FooterSize
            let msg1 := if ft.1.length ≠ FooterSize then "Could not read footer" else msg0
            let high := (ft.1.drop SignatureOffset).take 16 == signature
            let sk3 := ft.2.seek curPos
            let msg2 := if sk3.1 = false then "Could not reset to read data" else msg1
            { mErrorMessage := msg2, mHeader := mHeader, mDevice := sk3.2,
              m_bHighVersion := high }

end QTgaFile

namespace QTgaFile

/-- The output column of logical column `x`: `xCorner() ? width() - x - 1 : x`. -/
def curX (f : QTgaFile) (x : Nat) : Int :=
  if f.xCorner then (f.width : Int) - x - 1 else x

/-- The output row of logical row `y`: `!yCorner() ? height() - y - 1 : y`. -/
def curY (f : QTgaFile) (y : Nat) : Int :=
  if !f.yCorner then (f.height : Int) - y - 1 else y

/-- The call `read(mDevice)` through the reader pointer. Binding the reference
`TgaReader& read = *pReader` to a null pointer has no effect by itself; the call through
it is the fault. -/
def callReader (pReader : Option TgaReader) (s : QIODevice) : Except Fault (QRgb × QIODevice) :=
  match pReader with
  | none => .error .nullReader
  | some r => .ok (r.call s)

/-- The call `read.getIndex(mDevice)` through the reader pointer. -/
def callGetIndex (pReader : Option TgaReader) (s : QIODevice) : Except Fault (Int × QIODevice) :=
  match pReader with
  | none => .error .nullReader
  | some r => .ok (r.getIndex s)

/-- The palette access `cMap[index]` of a `QVector<QRgb>`. -/
def cMapAt (cMap : List QRgb) (index : Int) : Except Fault QRgb :=
  if 0 ≤ index ∧ index.toNat < cMap.length then .ok (cMap.getD index.toNat 0)
  else .error (.cMapIndex index cMap.length)

/-- The body of the loops of `noCompressProcess` at logical position `(x, y)`. -/
def noCompressPixel (f : QTgaFile) (pReader : Option TgaReader) (x y : Nat)
    (st : QImage × QIODevice) : Except Fault (QImage × QIODevice) :=
  match callReader pReader st.2 with
  | .error e => .error e
  | .ok (c, dev) => .ok (st.1.setPixel (f.curX x) (f.curY y) c, dev)

/-- Source `QTgaFile::noCompressProcess`: rows `0 .. height()-1`, in each row columns
`0 .. width()-1`. The pair is the image and the device `mDevice`. -/
def noCompressProcess (f : QTgaFile) (pReader : Option TgaReader)
    (st : QImage × QIODevice) : Except Fault (QImage × QIODevice) :=
  (List.range f.height).foldlM
    (fun st y => (List.range f.width).foldlM (fun st x => noCompressPixel f pReader x y st) st) st

/-- The body of the loops of `noCompressCMapProcess` at logical position `(x, y)`. -/
def noCompressCMapPixel (f : QTgaFile) (cMap : List QRgb) (pReader : Option TgaReader)
    (x y : Nat) (st : QImage × QIODevice) : Except Fault (QImage × QIODevice) :=
  match callGetIndex pReader st.2 with
  | .error e => .error e
  | .ok (index, dev) =>
    match cMapAt cMap index with
    | .error e => .error e
    | .ok c => .ok (st.1.setPixel (f.curX x) (f.curY y) c, dev)

/-- Source `QTgaFile::noCompressCMapProcess`. -/
def noCompressCMapProcess (f : QTgaFile) (cMap : List QRgb) (pReader : Option TgaReader)
    (st : QImage × QIODevice) : Except Fault (QImage × QIODevice) :=
  (List.range f.height).foldlM
    (fun st y =>
      (List.range f.width).foldlM (fun st x => noCompressCMapPixel f cMap pReader x y st) st) st

/-- The variables of the packet loops: the logical cursor `(x, y)`, the image and the
device. -/
structure RleState where
  x : Nat
  y : Nat
  img : QImage
  dev : QIODevice
deriving DecidableEq, Repr

/-- The write at the logical cursor and its advance: `setPixel`, `x++`, and the wrap to
the next row when `x == width()`. The counter `x` is an `int`; it stays below the width
when the width is not 0, and grows with the stream when the width is 0. -/
def putPixel (f : QTgaFile) (st : RleState) (c : QRgb) (dev : QIODevice) :
    Except Fault RleState :=
  let img := st.img.setPixel (f.curX st.x) (f.curY st.y) c
  if 2 ^ 31 ≤ st.x + 1 then .error .intOverflow
  else if st.x + 1 = f.width then .ok { x := 0, y := st.y + 1, img := img, dev := dev }
  else .ok { x := st.x + 1, y := st.y, img := img, dev := dev }

/-- The inner loop `while (rleInfo.number--)` of `rleProcess`; `curColor` is the local
variable of that name. -/
def rleRun (f : QTgaFile) (pReader : Option TgaReader) (repeat_ : Nat) :
    Nat → QRgb → RleState → Except Fault RleState
  | 0, _, st => .ok st
  | number + 1, curColor, st =>
    if repeat_ = 0 then
      match callReader pReader st.dev with
      | .error e => .error e
      | .ok (c, dev) =>
        match putPixel f st c dev with
        | .error e => .error e
        | .ok st1 => rleRun f pReader repeat_ number c st1
    else
      match putPixel f st curColor st.dev with
      | .error e => .error e
      | .ok st1 => rleRun f pReader repeat_ number curColor st1

/-- One packet of `rleProcess` once its header is decoded: the sample read of a repeat
packet, then the inner loop. `curColor` starts indeterminate in C++ and is assigned
before its first use, the repeat flag being 0 or 1; 0 stands for the indeterminate value. -/
def rlePacket (f : QTgaFile) (pReader : Option TgaReader) (rleInfo : RleInfo)
    (st : RleState) : Except Fault RleState :=
  if rleInfo.repeat_ = 1 then
    match callReader pReader st.dev with
    | .error e => .error e
    | .ok (c, dev) => rleRun f pReader rleInfo.repeat_ rleInfo.number c { st with dev := dev }
  else
    rleRun f pReader rleInfo.repeat_ rleInfo.number 0 st

/-- The outer loop `while (y < height())` of `rleProcess`, with an iteration budget. -/
def rleLoop (f : QTgaFile) (pReader : Option TgaReader) : Nat → RleState → Except Fault RleState
  | 0, st => if st.y < f.height then .error .outOfFuel else .ok st
  | fuel + 1, st =>
    if st.y < f.height then
      let hd := TgaRleReader.call st.dev
      if hd.1.number = 0 then .ok { st with dev := hd.2 }
      else
        match rlePacket f pReader hd.1 { st with dev := hd.2 } with
        | .error e => .error e
        | .ok st1 => rleLoop f pReader fuel st1
    else .ok st

/-- Source `QTgaFile::rleProcess`. Every iteration of the outer loop that does not leave it
takes a byte from the device, so the bytes left plus one bound the iterations. -/
def rleProcess (f : QTgaFile) (pReader : Option TgaReader)
    (st : QImage × QIODevice) : Except Fault (QImage × QIODevice) :=
  match rleLoop f pReader (st.2.size - st.2.pos + 1) { x := 0, y := 0, img := st.1, dev := st.2 } with
  | .error e => .error e
  | .ok st1 => .ok (st1.img, st1.dev)

/-- The inner loop `while (rleInfo.number--)` of `rleCMapProcess`; `index` is the local
variable of that name. -/
def rleCMapRun (f : QTgaFile) (cMap : List QRgb) (pReader : Option TgaReader) (repeat_ : Nat) :
    Nat → Int → RleState → Except Fault RleState
  | 0, _, st => .ok st
  | number + 1, index, st =>
    if repeat_ = 0 then
      match callGetIndex pReader st.dev with
      | .error e => .error e
      | .ok (i, dev) =>
        match cMapAt cMap i with
        | .error e => .error e
        | .ok c =>
          match putPixel f st c dev with
          | .error e => .error e
          | .ok st1 => rleCMapRun f cMap pReader repeat_ number i st1
    else
      match cMapAt cMap index with
      | .error e => .error e
      | .ok c =>
        match putPixel f st c st.dev with
        | .error e => .error e
        | .ok st1 => rleCMapRun f cMap pReader repeat_ number index st1

/-- One packet of `rleCMapProcess` once its header is decoded. The local `index` starts
indeterminate in C++ and is assigned before its first use; 0 stands for the indeterminate
value. -/
def rleCMapPacket (f : QTgaFile) (cMap : List QRgb) (pReader : Option TgaReader)
    (rleInfo : RleInfo) (st : RleState) : Except Fault RleState :=
  if rleInfo.repeat_ = 1 then
    match callGetIndex pReader st.dev with
    | .error e => .error e
    | .ok (i, dev) =>
      rleCMapRun f cMap pReader rleInfo.repeat_ rleInfo.number i { st with dev := dev }
  else
    rleCMapRun f cMap pReader rleInfo.repeat_ rleInfo.number 0 st

/-- The outer loop `while (y < height())` of `rleCMapProcess`, with an iteration budget. -/
def rleCMapLoop (f : QTgaFile) (cMap : List QRgb) (pReader : Option TgaReader) :
    Nat → RleState → Except Fault RleState
  | 0, st => if st.y < f.height then .error .outOfFuel else .ok st
  | fuel + 1, st =>
    if st.y < f.height then
      let hd := TgaRleReader.call st.dev
      if hd.1.number = 0 then .ok { st with dev := hd.2 }
      else
        match rleCMapPacket f cMap pReader hd.1 { st with dev := hd.2 } with
        | .error e => .error e
        | .ok st1 => rleCMapLoop f cMap pReader fuel st1
    else .ok st

/-- Source `QTgaFile::rleCMapProcess`. -/
def rleCMapProcess (f : QTgaFile) (cMap : List QRgb) (pReader : Option TgaReader)
    (st : QImage × QIODevice) : Except Fault (QImage × QIODevice) :=
  match rleCMapLoop f cMap pReader (st.2.size - st.2.pos + 1)
      { x := 0, y := 0, img := st.1, dev := st.2 } with
  | .error e => .error e
  | .ok st1 => .ok (st1.img, st1.dev)

/-- The palette loop `while (cmapLength--) colorMap.push_back(cmapRead(mDevice))`. -/
def readColorMap (cmapReader : Option TgaReader) :
    Nat → List QRgb → QIODevice → Except Fault (List QRgb × QIODevice)
  | 0, colorMap, dev => .ok (colorMap, dev)
  | cmapLength + 1, colorMap, dev =>
    match callReader cmapReader dev with
    | .error e => .error e
    | .ok (c, dev1) => readColorMap cmapReader cmapLength (colorMap ++ [c]) dev1

/-- Source `QTgaFile::readImage`: the image returned and the decoder afterwards (only the
cursor of its device moves). The result of `seek` is not looked at. -/
def readImage (f : QTgaFile) : Except Fault (QImage × QTgaFile) :=
  if f.isValid = false then .ok (QImage.null, f)
  else if f.hdr ImageType = 0 then .ok (QImage.null, f)
  else
    let offset := f.hdr IdLength
    let dev0 := (f.mDevice.seek ((HeaderSize + offset : Nat) : Int)).2
    let cmapLength := littleEndianInt f.mHeader CMapLength
    let cmapDepth := littleEndianInt f.mHeader CMapDepth
    let cmapReader := newReader cmapDepth
    match readColorMap cmapReader cmapLength [] dev0 with
    | .error e => .error e
    | .ok (colorMap, dev1) =>
      let bitsPerPixel := f.hdr PixelDepth
      let im := QImage.create f.width f.height
      let reader := newReader bitsPerPixel
      let ty := f.hdr ImageType
      let res : Except Fault (QImage × QIODevice) :=
        if f.compression = .NoCompression then
          match (if ty = 2 ∨ ty = 3 then noCompressProcess f reader (im, dev1)
                 else .ok (im, dev1)) with
          | .error e => .error e
          | .ok st => if ty = 1 then noCompressCMapProcess f colorMap reader st else .ok st
        else
          match (if ty = 10 ∨ ty = 11 then rleProcess f reader (im, dev1)
                 else .ok (im, dev1)) with
          | .error e => .error e
          | .ok st => if ty = 9 then rleCMapProcess f colorMap reader st else .ok st
      match res with
      | .error e => .error e
      | .ok (img, dev2) => .ok (img, { f with mDevice := dev2 })

end QTgaFile

/-! ## Auxiliary notions used in the statements -/

/-- The number of bytes a reader takes from the device per sample. -/
def TgaReader.bytes : TgaReader → Nat
  | .tga8 => 1
  | .tga16 => 2
  | .tga24 => 3
  | .tga32 => 4

/-- A device that differs from `s` at most in its cursor, which has not moved back. -/
def QIODevice.advanced (s t : QIODevice) : Prop :=
  ∃ p, s.pos ≤ p ∧ t = { s with pos := p }

/-- The output column the specification assigns to logical column `x`: mirrored when
bit 4 (0x10) of the descriptor is set. -/
def specOutX (descriptor width x : Nat) : Nat :=
  if descriptor.testBit 4 then width - 1 - x else x

/-- The output row the specification assigns to logical row `y`: kept when bit 5 (0x20)
of the descriptor is set, counted from the bottom otherwise. -/
def specOutY (descriptor height y : Nat) : Nat :=
  if descriptor.testBit 5 then y else height - 1 - y

namespace QTgaFile

/-- The output column of the `k`-th pixel of the stream, after the specification. -/
def outX (f : QTgaFile) (k : Nat) : Nat := specOutX (f.hdr ImageDescriptor) f.width (k % f.width)

/-- The output row of the `k`-th pixel of the stream, after the specification. -/
def outY (f : QTgaFile) (k : Nat) : Nat := specOutY (f.hdr ImageDescriptor) f.height (k / f.width)

/-- The image has the dimensions of the header and a pixel for every position. -/
def fits (f : QTgaFile) (img : QImage) : Prop :=
  img.width = f.width ∧ img.height = f.height ∧ img.pixels.length = f.width * f.height

instance (f : QTgaFile) (img : QImage) : Decidable (f.fits img) :=
  inferInstanceAs (Decidable (_ ∧ _ ∧ _))

/-- The write of color `c` for the `k`-th pixel of the stream. -/
def writeAt (f : QTgaFile) (img : QImage) (k : Nat) (c : QRgb) : QImage :=
  img.setPixel (f.curX (k % f.width)) (f.curY (k / f.width)) c

/-- The writes of the colors `cs` for the pixels `k, k+1, ...` of the stream. -/
def writeSeq (f : QTgaFile) : QImage → Nat → List QRgb → QImage
  | img, _, [] => img
  | img, k, c :: cs => writeSeq f (writeAt f img k c) (k + 1) cs

end QTgaFile

/-- The colors of `n` successive sample reads, and the device after them. -/
def readSamples (r : TgaReader) : Nat → QIODevice → List QRgb × QIODevice
  | 0, d => ([], d)
  | n + 1, d => ((r.call d).1 :: (readSamples r n (r.call d).2).1, (readSamples r n (r.call d).2).2)

/-- The part of `readImage` that follows the seek: the palette loop, the allocation of
the image and the decode path chosen by the type code, run from the device `dev0`. -/
def QTgaFile.decodeFrom (f : QTgaFile) (dev0 : QIODevice) : Except Fault (QImage × QIODevice) :=
  match QTgaFile.readColorMap (newReader (QTgaFile.littleEndianInt f.mHeader QTgaFile.CMapDepth))
      (QTgaFile.littleEndianInt f.mHeader QTgaFile.CMapLength) [] dev0 with
  | .error e => .error e
  | .ok (colorMap, dev1) =>
    if f.compression = .NoCompression then
      match (if f.hdr QTgaFile.ImageType = 2 ∨ f.hdr QTgaFile.ImageType = 3 then
               f.noCompressProcess (newReader (f.hdr QTgaFile.PixelDepth))
                 (QImage.create f.width f.height, dev1)
             else .ok (QImage.create f.width f.height, dev1)) with
      | .error e => .error e
      | .ok st =>
        if f.hdr QTgaFile.ImageType = 1 then
          f.noCompressCMapProcess colorMap (newReader (f.hdr QTgaFile.PixelDepth)) st
        else .ok st
    else
      match (if f.hdr QTgaFile.ImageType = 10 ∨ f.hdr QTgaFile.ImageType = 11 then
               f.rleProcess (newReader (f.hdr QTgaFile.PixelDepth))
                 (QImage.create f.width f.height, dev1)
             else .ok (QImage.create f.width f.height, dev1)) with
      | .error e => .error e
      | .ok st =>
        if f.hdr QTgaFile.ImageType = 9 then
          f.rleCMapProcess colorMap (newReader (f.hdr QTgaFile.PixelDepth)) st
        else .ok st

/-! ## Concrete sources used as examples -/

/-- A readable random-access buffer holding `bytes`, its cursor at the start. -/
def bufferOf (bytes : List Nat) : QIODevice :=
  { readable := true, sequential := false, seekPastEnd := false, data := bytes, pos := 0 }

/-- The header of a 2x2 image of the given type code and pixel depth; no id field, no
color map, descriptor 0. -/
def header2x2 (imageType depth : Nat) : List Nat :=
  [0, 0, imageType, 0, 0, 0, 0, 0, 0, 0, 0, 0, 2, 0, 2, 0, depth, 0]

/-- An indexed 1x1 image with 8-bit pixels: no id field, a color map of `cmapLength`
entries of `cmapDepth` bits starting at index 0, followed by `body`. -/
def indexedSource (imageType cmapLength cmapDepth : Nat) (body : List Nat) : QIODevice :=
  bufferOf ([0, 1, imageType, 0, 0, cmapLength, 0, cmapDepth, 0, 0, 0, 0, 1, 0, 1, 0, 8, 0] ++ body)

/-- The variables of a packet loop when it starts on the decoder `f`: cursor at the
first pixel, a fresh image, the device as the decoder holds it. -/
def rleStart (f : QTgaFile) : QTgaFile.RleState :=
  { x := 0, y := 0, img := QImage.create f.width f.height, dev := f.mDevice }

/-- A TGA 2.0 footer: extension and developer offsets 0, the signature, a dot and NUL. -/
def tga2Footer : List Nat :=
  [0, 0, 0, 0, 0, 0, 0, 0] ++ QTgaFile.signature ++ [46, 0]

/-- The unsigned little-endian value of the `n` bytes at the cursor: the sum of
`b_i * 256^i`. -/
def unsignedLE (s : QIODevice) : Nat → Nat
  | 0 => 0
  | n + 1 => unsignedLE s n + s.byteAt (s.pos + n) * 256 ^ n

/-- A 1x1 image with the given type code, color-map length, color-map entry size,
low byte of the x-origin field and pixel depth: no id field, descriptor 0, followed by
`body`. -/
def source1x1 (imageType cmapLength cmapDepth xOrigin depth : Nat) (body : List Nat) : QIODevice :=
  bufferOf ([0, 0, imageType, 0, 0, cmapLength, 0, cmapDepth, xOrigin, 0, 0, 0, 1, 0, 1, 0, depth, 0]
    ++ body)

/-- A 2x2 image with the given type code, color-map length, color-map entry size and
pixel depth: no id field, descriptor 0, followed by `body`. -/
def source2x2 (imageType cmapLength cmapDepth depth : Nat) (body : List Nat) : QIODevice :=
  bufferOf ([0, 0, imageType, 0, 0, cmapLength, 0, cmapDepth, 0, 0, 0, 0, 2, 0, 2, 0, depth, 0]
    ++ body)

/-! ## The packet encoding of a sample sequence, after the specification -/

/-- A run of samples as a packet: a raw packet carries its samples, a repeat packet its
run length and the one sample of the run. A sample is its bytes in wire order. -/
inductive Packet where
  | raw (samples : List (List Nat))
  | rep (number : Nat) (sample : List Nat)
deriving DecidableEq, Repr

namespace Packet

/-- The samples of the run. -/
def samples : Packet → List (List Nat)
  | raw ss => ss
  | rep n s => List.replicate n s

/-- The bytes of the packet as the specification words the encoding: the header byte
`length - 1` and the samples of a raw packet, the header byte `0x80 | (length - 1)` and the
one sample of a repeat packet. -/
def specEncode : Packet → List Nat
  | raw ss => (ss.length - 1) :: ss.flatten
  | rep n s => (0x80 ||| (n - 1)) :: s

/-- The run has between 1 and 128 samples, each of `bytes` bytes. -/
def wellFormed (bytes : Nat) (p : Packet) : Prop :=
  1 ≤ p.samples.length ∧ p.samples.length ≤ 128 ∧ ∀ s ∈ p.samples, s.length = bytes

instance (bytes : Nat) (p : Packet) : Decidable (p.wellFormed bytes) :=
  inferInstanceAs (Decidable (_ ∧ _ ∧ _))

end Packet

/-- The samples of a sequence of packets, in order: the plain sample sequence. -/
def packetSamples : List Packet → List (List Nat)
  | [] => []
  | p :: ps => p.samples ++ packetSamples ps

/-- The bytes of a sequence of packets, in order: the packet stream of the specification. -/
def specPacketStream : List Packet → List Nat
  | [] => []
  | p :: ps => p.specEncode ++ specPacketStream ps

/-- The color the reader returns for a sample, read from a buffer holding its bytes. -/
def sampleColor (r : TgaReader) (s : List Nat) : QRgb := (r.call (bufferOf s)).1

open QTgaFile

/-! ## Lemmas: the device and the readers -/

theorem QIODevice.getChar_of_lt (s : QIODevice) (h : s.pos < s.data.length) :
    s.getChar = (some (s.data.getD s.pos 0), { s with pos := s.pos + 1 }) := by
  unfold QIODevice.getChar
  rw [List.get?_eq_getElem?, List.getElem?_eq_getElem h, List.getD_eq_getElem?_getD, List.getElem?_eq_getElem h]
  rfl

theorem QIODevice.getChar_of_ge (s : QIODevice) (h : s.data.length ≤ s.pos) :
    s.getChar = (none, s) := by
  unfold QIODevice.getChar
  rw [List.get?_eq_getElem?, List.getElem?_eq_none h]

theorem QIODevice.advanced_refl (s : QIODevice) : s.advanced s := ⟨s.pos, le_refl _, rfl⟩

theorem QIODevice.advanced_trans {s t u : QIODevice} (h1 : s.advanced t) (h2 : t.advanced u) :
    s.advanced u := by
  obtain ⟨p, hp, rfl⟩ := h1
  obtain ⟨q, hq, rfl⟩ := h2
  exact ⟨q, le_trans hp hq, rfl⟩

theorem QIODevice.getChar_advanced (s : QIODevice) : s.advanced s.getChar.2 := by
  by_cases h : s.pos < s.data.length
  · rw [QIODevice.getChar_of_lt s h]; exact ⟨s.pos + 1, by omega, rfl⟩
  · rw [QIODevice.getChar_of_ge s (by omega)]; exact QIODevice.advanced_refl s

theorem TgaReader.call_of_fit (r : TgaReader) (s : QIODevice)
    (h : s.pos + r.bytes ≤ s.data.length) :
    (r.call s).2 = { s with pos := s.pos + r.bytes } := by
  cases r <;> simp only [TgaReader.bytes] at h
  · simp [TgaReader.call, Tga8Reader.call, QIODevice.getChar_of_lt s (by omega), TgaReader.bytes]
  · have h1 := QIODevice.getChar_of_lt s (by omega)
    have h2 := QIODevice.getChar_of_lt { s with pos := s.pos + 1 } (by simp; omega)
    simp [TgaReader.call, Tga16Reader.call, h1, h2, TgaReader.bytes]
  · have h1 := QIODevice.getChar_of_lt s (by omega)
    have h2 := QIODevice.getChar_of_lt { s with pos := s.pos + 1 } (by simp; omega)
    have h3 := QIODevice.getChar_of_lt { s with pos := s.pos + 1 + 1 } (by simp; omega)
    simp [TgaReader.call, Tga24Reader.call, h1, h2, h3, TgaReader.bytes]
  · have h1 := QIODevice.getChar_of_lt s (by omega)
    have h2 := QIODevice.getChar_of_lt { s with pos := s.pos + 1 } (by simp; omega)
    have h3 := QIODevice.getChar_of_lt { s with pos := s.pos + 1 + 1 } (by simp; omega)
    have h4 := QIODevice.getChar_of_lt { s with pos := s.pos + 1 + 1 + 1 } (by simp; omega)
    simp [TgaReader.call, Tga32Reader.call, h1, h2, h3, h4, TgaReader.bytes]

theorem Tga24Reader.call24_of_fit (s : QIODevice) (h : s.pos + 3 ≤ s.data.length) :
    (Tga24Reader.call s).1 = qRgb (s.byteAt (s.pos + 2)) (s.byteAt (s.pos + 1)) (s.byteAt s.pos) := by
  have h1 := QIODevice.getChar_of_lt s (by omega)
  have h2 := QIODevice.getChar_of_lt { s with pos := s.pos + 1 } (by simp; omega)
  have h3 := QIODevice.getChar_of_lt { s with pos := s.pos + 1 + 1 } (by simp; omega)
  simp [Tga24Reader.call, h1, h2, h3, QIODevice.byteAt]

theorem QIODevice.getChar_cases (s : QIODevice) :
    s.getChar = (none, s) ∨ ∃ c, s.getChar = (some c, { s with pos := s.pos + 1 }) := by
  by_cases h : s.pos < s.data.length
  · exact Or.inr ⟨_, QIODevice.getChar_of_lt s h⟩
  · exact Or.inl (QIODevice.getChar_of_ge s (by omega))

theorem QIODevice.advanced_add (s : QIODevice) (n : Nat) :
    s.advanced { s with pos := s.pos + n } := ⟨s.pos + n, by omega, rfl⟩

theorem TgaReader.call_advanced (r : TgaReader) (s : QIODevice) : s.advanced (r.call s).2 := by
  have a0 := QIODevice.advanced_refl s
  have a1 := QIODevice.advanced_add s 1
  have a2 := QIODevice.advanced_add s (1 + 1)
  have a3 := QIODevice.advanced_add s (1 + 1 + 1)
  have a4 := QIODevice.advanced_add s (1 + 1 + 1 + 1)
  simp only [← Nat.add_assoc] at a2 a3 a4
  cases r
  · simp only [TgaReader.call, Tga8Reader.call]
    rcases QIODevice.getChar_cases s with h | ⟨c, h⟩ <;> rw [h] <;> assumption
  · simp only [TgaReader.call, Tga16Reader.call]
    rcases QIODevice.getChar_cases s with h | ⟨c, h⟩ <;> rw [h] <;> try assumption
    rcases QIODevice.getChar_cases { s with pos := s.pos + 1 } with h | ⟨c, h⟩ <;> simp only [h] <;>
      assumption
  · simp only [TgaReader.call, Tga24Reader.call]
    rcases QIODevice.getChar_cases s with h | ⟨c, h⟩ <;> rw [h] <;> try assumption
    rcases QIODevice.getChar_cases { s with pos := s.pos + 1 } with h | ⟨c, h⟩ <;> simp only [h] <;>
      try assumption
    rcases QIODevice.getChar_cases { s with pos := s.pos + 1 + 1 } with h | ⟨c, h⟩ <;>
      simp only [h] <;> assumption
  · simp only [TgaReader.call, Tga32Reader.call]
    rcases QIODevice.getChar_cases s with h | ⟨c, h⟩ <;> rw [h] <;> try assumption
    rcases QIODevice.getChar_cases { s with pos := s.pos + 1 } with h | ⟨c, h⟩ <;> simp only [h] <;>
      try assumption
    rcases QIODevice.getChar_cases { s with pos := s.pos + 1 + 1 } with h | ⟨c, h⟩ <;>
      simp only [h] <;> try assumption
    rcases QIODevice.getChar_cases { s with pos := s.pos + 1 + 1 + 1 } with h | ⟨c, h⟩ <;>
      simp only [h] <;> assumption

theorem TgaReader.getIndex_advanced (r : TgaReader) (s : QIODevice) :
    s.advanced (r.getIndex s).2 := by
  have a0 := QIODevice.advanced_refl s
  have a1 := QIODevice.advanced_add s 1
  have a2 := QIODevice.advanced_add s (1 + 1)
  have a3 := QIODevice.advanced_add s (1 + 1 + 1)
  have a4 := QIODevice.advanced_add s (1 + 1 + 1 + 1)
  simp only [← Nat.add_assoc] at a2 a3 a4
  cases r
  · simp only [TgaReader.getIndex, Tga8Reader.getIndex]
    rcases QIODevice.getChar_cases s with h | ⟨c, h⟩ <;> rw [h] <;> assumption
  · simp only [TgaReader.getIndex, Tga16Reader.getIndex]
    rcases QIODevice.getChar_cases s with h | ⟨c, h⟩ <;> rw [h] <;> try assumption
    rcases QIODevice.getChar_cases { s with pos := s.pos + 1 } with h | ⟨c, h⟩ <;> simp only [h] <;>
      assumption
  · simp only [TgaReader.getIndex, Tga24Reader.getIndex]
    rcases QIODevice.getChar_cases s with h | ⟨c, h⟩ <;> rw [h] <;> try assumption
    rcases QIODevice.getChar_cases { s with pos := s.pos + 1 } with h | ⟨c, h⟩ <;> simp only [h] <;>
      try assumption
    rcases QIODevice.getChar_cases { s with pos := s.pos + 1 + 1 } with h | ⟨c, h⟩ <;>
      simp only [h] <;> assumption
  · simp only [TgaReader.getIndex, Tga32Reader.getIndex]
    rcases QIODevice.getChar_cases s with h | ⟨c, h⟩ <;> rw [h] <;> try assumption
    rcases QIODevice.getChar_cases { s with pos := s.pos + 1 } with h | ⟨c, h⟩ <;> simp only [h] <;>
      try assumption
    rcases QIODevice.getChar_cases { s with pos := s.pos + 1 + 1 } with h | ⟨c, h⟩ <;>
      simp only [h] <;> try assumption
    rcases QIODevice.getChar_cases { s with pos := s.pos + 1 + 1 + 1 } with h | ⟨c, h⟩ <;>
      simp only [h] <;> assumption


/-! ## Lemmas: the constructor -/

/-- The state of the constructor once the 18 header bytes are in `mHeader`. -/
theorem QTgaFile.new_eq (s : QIODevice) (hr : s.readable = true) (hs : s.sequential = false)
    (hl : 18 ≤ s.data.length) :
    ∃ H : List Nat, (∀ i, i < 18 → H.getD i 0 = s.byteAt i) ∧ H.length = 18 ∧
      QTgaFile.new s =
        (let d : QIODevice := { s with pos := 18 }
         if ¬ ((0 ≤ H.getD 2 0 ∧ H.getD 2 0 ≤ 3) ∨ (9 ≤ H.getD 2 0 ∧ H.getD 2 0 ≤ 11)) then
          { mErrorMessage := "Image type not supported", mHeader := H, mDevice := d,
            m_bHighVersion := false }
         else
          let msg0 := if ¬ (H.getD 16 0 = 8 ∨ H.getD 16 0 = 16 ∨ H.getD 16 0 = 24 ∨ H.getD 16 0 = 32)
            then "Image depth not valid" else ""
          let sk2 := d.seek (toInt d.size - 26)
          if sk2.1 = false then
            { mErrorMessage := "Could not seek to image read footer", mHeader := H,
              mDevice := sk2.2, m_bHighVersion := false }
          else
            let ft := sk2.2.read 26
            let msg1 := if ft.1.length ≠ 26 then "Could not read footer" else msg0
            let sk3 := ft.2.seek (toInt 18)
            { mErrorMessage := if sk3.1 = false then "Could not reset to read data" else msg1,
              mHeader := H, mDevice := sk3.2,
              m_bHighVersion := (ft.1.drop 8).take 16 == signature }) := by
  obtain ⟨rd, sq, pe, data, pos⟩ := s
  simp only at hr hs hl
  subst hr hs
  refine ⟨(data.take 18).map (fun c => c % 256), ?_, ?_, ?_⟩
  · intro i hi
    simp only [QIODevice.byteAt]
    rw [List.getD_eq_getElem?_getD, List.getD_eq_getElem?_getD]
    simp only [List.getElem?_map, List.getElem?_take, hi, if_true]
    cases h : data[i]? <;> simp
  · simp; omega
  · have h18 : min 18 data.length = 18 := by omega
    simp [QTgaFile.new, QIODevice.seek, QIODevice.read, HeaderSize, h18, ImageType, PixelDepth,
      FooterSize, SignatureOffset, QIODevice.size]


/-! ## Lemmas: orientation and pixel access -/

theorem and_two_pow_ne_zero (n i : Nat) : ((n &&& 2 ^ i) != 0) = n.testBit i := by
  by_cases h : n.testBit i = true
  · rw [h]
    have : (n &&& 2 ^ i).testBit i = true := by
      rw [Nat.testBit_and, h, Nat.testBit_two_pow_self]; rfl
    have hne : n &&& 2 ^ i ≠ 0 := by
      intro h0; rw [h0] at this; simp at this
    simpa using hne
  · have hf : n.testBit i = false := by simpa using h
    rw [hf]
    have : n &&& 2 ^ i = 0 := by
      apply Nat.eq_of_testBit_eq
      intro j
      rw [Nat.testBit_and, Nat.zero_testBit]
      by_cases hj : i = j
      · subst hj; rw [hf]; rfl
      · rw [Nat.testBit_two_pow_of_ne hj]; simp
    rw [this]; rfl

theorem QTgaFile.xCorner_eq (f : QTgaFile) : f.xCorner = (f.hdr ImageDescriptor).testBit 4 :=
  and_two_pow_ne_zero _ 4

theorem QTgaFile.yCorner_eq (f : QTgaFile) : f.yCorner = (f.hdr ImageDescriptor).testBit 5 :=
  and_two_pow_ne_zero _ 5

theorem QTgaFile.curX_eq (f : QTgaFile) (x : Nat) (hx : x < f.width) :
    f.curX x = ((specOutX (f.hdr ImageDescriptor) f.width x : Nat) : Int) := by
  unfold QTgaFile.curX specOutX
  rw [QTgaFile.xCorner_eq]
  split <;> omega

theorem QTgaFile.curY_eq (f : QTgaFile) (y : Nat) (hy : y < f.height) :
    f.curY y = ((specOutY (f.hdr ImageDescriptor) f.height y : Nat) : Int) := by
  unfold QTgaFile.curY specOutY
  rw [QTgaFile.yCorner_eq]
  cases (f.hdr ImageDescriptor).testBit 5
  · simp; omega
  · simp

theorem specOutX_lt (d w x : Nat) (hx : x < w) : specOutX d w x < w := by
  unfold specOutX; split <;> omega

theorem specOutY_lt (d h y : Nat) (hy : y < h) : specOutY d h y < h := by
  unfold specOutY; split <;> omega

theorem specOutX_inj (d w x x' : Nat) (hx : x < w) (hx' : x' < w)
    (h : specOutX d w x = specOutX d w x') : x = x' := by
  unfold specOutX at h; split at h <;> omega

theorem specOutY_inj (d h y y' : Nat) (hy : y < h) (hy' : y' < h)
    (e : specOutY d h y = specOutY d h y') : y = y' := by
  unfold specOutY at e; split at e <;> omega

theorem index_inj (w X Y X' Y' : Nat) (hX : X < w) (hX' : X' < w)
    (h : Y * w + X = Y' * w + X') : X = X' ∧ Y = Y' := by
  have h1 : (Y * w + X) % w = X := by
    rw [Nat.add_comm, Nat.add_mul_mod_self_right]; exact Nat.mod_eq_of_lt hX
  have h2 : (Y' * w + X') % w = X' := by
    rw [Nat.add_comm, Nat.add_mul_mod_self_right]; exact Nat.mod_eq_of_lt hX'
  have h3 : (Y * w + X) / w = Y := by
    rw [Nat.add_comm, Nat.add_mul_div_right _ _ (by omega), Nat.div_eq_of_lt hX]; omega
  have h4 : (Y' * w + X') / w = Y' := by
    rw [Nat.add_comm, Nat.add_mul_div_right _ _ (by omega), Nat.div_eq_of_lt hX']; omega
  rw [h] at h1 h3
  exact ⟨by rw [← h1, h2], by rw [← h3, h4]⟩

theorem index_lt (w h X Y : Nat) (hX : X < w) (hY : Y < h) : Y * w + X < w * h := by
  have : (Y + 1) * w ≤ h * w := Nat.mul_le_mul_right w hY
  rw [Nat.mul_comm w h]
  rw [Nat.add_mul] at this
  omega

theorem QImage.setPixel_pixel (img : QImage) (X Y : Nat) (c : QRgb)
    (hX : X < img.width) (hY : Y < img.height)
    (hlen : img.pixels.length = img.width * img.height) (X' Y' : Nat) :
    (img.setPixel X Y c).pixel X' Y' = if X' = X ∧ Y' = Y then some c else img.pixel X' Y' := by
  have hcond : (0 : Int) ≤ X ∧ (X : Int) < img.width ∧ (0 : Int) ≤ Y ∧ (Y : Int) < img.height := by
    omega
  unfold QImage.setPixel
  rw [if_pos hcond]
  unfold QImage.pixel
  simp only [Int.toNat_ofNat]
  by_cases hin : X' < img.width ∧ Y' < img.height
  · rw [if_pos hin, if_pos hin]
    rw [List.getD_eq_getElem?_getD, List.getD_eq_getElem?_getD, List.getElem?_set]
    by_cases he : Y * img.width + X = Y' * img.width + X'
    · obtain ⟨e1, e2⟩ := index_inj _ _ _ _ _ hX hin.1 he
      have hlt := index_lt _ _ _ _ hX hY
      subst e1 e2
      simp [hlen, hlt]
    · have hne : ¬ (X' = X ∧ Y' = Y) := by
        rintro ⟨rfl, rfl⟩; exact he rfl
      rw [if_neg he, if_neg hne]
  · rw [if_neg hin, if_neg hin]
    have hne : ¬ (X' = X ∧ Y' = Y) := by
      rintro ⟨rfl, rfl⟩; exact hin ⟨hX, hY⟩
    rw [if_neg hne]


/-! ## Lemmas: the logical cursor and the inner loops -/

theorem cursor_succ (w k : Nat) (hw : 0 < w) :
    (if k % w + 1 = w then ((0 : Nat), k / w + 1) else (k % w + 1, k / w)) =
      ((k + 1) % w, (k + 1) / w) := by
  have hlt := Nat.mod_lt k hw
  have hk := Nat.div_add_mod k w
  by_cases h : k % w + 1 = w
  · rw [if_pos h]
    have e : k + 1 = w * (k / w + 1) := by rw [Nat.mul_add]; omega
    rw [e, Nat.mul_mod_right, Nat.mul_div_cancel_left _ hw]
  · rw [if_neg h]
    have e : k + 1 = w * (k / w) + (k % w + 1) := by omega
    have hlt2 : k % w + 1 < w := by omega
    rw [e, Nat.mul_add_mod, Nat.mod_eq_of_lt hlt2, Nat.mul_add_div hw, Nat.div_eq_of_lt hlt2]
    simp

theorem QTgaFile.width_lt (f : QTgaFile) : f.width < 2 ^ 16 :=
  Nat.mod_lt _ (by decide)

theorem QTgaFile.putPixel_eq (f : QTgaFile) (hw : 0 < f.width) (k : Nat) (img : QImage)
    (dev dev1 : QIODevice) (c : QRgb) :
    putPixel f { x := k % f.width, y := k / f.width, img := img, dev := dev } c dev1 =
      .ok { x := (k + 1) % f.width, y := (k + 1) / f.width, img := writeAt f img k c,
            dev := dev1 } := by
  have h := cursor_succ f.width k hw
  have hlt := Nat.mod_lt k hw
  have hwl := f.width_lt
  unfold putPixel writeAt
  simp only
  rw [if_neg (by omega)]
  by_cases hc : k % f.width + 1 = f.width
  · rw [if_pos hc] at h ⊢
    simp only [Prod.mk.injEq] at h
    rw [← h.1, ← h.2]
  · rw [if_neg hc] at h ⊢
    simp only [Prod.mk.injEq] at h
    rw [← h.1, ← h.2]

theorem QTgaFile.writeSeq_append (f : QTgaFile) (img : QImage) (k : Nat) (cs ds : List QRgb) :
    writeSeq f img k (cs ++ ds) = writeSeq f (writeSeq f img k cs) (k + cs.length) ds := by
  induction cs generalizing img k with
  | nil => simp [writeSeq]
  | cons c cs ih =>
    have e : k + (c :: cs).length = k + 1 + cs.length := by simp only [List.length_cons]; omega
    rw [List.cons_append, e]
    simp only [writeSeq]
    exact ih _ _

theorem readSamples_length (r : TgaReader) (n : Nat) (d : QIODevice) :
    (readSamples r n d).1.length = n := by
  induction n generalizing d with
  | zero => rfl
  | succ n ih => simp [readSamples, ih]

theorem readSamples_add (r : TgaReader) (m n : Nat) (d : QIODevice) :
    readSamples r (m + n) d =
      ((readSamples r m d).1 ++ (readSamples r n (readSamples r m d).2).1,
        (readSamples r n (readSamples r m d).2).2) := by
  induction m generalizing d with
  | zero => simp [readSamples]
  | succ m ih =>
    have e : m + 1 + n = (m + n) + 1 := by omega
    rw [e]
    simp only [readSamples, ih, List.cons_append]

theorem readSamples_advanced (r : TgaReader) (n : Nat) (d : QIODevice) :
    d.advanced (readSamples r n d).2 := by
  induction n generalizing d with
  | zero => exact QIODevice.advanced_refl d
  | succ n ih =>
    simp only [readSamples]
    exact QIODevice.advanced_trans (TgaReader.call_advanced r d) (ih _)

/-- The inner loop of a repeat packet writes the one color `number` times. -/
theorem QTgaFile.rleRun_repeat (f : QTgaFile) (pReader : Option TgaReader) (rep : Nat)
    (hrep : rep ≠ 0) (hw : 0 < f.width) (n k : Nat) (c : QRgb) (img : QImage) (dev : QIODevice) :
    rleRun f pReader rep n c { x := k % f.width, y := k / f.width, img := img, dev := dev } =
      .ok { x := (k + n) % f.width, y := (k + n) / f.width,
            img := writeSeq f img k (List.replicate n c), dev := dev } := by
  induction n generalizing k img with
  | zero => simp [rleRun, writeSeq]
  | succ n ih =>
    simp only [rleRun, if_neg hrep, List.replicate_succ, writeSeq]
    rw [QTgaFile.putPixel_eq f hw]
    simp only
    rw [ih]
    have e : k + 1 + n = k + (n + 1) := by omega
    rw [e]

/-- The inner loop of a raw packet writes the samples it reads, in the order read. -/
theorem QTgaFile.rleRun_raw (f : QTgaFile) (r : TgaReader)
    (hw : 0 < f.width) (n k : Nat) (c : QRgb) (img : QImage) (dev : QIODevice) :
    rleRun f (some r) 0 n c { x := k % f.width, y := k / f.width, img := img, dev := dev } =
      .ok { x := (k + n) % f.width, y := (k + n) / f.width,
            img := writeSeq f img k (readSamples r n dev).1, dev := (readSamples r n dev).2 } := by
  induction n generalizing k img dev c with
  | zero => simp [rleRun, writeSeq, readSamples]
  | succ n ih =>
    simp only [rleRun, if_true, callReader, readSamples, writeSeq]
    rw [QTgaFile.putPixel_eq f hw]
    simp only
    rw [ih]
    have e : k + 1 + n = k + (n + 1) := by omega
    rw [e]


/-! ## Lemmas: sequences of writes and of sample reads -/

theorem QTgaFile.cursor_lt (f : QTgaFile) (k : Nat) (hk : k < f.width * f.height) :
    k % f.width < f.width ∧ k / f.width < f.height := by
  have hw : 0 < f.width := by
    rcases Nat.eq_zero_or_pos f.width with h | h
    · rw [h] at hk; simp at hk
    · exact h
  refine ⟨Nat.mod_lt _ hw, ?_⟩
  rw [Nat.div_lt_iff_lt_mul hw, Nat.mul_comm]
  exact hk

theorem QTgaFile.out_lt (f : QTgaFile) (k : Nat) (hk : k < f.width * f.height) :
    f.outX k < f.width ∧ f.outY k < f.height :=
  ⟨specOutX_lt _ _ _ (f.cursor_lt k hk).1, specOutY_lt _ _ _ (f.cursor_lt k hk).2⟩

theorem QTgaFile.out_inj (f : QTgaFile) (k k' : Nat) (hk : k < f.width * f.height)
    (hk' : k' < f.width * f.height) (hx : f.outX k = f.outX k') (hy : f.outY k = f.outY k') :
    k = k' := by
  have h1 := specOutX_inj _ _ _ _ (f.cursor_lt k hk).1 (f.cursor_lt k' hk').1 hx
  have h2 := specOutY_inj _ _ _ _ (f.cursor_lt k hk).2 (f.cursor_lt k' hk').2 hy
  have e1 := Nat.div_add_mod k f.width
  have e2 := Nat.div_add_mod k' f.width
  rw [h1, h2] at e1
  omega

theorem QTgaFile.writeAt_eq (f : QTgaFile) (img : QImage) (k : Nat) (c : QRgb)
    (hk : k < f.width * f.height) :
    writeAt f img k c = img.setPixel (f.outX k) (f.outY k) c := by
  unfold writeAt outX outY
  rw [f.curX_eq _ (f.cursor_lt k hk).1, f.curY_eq _ (f.cursor_lt k hk).2]

theorem QTgaFile.writeAt_fits (f : QTgaFile) (img : QImage) (k : Nat) (c : QRgb)
    (hf : f.fits img) (hk : k < f.width * f.height) :
    f.fits (writeAt f img k c) ∧ (writeAt f img k c).warnings = img.warnings := by
  obtain ⟨h1, h2, h3⟩ := hf
  have ho := f.out_lt k hk
  have hcond : (0 : Int) ≤ f.outX k ∧ (f.outX k : Int) < img.width ∧ (0 : Int) ≤ f.outY k ∧
      (f.outY k : Int) < img.height := by
    rw [h1, h2]; omega
  rw [f.writeAt_eq img k c hk]
  unfold QImage.setPixel
  rw [if_pos hcond]
  exact ⟨⟨h1, h2, by simp [h3]⟩, rfl⟩

theorem QTgaFile.writeAt_pixel (f : QTgaFile) (img : QImage) (k : Nat) (c : QRgb)
    (hf : f.fits img) (hk : k < f.width * f.height) (X Y : Nat) :
    (writeAt f img k c).pixel X Y =
      if X = f.outX k ∧ Y = f.outY k then some c else img.pixel X Y := by
  obtain ⟨h1, h2, h3⟩ := hf
  have ho := f.out_lt k hk
  rw [f.writeAt_eq img k c hk]
  exact QImage.setPixel_pixel img _ _ c (by rw [h1]; exact ho.1) (by rw [h2]; exact ho.2)
    (by rw [h3, h1, h2]) X Y

/-- The image after the writes for the stream pixels `k, k+1, ...`, all inside the
raster: the `i`-th color is at the output position of pixel `k + i`, every other pixel
is as before, and no write is refused. -/
theorem QTgaFile.writeSeq_spec (f : QTgaFile) (cs : List QRgb) (img : QImage) (k : Nat)
    (hf : f.fits img) (hk : k + cs.length ≤ f.width * f.height) :
    f.fits (writeSeq f img k cs) ∧ (writeSeq f img k cs).warnings = img.warnings ∧
    (∀ i c, cs[i]? = some c → (writeSeq f img k cs).pixel (f.outX (k + i)) (f.outY (k + i)) = some c) ∧
    (∀ X Y, (∀ i, i < cs.length → ¬ (X = f.outX (k + i) ∧ Y = f.outY (k + i))) →
      (writeSeq f img k cs).pixel X Y = img.pixel X Y) := by
  induction cs generalizing img k with
  | nil =>
    refine ⟨hf, rfl, ?_, ?_⟩
    · intro i c h; simp at h
    · intro X Y _; rfl
  | cons c0 cs ih =>
    simp only [List.length_cons] at hk
    have hk0 : k < f.width * f.height := by omega
    obtain ⟨hf1, hw1⟩ := f.writeAt_fits img k c0 hf hk0
    obtain ⟨i1, i2, i3, i4⟩ := ih (writeAt f img k c0) (k + 1) hf1 (by omega)
    simp only [writeSeq]
    refine ⟨i1, by rw [i2, hw1], ?_, ?_⟩
    · intro i c h
      cases i with
      | zero =>
        simp only [List.getElem?_cons_zero, Option.some.injEq] at h
        subst h
        rw [i4, f.writeAt_pixel img k c0 hf hk0]
        · simp
        · intro j hj hjj
          have := f.out_inj (k + 0) (k + 1 + j) (by omega) (by omega) hjj.1 hjj.2
          omega
      | succ j =>
        simp only [List.getElem?_cons_succ] at h
        have := i3 j c h
        have e : k + 1 + j = k + (j + 1) := by omega
        rw [e] at this
        exact this
    · intro X Y hXY
      rw [i4, f.writeAt_pixel img k c0 hf hk0]
      · have := hXY 0 (by simp)
        rw [Nat.add_zero] at this
        rw [if_neg this]
      · intro j hj
        have := hXY (j + 1) (by simp; omega)
        have e : k + 1 + j = k + (j + 1) := by omega
        rw [e]
        exact this

theorem readSamples_of_fit (r : TgaReader) (n : Nat) (d : QIODevice)
    (h : d.pos + n * r.bytes ≤ d.data.length) :
    (readSamples r n d).2 = { d with pos := d.pos + n * r.bytes } ∧
    ∀ i, i < n →
      (readSamples r n d).1[i]? = some (r.call { d with pos := d.pos + i * r.bytes }).1 := by
  induction n generalizing d with
  | zero => exact ⟨by simp [readSamples], by intro i hi; omega⟩
  | succ n ih =>
    rw [Nat.add_mul, Nat.one_mul] at h
    have hc := TgaReader.call_of_fit r d (by omega)
    have hi := ih (r.call d).2 (by rw [hc]; simp only; omega)
    simp only [readSamples]
    refine ⟨?_, ?_⟩
    · rw [hi.1, hc]; simp only [QIODevice.mk.injEq, true_and]
      rw [Nat.add_mul]; omega
    · intro i hlt
      cases i with
      | zero => simp
      | succ j =>
        simp only [List.getElem?_cons_succ]
        rw [hi.2 j (by omega), hc]
        simp only
        have e : d.pos + r.bytes + j * r.bytes = d.pos + (j + 1) * r.bytes := by
          rw [Nat.add_mul]; omega
        rw [e]


/-! ## Lemmas: packet headers -/

theorem newReader_bytes (depth : Nat) (r : TgaReader) (h : newReader depth = some r) :
    r.bytes = depth / 8 := by
  unfold newReader at h
  split at h
  · cases h; subst_vars; rfl
  · split at h
    · cases h; subst_vars; rfl
    · split at h
      · cases h; subst_vars; rfl
      · split at h
        · cases h; subst_vars; rfl
        · cases h

theorem shiftRight_seven (b : Nat) (hb : b < 256) :
    b >>> 7 = if b.testBit 7 then 1 else 0 := by
  rw [Nat.shiftRight_eq_div_pow, Nat.testBit_to_div_mod]
  have : b / 2 ^ 7 < 2 := by
    rw [Nat.div_lt_iff_lt_mul (by decide)]; exact hb
  by_cases h1 : b / 2 ^ 7 % 2 = 1
  · simp only [h1, decide_True, if_true]; omega
  · simp only [h1, decide_False]; simp; omega

theorem TgaRleReader.call_of_lt (s : QIODevice) (h : s.pos < s.data.length) :
    TgaRleReader.call s =
      ({ repeat_ := if (s.byteAt s.pos).testBit 7 then 1 else 0,
         number := (s.byteAt s.pos &&& 0x7F) + 1 }, { s with pos := s.pos + 1 }) := by
  unfold TgaRleReader.call
  rw [QIODevice.getChar_of_lt s h]
  simp only [QIODevice.byteAt]
  rw [shiftRight_seven _ (Nat.mod_lt _ (by decide))]

theorem TgaRleReader.call_of_ge (s : QIODevice) (h : s.data.length ≤ s.pos) :
    TgaRleReader.call s = ({ repeat_ := 0, number := 0 }, s) := by
  unfold TgaRleReader.call
  rw [QIODevice.getChar_of_ge s h]

theorem QTgaFile.cursor_of_lt (f : QTgaFile) (x y : Nat) (hx : x < f.width) :
    (y * f.width + x) % f.width = x ∧ (y * f.width + x) / f.width = y := by
  constructor
  · rw [Nat.add_comm, Nat.add_mul_mod_self_right]; exact Nat.mod_eq_of_lt hx
  · rw [Nat.add_comm, Nat.add_mul_div_right _ _ (by omega), Nat.div_eq_of_lt hx]; omega


/-! ## Lemmas: the uncompressed direct-color path -/

theorem Except.bind_ok_eq {ε α β : Type} (a : α) (g : α → Except ε β) :
    (Except.ok a >>= g) = g a := rfl

/-- One row of `noCompressProcess`, up to column `m`. -/
theorem QTgaFile.noCompress_row (f : QTgaFile) (r : TgaReader) (y m : Nat) (hm : m ≤ f.width)
    (img : QImage) (dev : QIODevice) :
    (List.range m).foldlM (fun st x => noCompressPixel f (some r) x y st) (img, dev) =
      .ok (writeSeq f img (y * f.width) (readSamples r m dev).1, (readSamples r m dev).2) := by
  induction m with
  | zero => rfl
  | succ m ih =>
    rw [List.range_succ, List.foldlM_append, ih (by omega), Except.bind_ok_eq]
    rw [readSamples_add r m 1 dev]
    simp only [List.foldlM_cons, List.foldlM_nil, noCompressPixel, callReader, readSamples,
      writeSeq_append, writeSeq, readSamples_length]
    have hc := f.cursor_of_lt m y (by omega)
    simp only [writeAt, hc.1, hc.2]
    rfl

/-- The rows `0 .. n-1` of `noCompressProcess`. -/
theorem QTgaFile.noCompress_rows (f : QTgaFile) (r : TgaReader) (n : Nat)
    (img : QImage) (dev : QIODevice) :
    (List.range n).foldlM
        (fun st y => (List.range f.width).foldlM (fun st x => noCompressPixel f (some r) x y st) st)
        (img, dev) =
      .ok (writeSeq f img 0 (readSamples r (n * f.width) dev).1,
           (readSamples r (n * f.width) dev).2) := by
  induction n with
  | zero => simp [readSamples, writeSeq]; rfl
  | succ n ih =>
    rw [List.range_succ, List.foldlM_append, ih, Except.bind_ok_eq]
    simp only [List.foldlM_cons, List.foldlM_nil]
    rw [f.noCompress_row r n f.width (le_refl _)]
    have e : (n + 1) * f.width = n * f.width + f.width := by rw [Nat.add_mul]; omega
    rw [e, readSamples_add, writeSeq_append, readSamples_length, Nat.zero_add]
    rfl

/-- The uncompressed direct-color path writes the samples it reads, in stream order. -/
theorem QTgaFile.noCompressProcess_eq (f : QTgaFile) (r : TgaReader)
    (img : QImage) (dev : QIODevice) :
    noCompressProcess f (some r) (img, dev) =
      .ok (writeSeq f img 0 (readSamples r (f.height * f.width) dev).1,
           (readSamples r (f.height * f.width) dev).2) :=
  f.noCompress_rows r f.height img dev


/-! ## Lemmas: colors, image creation, seeking -/

theorem lor_eq_add (a b i : Nat) (ha : 2 ^ i ∣ a) (hb : b < 2 ^ i) : a ||| b = a + b := by
  obtain ⟨q, rfl⟩ := ha
  exact (Nat.mul_add_lt_is_or hb q).symm

theorem qRgb_eq (r g b : Nat) (hr : r < 256) (hg : g < 256) (hb : b < 256) :
    qRgb r g b = 255 * 2 ^ 24 + r * 2 ^ 16 + g * 2 ^ 8 + b := by
  unfold qRgb
  have e : (0xff : Nat) = 2 ^ 8 - 1 := by decide
  rw [e, Nat.and_pow_two_sub_one_eq_mod, Nat.and_pow_two_sub_one_eq_mod,
    Nat.and_pow_two_sub_one_eq_mod, Nat.mod_eq_of_lt hr, Nat.mod_eq_of_lt hg, Nat.mod_eq_of_lt hb]
  simp only [Nat.shiftLeft_eq]
  rw [lor_eq_add _ (r * 2 ^ 16) 24 ⟨255, by decide⟩ (by omega)]
  rw [lor_eq_add _ (g * 2 ^ 8) 16 ⟨255 * 2 ^ 8 + r, by omega⟩ (by omega)]
  rw [lor_eq_add _ b 8 ⟨255 * 2 ^ 16 + r * 2 ^ 8 + g, by omega⟩ (by omega)]

theorem QImage.create_fits (f : QTgaFile) (hw : 1 ≤ f.width) (hh : 1 ≤ f.height) :
    f.fits (QImage.create f.width f.height) := by
  unfold QImage.create
  rw [if_neg (by omega)]
  exact ⟨rfl, rfl, by simp⟩

theorem QIODevice.byteAt_pos (s : QIODevice) (p i : Nat) :
    ({ s with pos := p } : QIODevice).byteAt i = s.byteAt i := rfl


theorem QIODevice.seek_of_le (s : QIODevice) (p : Nat) (h : p ≤ s.data.length ∨ s.seekPastEnd = true) :
    s.seek (p : Int) = (true, { s with pos := p }) := by
  unfold QIODevice.seek
  rw [if_pos ⟨by omega, by simpa using h⟩]
  simp

theorem QIODevice.byteAt_lt (s : QIODevice) (i : Nat) : s.byteAt i < 256 :=
  Nat.mod_lt _ (by decide)


/-! ## Lemmas: validity after construction -/

theorem QIODevice.read_length (s : QIODevice) (n : Nat) :
    (s.read n).1.length = min n (s.data.length - s.pos) := by
  simp [QIODevice.read]

theorem toInt_le (n : Nat) : toInt n ≤ (n : Int) := by
  unfold toInt
  have := Nat.mod_le n (2 ^ 32)
  split <;> omega

theorem toInt_of_lt (n : Nat) (h : n < 2 ^ 31) : toInt n = (n : Int) := by
  unfold toInt
  have e : n % 2 ^ 32 = n := Nat.mod_eq_of_lt (by omega)
  rw [e, if_pos h]

/-- The constructor on a readable random-access source of at least 18 bytes: the decoder
is valid exactly when the type code and the depth are supported and the footer seek has a
non-negative target. -/
theorem QTgaFile.new_isValid_iff (s : QIODevice) (hr : s.readable = true)
    (hs : s.sequential = false) (hl : 18 ≤ s.data.length) :
    (QTgaFile.new s).isValid = true ↔
      (s.byteAt 2 ≤ 3 ∨ (9 ≤ s.byteAt 2 ∧ s.byteAt 2 ≤ 11)) ∧
      (s.byteAt 16 = 8 ∨ s.byteAt 16 = 16 ∨ s.byteAt 16 = 24 ∨ s.byteAt 16 = 32) ∧
      26 ≤ toInt s.data.length := by
  obtain ⟨H, hH, hlen, hnew⟩ := QTgaFile.new_eq s hr hs hl
  rw [hnew, hH 2 (by omega), hH 16 (by omega)]
  have hle := toInt_le s.data.length
  have h18 : toInt 18 = 18 := by decide
  simp only [QIODevice.size, h18]
  by_cases hty : (0 ≤ s.byteAt 2 ∧ s.byteAt 2 ≤ 3) ∨ (9 ≤ s.byteAt 2 ∧ s.byteAt 2 ≤ 11)
  · have hty' : s.byteAt 2 ≤ 3 ∨ (9 ≤ s.byteAt 2 ∧ s.byteAt 2 ≤ 11) := by omega
    simp only [hty, not_true_eq_false, if_false, hty', true_and]
    by_cases hft : 26 ≤ toInt s.data.length
    · have hsk : ({ s with pos := 18 } : QIODevice).seek (toInt s.data.length - 26) =
          (true, { s with pos := (toInt s.data.length - 26).toNat }) := by
        unfold QIODevice.seek
        rw [if_pos ⟨by omega, Or.inl (by simp only; omega)⟩]
      have hrd : (({ s with pos := (toInt s.data.length - 26).toNat } : QIODevice).read 26).1.length
          = 26 := by
        rw [QIODevice.read_length]; simp only; omega
      have hrd2 : (({ s with pos := (toInt s.data.length - 26).toNat } : QIODevice).read 26).2 =
          { s with pos := (toInt s.data.length - 26).toNat + 26 } := by
        have := hrd
        simp only [QIODevice.read] at this ⊢
        rw [List.length_map] at this
        rw [this]
      have hsk3 : ({ s with pos := (toInt s.data.length - 26).toNat + 26 } : QIODevice).seek 18 =
          (true, { s with pos := 18 }) := by
        unfold QIODevice.seek
        rw [if_pos ⟨by omega, Or.inl (by simp only; omega)⟩]
        rfl
      simp only [hsk, hrd, hrd2, hsk3, Bool.true_eq_false, if_false, ne_eq, not_true_eq_false,
        hft, and_true]
      by_cases hd : s.byteAt 16 = 8 ∨ s.byteAt 16 = 16 ∨ s.byteAt 16 = 24 ∨ s.byteAt 16 = 32
      · simp only [hd, not_true_eq_false, if_false, iff_true]; rfl
      · simp only [hd, not_false_eq_true, if_true, iff_false, isValid]; decide
    · have hsk : ({ s with pos := 18 } : QIODevice).seek (toInt s.data.length - 26) =
          (false, { s with pos := 18 }) := by
        unfold QIODevice.seek
        rw [if_neg (by omega)]
      simp only [hsk, if_true, hft, and_false, iff_false, isValid]
      decide
  · have hty' : ¬ (s.byteAt 2 ≤ 3 ∨ (9 ≤ s.byteAt 2 ∧ s.byteAt 2 ≤ 11)) := by omega
    simp only [hty, not_false_eq_true, if_true, hty', false_and, iff_false, isValid]
    decide


theorem QTgaFile.new_hdr (s : QIODevice) (hr : s.readable = true) (hs : s.sequential = false)
    (hl : 18 ≤ s.data.length) (i : Nat) (hi : i < 18) :
    (QTgaFile.new s).hdr i = s.byteAt i := by
  obtain ⟨H, hH, hlen, hnew⟩ := QTgaFile.new_eq s hr hs hl
  rw [hnew, ← hH i hi]
  simp only [hdr]
  split
  · rfl
  · split <;> rfl


theorem QTgaFile.readImage_type_zero (f : QTgaFile) (h : f.hdr ImageType = 0) :
    f.readImage = .ok (QImage.null, f) := by
  unfold readImage
  by_cases hv : f.isValid = false
  · rw [if_pos hv]
  · rw [if_neg hv, if_pos h]


/-! ## Lemmas: the decode paths look at the header only -/

theorem QTgaFile.width_congr {f g : QTgaFile} (h : f.mHeader = g.mHeader) : f.width = g.width := by
  simp only [width, h]

theorem QTgaFile.height_congr {f g : QTgaFile} (h : f.mHeader = g.mHeader) :
    f.height = g.height := by
  simp only [height, h]

theorem QTgaFile.hdr_congr {f g : QTgaFile} (h : f.mHeader = g.mHeader) : f.hdr = g.hdr := by
  funext i; simp only [hdr, h]

theorem QTgaFile.curX_congr {f g : QTgaFile} (h : f.mHeader = g.mHeader) : f.curX = g.curX := by
  funext x; simp only [curX, xCorner, width_congr h, hdr_congr h]

theorem QTgaFile.curY_congr {f g : QTgaFile} (h : f.mHeader = g.mHeader) : f.curY = g.curY := by
  funext y; simp only [curY, yCorner, height_congr h, hdr_congr h]

theorem QTgaFile.compression_congr {f g : QTgaFile} (h : f.mHeader = g.mHeader) :
    f.compression = g.compression := by
  simp only [compression, hdr_congr h]

theorem QTgaFile.putPixel_congr {f g : QTgaFile} (h : f.mHeader = g.mHeader) :
    putPixel f = putPixel g := by
  funext st c dev; simp only [putPixel, curX_congr h, curY_congr h, width_congr h]

theorem QTgaFile.noCompressProcess_congr {f g : QTgaFile} (h : f.mHeader = g.mHeader) :
    noCompressProcess f = noCompressProcess g := by
  funext r st
  simp only [noCompressProcess, noCompressPixel, curX_congr h, curY_congr h, width_congr h,
    height_congr h]

theorem QTgaFile.noCompressCMapProcess_congr {f g : QTgaFile} (h : f.mHeader = g.mHeader) :
    noCompressCMapProcess f = noCompressCMapProcess g := by
  funext cm r st
  simp only [noCompressCMapProcess, noCompressCMapPixel, curX_congr h, curY_congr h,
    width_congr h, height_congr h]

theorem QTgaFile.rleRun_congr {f g : QTgaFile} (h : f.mHeader = g.mHeader) :
    rleRun f = rleRun g := by
  funext r rep n
  induction n with
  | zero => funext c st; simp only [rleRun]
  | succ n ih => funext c st; simp only [rleRun, ih, putPixel_congr h]

theorem QTgaFile.rleCMapRun_congr {f g : QTgaFile} (h : f.mHeader = g.mHeader) :
    rleCMapRun f = rleCMapRun g := by
  funext cm r rep n
  induction n with
  | zero => funext c st; simp only [rleCMapRun]
  | succ n ih => funext c st; simp only [rleCMapRun, ih, putPixel_congr h]

theorem QTgaFile.rleLoop_congr {f g : QTgaFile} (h : f.mHeader = g.mHeader) :
    rleLoop f = rleLoop g := by
  funext r fuel
  induction fuel with
  | zero => funext st; simp only [rleLoop, height_congr h]
  | succ n ih => funext st; simp only [rleLoop, ih, height_congr h, rlePacket, rleRun_congr h]

theorem QTgaFile.rleCMapLoop_congr {f g : QTgaFile} (h : f.mHeader = g.mHeader) :
    rleCMapLoop f = rleCMapLoop g := by
  funext cm r fuel
  induction fuel with
  | zero => funext st; simp only [rleCMapLoop, height_congr h]
  | succ n ih =>
    funext st; simp only [rleCMapLoop, ih, height_congr h, rleCMapPacket, rleCMapRun_congr h]

theorem QTgaFile.rleProcess_congr {f g : QTgaFile} (h : f.mHeader = g.mHeader) :
    rleProcess f = rleProcess g := by
  funext r st; simp only [rleProcess, rleLoop_congr h]

theorem QTgaFile.rleCMapProcess_congr {f g : QTgaFile} (h : f.mHeader = g.mHeader) :
    rleCMapProcess f = rleCMapProcess g := by
  funext cm r st; simp only [rleCMapProcess, rleCMapLoop_congr h]


/-! ## Lemmas: a decode path only moves the cursor forward -/

theorem foldlM_advanced {α : Type} (step : QImage × QIODevice → α → Except Fault (QImage × QIODevice))
    (hstep : ∀ st a st1, step st a = .ok st1 → st.2.advanced st1.2) :
    ∀ (l : List α) (st st1 : QImage × QIODevice), l.foldlM step st = .ok st1 →
      st.2.advanced st1.2 := by
  intro l
  induction l with
  | nil =>
    intro st st1 h
    simp only [List.foldlM_nil, pure, Except.pure, Except.ok.injEq] at h
    rw [h]; exact QIODevice.advanced_refl _
  | cons a l ih =>
    intro st st1 h
    rw [List.foldlM_cons] at h
    cases hs : step st a with
    | error e => rw [hs] at h; cases h
    | ok st2 =>
      rw [hs, Except.bind_ok_eq] at h
      exact QIODevice.advanced_trans (hstep st a st2 hs) (ih st2 st1 h)

theorem QTgaFile.callReader_advanced (pReader : Option TgaReader) (s : QIODevice)
    (v : QRgb × QIODevice) (h : callReader pReader s = .ok v) : s.advanced v.2 := by
  cases pReader with
  | none => cases h
  | some r =>
    simp only [callReader, Except.ok.injEq] at h
    rw [← h]; exact TgaReader.call_advanced r s

theorem QTgaFile.callGetIndex_advanced (pReader : Option TgaReader) (s : QIODevice)
    (v : Int × QIODevice) (h : callGetIndex pReader s = .ok v) : s.advanced v.2 := by
  cases pReader with
  | none => cases h
  | some r =>
    simp only [callGetIndex, Except.ok.injEq] at h
    rw [← h]; exact TgaReader.getIndex_advanced r s

theorem QTgaFile.noCompressPixel_advanced (f : QTgaFile) (pReader : Option TgaReader) (x y : Nat)
    (st st1 : QImage × QIODevice) (h : noCompressPixel f pReader x y st = .ok st1) :
    st.2.advanced st1.2 := by
  unfold noCompressPixel at h
  cases hc : callReader pReader st.2 with
  | error e => rw [hc] at h; cases h
  | ok v =>
    rw [hc] at h
    simp only [Except.ok.injEq] at h
    rw [← h]; exact callReader_advanced _ _ _ hc

theorem QTgaFile.noCompressCMapPixel_advanced (f : QTgaFile) (cMap : List QRgb)
    (pReader : Option TgaReader) (x y : Nat)
    (st st1 : QImage × QIODevice) (h : noCompressCMapPixel f cMap pReader x y st = .ok st1) :
    st.2.advanced st1.2 := by
  unfold noCompressCMapPixel at h
  cases hc : callGetIndex pReader st.2 with
  | error e => rw [hc] at h; cases h
  | ok v =>
    rw [hc] at h
    simp only at h
    cases hm : cMapAt cMap v.1 with
    | error e => rw [hm] at h; cases h
    | ok c =>
      rw [hm] at h
      simp only [Except.ok.injEq] at h
      rw [← h]; exact callGetIndex_advanced _ _ _ hc

theorem QTgaFile.noCompressProcess_advanced (f : QTgaFile) (pReader : Option TgaReader)
    (st st1 : QImage × QIODevice) (h : noCompressProcess f pReader st = .ok st1) :
    st.2.advanced st1.2 := by
  unfold noCompressProcess at h
  refine foldlM_advanced _ ?_ _ st st1 h
  intro s y s1 hrow
  exact foldlM_advanced _ (fun a x b hh => noCompressPixel_advanced f pReader x y a b hh) _ s s1 hrow

theorem QTgaFile.noCompressCMapProcess_advanced (f : QTgaFile) (cMap : List QRgb)
    (pReader : Option TgaReader)
    (st st1 : QImage × QIODevice) (h : noCompressCMapProcess f cMap pReader st = .ok st1) :
    st.2.advanced st1.2 := by
  unfold noCompressCMapProcess at h
  refine foldlM_advanced _ ?_ _ st st1 h
  intro s y s1 hrow
  exact foldlM_advanced _
    (fun a x b hh => noCompressCMapPixel_advanced f cMap pReader x y a b hh) _ s s1 hrow

theorem QTgaFile.putPixel_dev (f : QTgaFile) (st st1 : RleState) (c : QRgb) (dev : QIODevice)
    (h : putPixel f st c dev = .ok st1) : st1.dev = dev := by
  unfold putPixel at h
  simp only at h
  split at h
  · cases h
  · split at h <;> (simp only [Except.ok.injEq] at h; rw [← h])

theorem QTgaFile.putPixel_fault (f : QTgaFile) (st : RleState) (c : QRgb) (dev : QIODevice)
    (e : Fault) (h : putPixel f st c dev = .error e) : e ≠ .outOfFuel := by
  unfold putPixel at h
  simp only at h
  split at h
  · simp only [Except.error.injEq] at h
    rw [← h]; intro h2; cases h2
  · split at h <;> cases h

theorem QTgaFile.rleRun_advanced (f : QTgaFile) (pReader : Option TgaReader) (rep : Nat) :
    ∀ (n : Nat) (c : QRgb) (st st1 : RleState), rleRun f pReader rep n c st = .ok st1 →
      st.dev.advanced st1.dev := by
  intro n
  induction n with
  | zero =>
    intro c st st1 h
    simp only [rleRun, Except.ok.injEq] at h
    rw [h]; exact QIODevice.advanced_refl _
  | succ n ih =>
    intro c st st1 h
    unfold rleRun at h
    by_cases hrep : rep = 0
    · rw [if_pos hrep] at h
      cases hc : callReader pReader st.dev with
      | error e => simp only [hc] at h; cases h
      | ok v =>
        simp only [hc] at h
        cases hp : putPixel f st v.1 v.2 with
        | error e => simp only [hp] at h; cases h
        | ok st2 =>
          simp only [hp] at h
          have := ih _ _ _ h
          rw [putPixel_dev _ _ _ _ _ hp] at this
          exact QIODevice.advanced_trans (callReader_advanced _ _ _ hc) this
    · rw [if_neg hrep] at h
      cases hp : putPixel f st c st.dev with
      | error e => simp only [hp] at h; cases h
      | ok st2 =>
        simp only [hp] at h
        have := ih _ _ _ h
        rw [putPixel_dev _ _ _ _ _ hp] at this
        exact this

theorem QTgaFile.rleCMapRun_advanced (f : QTgaFile) (cMap : List QRgb)
    (pReader : Option TgaReader) (rep : Nat) :
    ∀ (n : Nat) (i : Int) (st st1 : RleState), rleCMapRun f cMap pReader rep n i st = .ok st1 →
      st.dev.advanced st1.dev := by
  intro n
  induction n with
  | zero =>
    intro c st st1 h
    simp only [rleCMapRun, Except.ok.injEq] at h
    rw [h]; exact QIODevice.advanced_refl _
  | succ n ih =>
    intro c st st1 h
    unfold rleCMapRun at h
    by_cases hrep : rep = 0
    · rw [if_pos hrep] at h
      cases hc : callGetIndex pReader st.dev with
      | error e => simp only [hc] at h; cases h
      | ok v =>
        simp only [hc] at h
        cases hm : cMapAt cMap v.1 with
        | error e => simp only [hm] at h; cases h
        | ok col =>
          simp only [hm] at h
          cases hp : putPixel f st col v.2 with
          | error e => simp only [hp] at h; cases h
          | ok st2 =>
            simp only [hp] at h
            have := ih _ _ _ h
            rw [putPixel_dev _ _ _ _ _ hp] at this
            exact QIODevice.advanced_trans (callGetIndex_advanced _ _ _ hc) this
    · rw [if_neg hrep] at h
      cases hm : cMapAt cMap c with
      | error e => simp only [hm] at h; cases h
      | ok col =>
        simp only [hm] at h
        cases hp : putPixel f st col st.dev with
        | error e => simp only [hp] at h; cases h
        | ok st2 =>
          simp only [hp] at h
          have := ih _ _ _ h
          rw [putPixel_dev _ _ _ _ _ hp] at this
          exact this

theorem QTgaFile.rlePacket_advanced (f : QTgaFile) (pReader : Option TgaReader) (info : RleInfo)
    (st st1 : RleState) (h : rlePacket f pReader info st = .ok st1) : st.dev.advanced st1.dev := by
  unfold rlePacket at h
  by_cases hrep : info.repeat_ = 1
  · rw [if_pos hrep] at h
    cases hc : callReader pReader st.dev with
    | error e => simp only [hc] at h; cases h
    | ok v =>
      simp only [hc] at h
      exact QIODevice.advanced_trans (callReader_advanced _ _ _ hc) (rleRun_advanced _ _ _ _ _ _ _ h)
  · rw [if_neg hrep] at h
    exact rleRun_advanced _ _ _ _ _ _ _ h

theorem QTgaFile.rleCMapPacket_advanced (f : QTgaFile) (cMap : List QRgb)
    (pReader : Option TgaReader) (info : RleInfo)
    (st st1 : RleState) (h : rleCMapPacket f cMap pReader info st = .ok st1) :
    st.dev.advanced st1.dev := by
  unfold rleCMapPacket at h
  by_cases hrep : info.repeat_ = 1
  · rw [if_pos hrep] at h
    cases hc : callGetIndex pReader st.dev with
    | error e => simp only [hc] at h; cases h
    | ok v =>
      simp only [hc] at h
      exact QIODevice.advanced_trans (callGetIndex_advanced _ _ _ hc)
        (rleCMapRun_advanced _ _ _ _ _ _ _ _ h)
  · rw [if_neg hrep] at h
    exact rleCMapRun_advanced _ _ _ _ _ _ _ _ h

theorem TgaRleReader.rleCall_advanced (s : QIODevice) : s.advanced (TgaRleReader.call s).2 := by
  unfold TgaRleReader.call
  rcases QIODevice.getChar_cases s with h | ⟨c, h⟩ <;> rw [h]
  · exact QIODevice.advanced_refl s
  · exact QIODevice.advanced_add s 1

theorem QTgaFile.rleLoop_advanced (f : QTgaFile) (pReader : Option TgaReader) :
    ∀ (fuel : Nat) (st st1 : RleState), rleLoop f pReader fuel st = .ok st1 →
      st.dev.advanced st1.dev := by
  intro fuel
  induction fuel with
  | zero =>
    intro st st1 h
    unfold rleLoop at h
    split at h
    · cases h
    · simp only [Except.ok.injEq] at h; rw [h]; exact QIODevice.advanced_refl _
  | succ n ih =>
    intro st st1 h
    unfold rleLoop at h
    by_cases hy : st.y < f.height
    · rw [if_pos hy] at h
      simp only at h
      by_cases hn : (TgaRleReader.call st.dev).1.number = 0
      · rw [if_pos hn] at h
        simp only [Except.ok.injEq] at h
        rw [← h]; exact TgaRleReader.rleCall_advanced st.dev
      · rw [if_neg hn] at h
        cases hp : rlePacket f pReader (TgaRleReader.call st.dev).1
            { st with dev := (TgaRleReader.call st.dev).2 } with
        | error e => simp only [hp] at h; cases h
        | ok st2 =>
          simp only [hp] at h
          exact QIODevice.advanced_trans (TgaRleReader.rleCall_advanced st.dev)
            (QIODevice.advanced_trans (rlePacket_advanced _ _ _ _ _ hp) (ih _ _ h))
    · rw [if_neg hy] at h
      simp only [Except.ok.injEq] at h; rw [h]; exact QIODevice.advanced_refl _

theorem QTgaFile.rleCMapLoop_advanced (f : QTgaFile) (cMap : List QRgb)
    (pReader : Option TgaReader) :
    ∀ (fuel : Nat) (st st1 : RleState), rleCMapLoop f cMap pReader fuel st = .ok st1 →
      st.dev.advanced st1.dev := by
  intro fuel
  induction fuel with
  | zero =>
    intro st st1 h
    unfold rleCMapLoop at h
    split at h
    · cases h
    · simp only [Except.ok.injEq] at h; rw [h]; exact QIODevice.advanced_refl _
  | succ n ih =>
    intro st st1 h
    unfold rleCMapLoop at h
    by_cases hy : st.y < f.height
    · rw [if_pos hy] at h
      simp only at h
      by_cases hn : (TgaRleReader.call st.dev).1.number = 0
      · rw [if_pos hn] at h
        simp only [Except.ok.injEq] at h
        rw [← h]; exact TgaRleReader.rleCall_advanced st.dev
      · rw [if_neg hn] at h
        cases hp : rleCMapPacket f cMap pReader (TgaRleReader.call st.dev).1
            { st with dev := (TgaRleReader.call st.dev).2 } with
        | error e => simp only [hp] at h; cases h
        | ok st2 =>
          simp only [hp] at h
          exact QIODevice.advanced_trans (TgaRleReader.rleCall_advanced st.dev)
            (QIODevice.advanced_trans (rleCMapPacket_advanced _ _ _ _ _ _ hp) (ih _ _ h))
    · rw [if_neg hy] at h
      simp only [Except.ok.injEq] at h; rw [h]; exact QIODevice.advanced_refl _

theorem QTgaFile.rleProcess_advanced (f : QTgaFile) (pReader : Option TgaReader)
    (st st1 : QImage × QIODevice) (h : rleProcess f pReader st = .ok st1) :
    st.2.advanced st1.2 := by
  unfold rleProcess at h
  cases hl : rleLoop f pReader (st.2.size - st.2.pos + 1)
      { x := 0, y := 0, img := st.1, dev := st.2 } with
  | error e => simp only [hl] at h; cases h
  | ok st2 =>
    simp only [hl, Except.ok.injEq] at h
    rw [← h]; exact rleLoop_advanced _ _ _ _ _ hl

theorem QTgaFile.rleCMapProcess_advanced (f : QTgaFile) (cMap : List QRgb)
    (pReader : Option TgaReader)
    (st st1 : QImage × QIODevice) (h : rleCMapProcess f cMap pReader st = .ok st1) :
    st.2.advanced st1.2 := by
  unfold rleCMapProcess at h
  cases hl : rleCMapLoop f cMap pReader (st.2.size - st.2.pos + 1)
      { x := 0, y := 0, img := st.1, dev := st.2 } with
  | error e => simp only [hl] at h; cases h
  | ok st2 =>
    simp only [hl, Except.ok.injEq] at h
    rw [← h]; exact rleCMapLoop_advanced _ _ _ _ _ _ hl

theorem QTgaFile.readColorMap_advanced (cmapReader : Option TgaReader) :
    ∀ (n : Nat) (cm : List QRgb) (dev : QIODevice) (v : List QRgb × QIODevice),
      readColorMap cmapReader n cm dev = .ok v → dev.advanced v.2 := by
  intro n
  induction n with
  | zero =>
    intro cm dev v h
    simp only [readColorMap, Except.ok.injEq] at h
    rw [← h]; exact QIODevice.advanced_refl _
  | succ n ih =>
    intro cm dev v h
    unfold readColorMap at h
    cases hc : callReader cmapReader dev with
    | error e => simp only [hc] at h; cases h
    | ok w =>
      simp only [hc] at h
      exact QIODevice.advanced_trans (callReader_advanced _ _ _ hc) (ih _ _ _ h)


/-! ## Lemmas: the structure of `readImage` -/

theorem QTgaFile.readImage_eq (f : QTgaFile) :
    f.readImage =
      if f.isValid = false then .ok (QImage.null, f)
      else if f.hdr ImageType = 0 then .ok (QImage.null, f)
      else
        match f.decodeFrom (f.mDevice.seek ((HeaderSize + f.hdr IdLength : Nat) : Int)).2 with
        | .error e => .error e
        | .ok (img, dev2) => .ok (img, { f with mDevice := dev2 }) := by
  unfold readImage decodeFrom
  by_cases hv : f.isValid = false
  · rw [if_pos hv, if_pos hv]
  · rw [if_neg hv, if_neg hv]
    by_cases ht : f.hdr ImageType = 0
    · rw [if_pos ht, if_pos ht]
    · rw [if_neg ht, if_neg ht]
      simp only
      cases readColorMap (newReader (littleEndianInt f.mHeader CMapDepth))
        (littleEndianInt f.mHeader CMapLength) [] (f.mDevice.seek ↑(HeaderSize + f.hdr IdLength)).2 with
      | error e => rfl
      | ok v => rfl

theorem QTgaFile.decodeFrom_congr {f g : QTgaFile} (h : f.mHeader = g.mHeader) :
    f.decodeFrom = g.decodeFrom := by
  funext dev0
  simp only [decodeFrom, h, hdr_congr h, compression_congr h, width_congr h, height_congr h,
    noCompressProcess_congr h, noCompressCMapProcess_congr h, rleProcess_congr h,
    rleCMapProcess_congr h]

theorem QTgaFile.decodeFrom_advanced (f : QTgaFile) (dev0 : QIODevice) (v : QImage × QIODevice)
    (h : f.decodeFrom dev0 = .ok v) : dev0.advanced v.2 := by
  unfold decodeFrom at h
  cases hc : readColorMap (newReader (littleEndianInt f.mHeader CMapDepth))
      (littleEndianInt f.mHeader CMapLength) [] dev0 with
  | error e => simp only [hc] at h; cases h
  | ok w =>
    have a1 := readColorMap_advanced _ _ _ _ _ hc
    simp only [hc] at h
    by_cases hcomp : f.compression = .NoCompression
    · rw [if_pos hcomp] at h
      by_cases h23 : f.hdr ImageType = 2 ∨ f.hdr ImageType = 3
      · rw [if_pos h23] at h
        cases hp : f.noCompressProcess (newReader (f.hdr PixelDepth))
            (QImage.create f.width f.height, w.2) with
        | error e => simp only [hp] at h; cases h
        | ok st =>
          have a2 := noCompressProcess_advanced _ _ _ _ hp
          simp only [hp] at h
          by_cases h1 : f.hdr ImageType = 1
          · rw [if_pos h1] at h
            exact QIODevice.advanced_trans a1 (QIODevice.advanced_trans a2
              (noCompressCMapProcess_advanced _ _ _ _ _ h))
          · rw [if_neg h1] at h
            simp only [Except.ok.injEq] at h
            rw [← h]; exact QIODevice.advanced_trans a1 a2
      · rw [if_neg h23] at h
        simp only at h
        by_cases h1 : f.hdr ImageType = 1
        · rw [if_pos h1] at h
          exact QIODevice.advanced_trans a1 (noCompressCMapProcess_advanced _ _ _ _ _ h)
        · rw [if_neg h1] at h
          simp only [Except.ok.injEq] at h
          rw [← h]; exact a1
    · rw [if_neg hcomp] at h
      by_cases h23 : f.hdr ImageType = 10 ∨ f.hdr ImageType = 11
      · rw [if_pos h23] at h
        cases hp : f.rleProcess (newReader (f.hdr PixelDepth))
            (QImage.create f.width f.height, w.2) with
        | error e => simp only [hp] at h; cases h
        | ok st =>
          have a2 := rleProcess_advanced _ _ _ _ hp
          simp only [hp] at h
          by_cases h1 : f.hdr ImageType = 9
          · rw [if_pos h1] at h
            exact QIODevice.advanced_trans a1 (QIODevice.advanced_trans a2
              (rleCMapProcess_advanced _ _ _ _ _ h))
          · rw [if_neg h1] at h
            simp only [Except.ok.injEq] at h
            rw [← h]; exact QIODevice.advanced_trans a1 a2
      · rw [if_neg h23] at h
        simp only at h
        by_cases h1 : f.hdr ImageType = 9
        · rw [if_pos h1] at h
          exact QIODevice.advanced_trans a1 (rleCMapProcess_advanced _ _ _ _ _ h)
        · rw [if_neg h1] at h
          simp only [Except.ok.injEq] at h
          rw [← h]; exact a1


/-! ## Lemmas: the iteration budget of the packet loops suffices -/

theorem QTgaFile.callReader_fault (pReader : Option TgaReader) (s : QIODevice) (e : Fault)
    (h : callReader pReader s = .error e) : e = .nullReader := by
  cases pReader with
  | none => simp only [callReader, Except.error.injEq] at h; exact h.symm
  | some r => cases h

theorem QTgaFile.callReader_noFuel (pReader : Option TgaReader) (s : QIODevice) (e : Fault)
    (h : callReader pReader s = .error e) : e ≠ .outOfFuel := by
  rw [callReader_fault _ _ _ h]; intro h2; cases h2

theorem QTgaFile.rleRun_fault (f : QTgaFile) (pReader : Option TgaReader) (rep : Nat) :
    ∀ (n : Nat) (c : QRgb) (st : RleState) (e : Fault),
      rleRun f pReader rep n c st = .error e → e ≠ .outOfFuel := by
  intro n
  induction n with
  | zero => intro c st e h; cases h
  | succ n ih =>
    intro c st e h
    unfold rleRun at h
    by_cases hrep : rep = 0
    · rw [if_pos hrep] at h
      cases hc : callReader pReader st.dev with
      | error e1 =>
        simp only [hc, Except.error.injEq] at h
        rw [← h]; exact callReader_noFuel _ _ _ hc
      | ok v =>
        simp only [hc] at h
        cases hp : putPixel f st v.1 v.2 with
        | error e1 =>
          simp only [hp, Except.error.injEq] at h
          rw [← h]; exact putPixel_fault _ _ _ _ _ hp
        | ok st2 =>
          simp only [hp] at h
          exact ih _ _ _ h
    · rw [if_neg hrep] at h
      cases hp : putPixel f st c st.dev with
      | error e1 =>
        simp only [hp, Except.error.injEq] at h
        rw [← h]; exact putPixel_fault _ _ _ _ _ hp
      | ok st2 =>
        simp only [hp] at h
        exact ih _ _ _ h

theorem QTgaFile.rlePacket_fault (f : QTgaFile) (pReader : Option TgaReader) (info : RleInfo)
    (st : RleState) (e : Fault) (h : rlePacket f pReader info st = .error e) :
    e ≠ .outOfFuel := by
  unfold rlePacket at h
  by_cases hrep : info.repeat_ = 1
  · rw [if_pos hrep] at h
    cases hc : callReader pReader st.dev with
    | error e1 =>
      simp only [hc, Except.error.injEq] at h
      rw [← h]; exact callReader_noFuel _ _ _ hc
    | ok v =>
      simp only [hc] at h
      exact rleRun_fault _ _ _ _ _ _ _ h
  · rw [if_neg hrep] at h
    exact rleRun_fault _ _ _ _ _ _ _ h

theorem TgaRleReader.call_number (s : QIODevice) (h : (TgaRleReader.call s).1.number ≠ 0) :
    s.pos < s.data.length ∧ (TgaRleReader.call s).2 = { s with pos := s.pos + 1 } := by
  rcases Nat.lt_or_ge s.pos s.data.length with hlt | hge
  · exact ⟨hlt, by rw [TgaRleReader.call_of_lt s hlt]⟩
  · rw [TgaRleReader.call_of_ge s hge] at h
    exact absurd rfl h

/-- The iteration budget of `rleProcess` is never exhausted: with more fuel than bytes left
the outer loop does not stop for lack of fuel. -/
theorem QTgaFile.rleLoop_fuel (f : QTgaFile) (pReader : Option TgaReader) :
    ∀ (fuel : Nat) (st : RleState), st.dev.data.length - st.dev.pos < fuel →
      rleLoop f pReader fuel st ≠ .error .outOfFuel := by
  intro fuel
  induction fuel with
  | zero => intro st h; omega
  | succ n ih =>
    intro st hfuel
    unfold rleLoop
    by_cases hy : st.y < f.height
    · rw [if_pos hy]
      simp only
      by_cases hn : (TgaRleReader.call st.dev).1.number = 0
      · rw [if_pos hn]; intro h; cases h
      · rw [if_neg hn]
        obtain ⟨hlt, hdev⟩ := TgaRleReader.call_number st.dev hn
        cases hp : rlePacket f pReader (TgaRleReader.call st.dev).1
            { st with dev := (TgaRleReader.call st.dev).2 } with
        | error e =>
          simp only
          have := rlePacket_fault _ _ _ _ _ hp
          intro h
          simp only [Except.error.injEq] at h
          exact this h
        | ok st1 =>
          simp only
          apply ih
          obtain ⟨p, hp1, hp2⟩ := rlePacket_advanced _ _ _ _ _ hp
          simp only [hdev] at hp1 hp2
          rw [hp2]; simp only; omega
    · rw [if_neg hy]; intro h; cases h

theorem QTgaFile.rleProcess_fuel (f : QTgaFile) (pReader : Option TgaReader)
    (st : QImage × QIODevice) : rleProcess f pReader st ≠ .error .outOfFuel := by
  unfold rleProcess
  have := rleLoop_fuel f pReader (st.2.size - st.2.pos + 1)
    { x := 0, y := 0, img := st.1, dev := st.2 } (by simp only [QIODevice.size]; omega)
  cases hl : rleLoop f pReader (st.2.size - st.2.pos + 1)
      { x := 0, y := 0, img := st.1, dev := st.2 } with
  | error e =>
    simp only
    intro h
    simp only [Except.error.injEq] at h
    rw [h] at hl
    exact this hl
  | ok st1 => simp only; intro h; cases h

theorem QTgaFile.cMapAt_fault (cMap : List QRgb) (i : Int) (e : Fault)
    (h : cMapAt cMap i = .error e) : e ≠ .outOfFuel := by
  unfold cMapAt at h
  split at h
  · cases h
  · simp only [Except.error.injEq] at h
    rw [← h]; intro h2; cases h2

theorem QTgaFile.callGetIndex_fault (pReader : Option TgaReader) (s : QIODevice) (e : Fault)
    (h : callGetIndex pReader s = .error e) : e ≠ .outOfFuel := by
  cases pReader with
  | none =>
    simp only [callGetIndex, Except.error.injEq] at h
    rw [← h]; intro h2; cases h2
  | some r => cases h

theorem QTgaFile.rleCMapRun_fault (f : QTgaFile) (cMap : List QRgb) (pReader : Option TgaReader)
    (rep : Nat) :
    ∀ (n : Nat) (i : Int) (st : RleState) (e : Fault),
      rleCMapRun f cMap pReader rep n i st = .error e → e ≠ .outOfFuel := by
  intro n
  induction n with
  | zero => intro c st e h; cases h
  | succ n ih =>
    intro c st e h
    unfold rleCMapRun at h
    by_cases hrep : rep = 0
    · rw [if_pos hrep] at h
      cases hc : callGetIndex pReader st.dev with
      | error e1 =>
        simp only [hc, Except.error.injEq] at h
        rw [← h]; exact callGetIndex_fault _ _ _ hc
      | ok v =>
        simp only [hc] at h
        cases hm : cMapAt cMap v.1 with
        | error e1 =>
          simp only [hm, Except.error.injEq] at h
          rw [← h]; exact cMapAt_fault _ _ _ hm
        | ok col =>
          simp only [hm] at h
          cases hp : putPixel f st col v.2 with
          | error e1 =>
            simp only [hp, Except.error.injEq] at h
            rw [← h]; exact putPixel_fault _ _ _ _ _ hp
          | ok st2 =>
            simp only [hp] at h
            exact ih _ _ _ h
    · rw [if_neg hrep] at h
      cases hm : cMapAt cMap c with
      | error e1 =>
        simp only [hm, Except.error.injEq] at h
        rw [← h]; exact cMapAt_fault _ _ _ hm
      | ok col =>
        simp only [hm] at h
        cases hp : putPixel f st col st.dev with
        | error e1 =>
          simp only [hp, Except.error.injEq] at h
          rw [← h]; exact putPixel_fault _ _ _ _ _ hp
        | ok st2 =>
          simp only [hp] at h
          exact ih _ _ _ h

theorem QTgaFile.rleCMapPacket_fault (f : QTgaFile) (cMap : List QRgb)
    (pReader : Option TgaReader) (info : RleInfo)
    (st : RleState) (e : Fault) (h : rleCMapPacket f cMap pReader info st = .error e) :
    e ≠ .outOfFuel := by
  unfold rleCMapPacket at h
  by_cases hrep : info.repeat_ = 1
  · rw [if_pos hrep] at h
    cases hc : callGetIndex pReader st.dev with
    | error e1 =>
      simp only [hc, Except.error.injEq] at h
      rw [← h]; exact callGetIndex_fault _ _ _ hc
    | ok v =>
      simp only [hc] at h
      exact rleCMapRun_fault _ _ _ _ _ _ _ _ h
  · rw [if_neg hrep] at h
    exact rleCMapRun_fault _ _ _ _ _ _ _ _ h

/-- The iteration budget of `rleCMapProcess` is never exhausted. -/
theorem QTgaFile.rleCMapLoop_fuel (f : QTgaFile) (cMap : List QRgb) (pReader : Option TgaReader) :
    ∀ (fuel : Nat) (st : RleState), st.dev.data.length - st.dev.pos < fuel →
      rleCMapLoop f cMap pReader fuel st ≠ .error .outOfFuel := by
  intro fuel
  induction fuel with
  | zero => intro st h; omega
  | succ n ih =>
    intro st hfuel
    unfold rleCMapLoop
    by_cases hy : st.y < f.height
    · rw [if_pos hy]
      simp only
      by_cases hn : (TgaRleReader.call st.dev).1.number = 0
      · rw [if_pos hn]; intro h; cases h
      · rw [if_neg hn]
        obtain ⟨hlt, hdev⟩ := TgaRleReader.call_number st.dev hn
        cases hp : rleCMapPacket f cMap pReader (TgaRleReader.call st.dev).1
            { st with dev := (TgaRleReader.call st.dev).2 } with
        | error e =>
          simp only
          have := rleCMapPacket_fault _ _ _ _ _ _ hp
          intro h
          simp only [Except.error.injEq] at h
          exact this h
        | ok st1 =>
          simp only
          apply ih
          obtain ⟨p, hp1, hp2⟩ := rleCMapPacket_advanced _ _ _ _ _ _ hp
          simp only [hdev] at hp1 hp2
          rw [hp2]; simp only; omega
    · rw [if_neg hy]; intro h; cases h

theorem QTgaFile.rleCMapProcess_fuel (f : QTgaFile) (cMap : List QRgb)
    (pReader : Option TgaReader)
    (st : QImage × QIODevice) : rleCMapProcess f cMap pReader st ≠ .error .outOfFuel := by
  unfold rleCMapProcess
  have := rleCMapLoop_fuel f cMap pReader (st.2.size - st.2.pos + 1)
    { x := 0, y := 0, img := st.1, dev := st.2 } (by simp only [QIODevice.size]; omega)
  cases hl : rleCMapLoop f cMap pReader (st.2.size - st.2.pos + 1)
      { x := 0, y := 0, img := st.1, dev := st.2 } with
  | error e =>
    simp only
    intro h
    simp only [Except.error.injEq] at h
    rw [h] at hl
    exact this hl
  | ok st1 => simp only; intro h; cases h


theorem foldlM_fault {α σ : Type} (step : σ → α → Except Fault σ)
    (hstep : ∀ st a e, step st a = .error e → e ≠ .outOfFuel) :
    ∀ (l : List α) (st : σ) (e : Fault), l.foldlM step st = .error e → e ≠ .outOfFuel := by
  intro l
  induction l with
  | nil => intro st e h; cases h
  | cons a l ih =>
    intro st e h
    rw [List.foldlM_cons] at h
    cases hs : step st a with
    | error e1 =>
      rw [hs] at h
      have : e1 = e := by cases h; rfl
      rw [← this]; exact hstep _ _ _ hs
    | ok st2 =>
      rw [hs, Except.bind_ok_eq] at h
      exact ih st2 e h

theorem QTgaFile.noCompressPixel_fault (f : QTgaFile) (pReader : Option TgaReader) (x y : Nat)
    (st : QImage × QIODevice) (e : Fault) (h : noCompressPixel f pReader x y st = .error e) :
    e ≠ .outOfFuel := by
  unfold noCompressPixel at h
  cases hc : callReader pReader st.2 with
  | error e1 =>
    simp only [hc, Except.error.injEq] at h
    rw [← h]; exact callReader_noFuel _ _ _ hc
  | ok v => rw [hc] at h; cases h

theorem QTgaFile.noCompressCMapPixel_fault (f : QTgaFile) (cMap : List QRgb)
    (pReader : Option TgaReader) (x y : Nat)
    (st : QImage × QIODevice) (e : Fault) (h : noCompressCMapPixel f cMap pReader x y st = .error e) :
    e ≠ .outOfFuel := by
  unfold noCompressCMapPixel at h
  cases hc : callGetIndex pReader st.2 with
  | error e1 =>
    simp only [hc, Except.error.injEq] at h
    rw [← h]; exact callGetIndex_fault _ _ _ hc
  | ok v =>
    rw [hc] at h
    simp only at h
    cases hm : cMapAt cMap v.1 with
    | error e1 =>
      simp only [hm, Except.error.injEq] at h
      rw [← h]; exact cMapAt_fault _ _ _ hm
    | ok c => rw [hm] at h; cases h

theorem QTgaFile.noCompressProcess_fault (f : QTgaFile) (pReader : Option TgaReader)
    (st : QImage × QIODevice) : noCompressProcess f pReader st ≠ .error .outOfFuel := by
  intro h
  unfold noCompressProcess at h
  refine foldlM_fault _ ?_ _ st _ h rfl
  intro s y e hrow
  exact foldlM_fault _ (fun a x e1 hh => noCompressPixel_fault f pReader x y a e1 hh) _ s e hrow

theorem QTgaFile.noCompressCMapProcess_fault (f : QTgaFile) (cMap : List QRgb)
    (pReader : Option TgaReader)
    (st : QImage × QIODevice) : noCompressCMapProcess f cMap pReader st ≠ .error .outOfFuel := by
  intro h
  unfold noCompressCMapProcess at h
  refine foldlM_fault _ ?_ _ st _ h rfl
  intro s y e hrow
  exact foldlM_fault _
    (fun a x e1 hh => noCompressCMapPixel_fault f cMap pReader x y a e1 hh) _ s e hrow

theorem QTgaFile.readColorMap_fault (cmapReader : Option TgaReader) :
    ∀ (n : Nat) (cm : List QRgb) (dev : QIODevice),
      readColorMap cmapReader n cm dev ≠ .error .outOfFuel := by
  intro n
  induction n with
  | zero => intro cm dev h; cases h
  | succ n ih =>
    intro cm dev h
    unfold readColorMap at h
    cases hc : callReader cmapReader dev with
    | error e1 =>
      simp only [hc, Except.error.injEq] at h
      exact callReader_noFuel _ _ _ hc h
    | ok w =>
      simp only [hc] at h
      exact ih _ _ h

/-- The embedding of `readImage` never stops for lack of fuel: it yields an image or one
of the two faults of the C++ code. -/
theorem QTgaFile.readImage_total (f : QTgaFile) : f.readImage ≠ .error .outOfFuel := by
  rw [QTgaFile.readImage_eq]
  by_cases hv : f.isValid = false
  · rw [if_pos hv]; intro h; cases h
  · rw [if_neg hv]
    by_cases ht : f.hdr ImageType = 0
    · rw [if_pos ht]; intro h; cases h
    · rw [if_neg ht]
      generalize (f.mDevice.seek ((HeaderSize + f.hdr IdLength : Nat) : Int)).2 = dev0
      have key : f.decodeFrom dev0 ≠ .error .outOfFuel := by
        unfold decodeFrom
        cases hc : readColorMap (newReader (littleEndianInt f.mHeader CMapDepth))
            (littleEndianInt f.mHeader CMapLength) [] dev0 with
        | error e =>
          simp only
          intro h
          simp only [Except.error.injEq] at h
          rw [h] at hc
          exact readColorMap_fault _ _ _ _ hc
        | ok w =>
          simp only
          by_cases hcomp : f.compression = .NoCompression
          · rw [if_pos hcomp]
            by_cases h23 : f.hdr ImageType = 2 ∨ f.hdr ImageType = 3
            · rw [if_pos h23]
              cases hp : f.noCompressProcess (newReader (f.hdr PixelDepth))
                  (QImage.create f.width f.height, w.2) with
              | error e =>
                simp only
                intro h
                simp only [Except.error.injEq] at h
                rw [h] at hp
                exact noCompressProcess_fault _ _ _ hp
              | ok st =>
                simp only
                by_cases h1 : f.hdr ImageType = 1
                · rw [if_pos h1]; exact noCompressCMapProcess_fault _ _ _ _
                · rw [if_neg h1]; intro h; cases h
            · rw [if_neg h23]
              simp only
              by_cases h1 : f.hdr ImageType = 1
              · rw [if_pos h1]; exact noCompressCMapProcess_fault _ _ _ _
              · rw [if_neg h1]; intro h; cases h
          · rw [if_neg hcomp]
            by_cases h23 : f.hdr ImageType = 10 ∨ f.hdr ImageType = 11
            · rw [if_pos h23]
              cases hp : f.rleProcess (newReader (f.hdr PixelDepth))
                  (QImage.create f.width f.height, w.2) with
              | error e =>
                simp only
                intro h
                simp only [Except.error.injEq] at h
                rw [h] at hp
                exact rleProcess_fuel _ _ _ hp
              | ok st =>
                simp only
                by_cases h1 : f.hdr ImageType = 9
                · rw [if_pos h1]; exact rleCMapProcess_fuel _ _ _ _
                · rw [if_neg h1]; intro h; cases h
            · rw [if_neg h23]
              simp only
              by_cases h1 : f.hdr ImageType = 9
              · rw [if_pos h1]; exact rleCMapProcess_fuel _ _ _ _
              · rw [if_neg h1]; intro h; cases h
      cases hd : f.decodeFrom dev0 with
      | error e =>
        simp only
        intro h
        simp only [Except.error.injEq] at h
        rw [h] at hd
        exact key hd
      | ok v => simp only; intro h; cases h


/-! ## Lemmas: a source beyond the range of `int` -/

/-- The length of a source of 18 + 2^31 + 100 bytes. -/
theorem huge_length :
    (bufferOf (header2x2 2 24 ++ List.replicate (2 ^ 31 + 100) 0)).data.length =
      18 + (2 ^ 31 + 100) := by
  show (header2x2 2 24 ++ List.replicate (2 ^ 31 + 100) 0).length = 18 + (2 ^ 31 + 100)
  rw [List.length_append, List.length_replicate]
  rfl

/-- A source of 2^31 + 118 bytes with a supported header: its size does not fit the `int`
the constructor keeps it in, the seek target is negative and the decoder is not valid. -/
theorem new_not_valid_beyond_int_range :
    (QTgaFile.new (bufferOf (header2x2 2 24 ++ List.replicate (2 ^ 31 + 100) 0))).isValid = false := by
  have hl := huge_length
  have hiff := QTgaFile.new_isValid_iff
    (bufferOf (header2x2 2 24 ++ List.replicate (2 ^ 31 + 100) 0)) rfl rfl (by rw [hl]; omega)
  cases h : (QTgaFile.new (bufferOf (header2x2 2 24 ++ List.replicate (2 ^ 31 + 100) 0))).isValid with
  | false => rfl
  | true =>
    have := (hiff.mp h).2.2
    rw [hl] at this
    have e : toInt (18 + (2 ^ 31 + 100)) = 18 + (2 ^ 31 + 100) - 2 ^ 32 := by decide
    rw [e] at this
    omega

/-! ## Lemmas: the footer inspection -/

/-- The constructor on a source of 26 to 2^31 - 1 bytes with a supported type code: the
footer is read, the version flag is the comparison of the 16 bytes at offset `size - 18`
with the signature, and the message is the depth message or empty. -/
theorem QTgaFile.new_footer (s : QIODevice) (hr : s.readable = true) (hs : s.sequential = false)
    (h26 : 26 ≤ s.data.length) (h31 : s.data.length < 2 ^ 31)
    (hty : s.byteAt 2 ≤ 3 ∨ (9 ≤ s.byteAt 2 ∧ s.byteAt 2 ≤ 11)) :
    (QTgaFile.new s).m_bHighVersion =
      (((s.data.drop (s.data.length - 18)).take 16).map (fun c => c % 256) == signature) ∧
    (QTgaFile.new s).mErrorMessage =
      (if ¬ (s.byteAt 16 = 8 ∨ s.byteAt 16 = 16 ∨ s.byteAt 16 = 24 ∨ s.byteAt 16 = 32)
        then "Image depth not valid" else "") := by
  obtain ⟨H, hH, hlen, hnew⟩ := QTgaFile.new_eq s hr hs (by omega)
  rw [hnew, hH 2 (by omega), hH 16 (by omega)]
  have hL := toInt_of_lt _ h31
  have h18 : toInt 18 = 18 := by decide
  have hty' : (0 ≤ s.byteAt 2 ∧ s.byteAt 2 ≤ 3) ∨ (9 ≤ s.byteAt 2 ∧ s.byteAt 2 ≤ 11) := by omega
  have hsk : ({ s with pos := 18 } : QIODevice).seek (toInt s.data.length - 26) =
      (true, { s with pos := s.data.length - 26 }) := by
    unfold QIODevice.seek
    rw [if_pos ⟨by omega, Or.inl (by simp only; omega)⟩, hL]
    have e : ((s.data.length : Int) - 26).toNat = s.data.length - 26 := by omega
    rw [e]
  have hrd : (({ s with pos := s.data.length - 26 } : QIODevice).read 26).1.length = 26 := by
    rw [QIODevice.read_length]; simp only; omega
  have hrd2 : (({ s with pos := s.data.length - 26 } : QIODevice).read 26).2 =
      { s with pos := s.data.length - 26 + 26 } := by
    have := hrd
    simp only [QIODevice.read] at this ⊢
    rw [List.length_map] at this
    rw [this]
  have hsk3 : ({ s with pos := s.data.length - 26 + 26 } : QIODevice).seek 18 =
      (true, { s with pos := 18 }) := by
    unfold QIODevice.seek
    rw [if_pos ⟨by omega, Or.inl (by simp only; omega)⟩]
    rfl
  have hft : ((({ s with pos := s.data.length - 26 } : QIODevice).read 26).1.drop 8).take 16 =
      ((s.data.drop (s.data.length - 18)).take 16).map (fun c => c % 256) := by
    simp only [QIODevice.read]
    rw [← List.map_drop, ← List.map_take, List.drop_take, List.take_take, List.drop_drop]
    have e1 : min 16 (26 - 8) = 16 := by decide
    have e2 : s.data.length - 26 + 8 = s.data.length - 18 := by omega
    rw [e1, e2]
  simp only [QIODevice.size, h18, hty', not_true_eq_false, if_false, hsk, hrd, hrd2, hsk3,
    Bool.true_eq_false, ne_eq, hft]
  refine ⟨?_, ?_⟩ <;> trivial

/-- The constructor on a source with an unsupported type code: it returns right after
recording the message, and the version flag keeps its initial value. -/
theorem QTgaFile.new_type_unsupported (s : QIODevice) (hr : s.readable = true)
    (hs : s.sequential = false) (hl : 18 ≤ s.data.length)
    (hty : ¬ (s.byteAt 2 ≤ 3 ∨ (9 ≤ s.byteAt 2 ∧ s.byteAt 2 ≤ 11))) :
    (QTgaFile.new s).m_bHighVersion = false ∧
    (QTgaFile.new s).mErrorMessage = "Image type not supported" ∧
    (QTgaFile.new s).mDevice = { s with pos := 18 } := by
  obtain ⟨H, hH, hlen, hnew⟩ := QTgaFile.new_eq s hr hs hl
  rw [hnew, hH 2 (by omega)]
  have hty' : ¬ ((0 ≤ s.byteAt 2 ∧ s.byteAt 2 ≤ 3) ∨ (9 ≤ s.byteAt 2 ∧ s.byteAt 2 ≤ 11)) := by
    omega
  simp only [hty', not_false_eq_true, if_true]
  refine ⟨?_, ?_, ?_⟩ <;> trivial


/-! ## Lemmas: the 16-bit reader -/

theorem and_shiftLeft_mask (d m k : Nat) : d &&& (m <<< k) = ((d >>> k) &&& m) <<< k := by
  apply Nat.eq_of_testBit_eq
  intro i
  simp only [Nat.testBit_and, Nat.testBit_shiftLeft, Nat.testBit_shiftRight]
  by_cases h : k ≤ i
  · have e : k + (i - k) = i := by omega
    simp [h, e]
  · simp [h]

theorem lor_shiftLeft_eq_add (b0 b1 : Nat) (h0 : b0 < 256) : b0 ||| (b1 <<< 8) = b0 + 256 * b1 := by
  rw [Nat.lor_comm, Nat.shiftLeft_eq, lor_eq_add _ b0 8 ⟨b1, by rw [Nat.mul_comm]⟩ (by omega)]
  omega

/-- The color word of the 16-bit reader as a sum of its fields. -/
theorem color16_eq (d : Nat) :
    ((if d &&& 0x8000 ≠ 0 then 0xff000000 else 0x00000000) ||| ((d &&& 0x7C00) <<< 9)
        ||| ((d &&& 0x03E0) <<< 6) ||| ((d &&& 0x001F) <<< 3)) =
      (if d.testBit 15 then 255 else 0) * 2 ^ 24 + (d / 2 ^ 10 % 32) * 2 ^ 19
        + (d / 2 ^ 5 % 32) * 2 ^ 11 + (d % 32) * 2 ^ 3 := by
  have ha : (d &&& 0x8000 ≠ 0) ↔ d.testBit 15 = true := by
    have := and_two_pow_ne_zero d 15
    rw [← this]
    simp
  have e1 : (0x7C00 : Nat) = 31 <<< 10 := by decide
  have e2 : (0x03E0 : Nat) = 31 <<< 5 := by decide
  have e3 : (0x001F : Nat) = 2 ^ 5 - 1 := by decide
  rw [e1, e2, and_shiftLeft_mask, and_shiftLeft_mask, e3,
    Nat.and_pow_two_sub_one_eq_mod, Nat.and_pow_two_sub_one_eq_mod, Nat.and_pow_two_sub_one_eq_mod]
  simp only [Nat.shiftLeft_eq, Nat.shiftRight_eq_div_pow]
  have hr : d / 2 ^ 10 % 2 ^ 5 < 32 := Nat.mod_lt _ (by decide)
  have hg : d / 2 ^ 5 % 2 ^ 5 < 32 := Nat.mod_lt _ (by decide)
  have hb : d % 2 ^ 5 < 32 := Nat.mod_lt _ (by decide)
  generalize d / 2 ^ 10 % 2 ^ 5 = r at hr ⊢
  generalize d / 2 ^ 5 % 2 ^ 5 = g at hg ⊢
  generalize d % 2 ^ 5 = b at hb ⊢
  by_cases h15 : d.testBit 15 = true
  · rw [if_pos (ha.mpr h15), if_pos h15]
    rw [lor_eq_add _ (r * 2 ^ 10 * 2 ^ 9) 24 ⟨255, by decide⟩ (by omega)]
    rw [lor_eq_add _ (g * 2 ^ 5 * 2 ^ 6) 16 ⟨255 * 2 ^ 8 + r * 2 ^ 3, by omega⟩ (by omega)]
    rw [lor_eq_add _ (b * 2 ^ 3) 8 ⟨255 * 2 ^ 16 + r * 2 ^ 11 + g * 2 ^ 3, by omega⟩ (by omega)]
    omega
  · rw [if_neg (fun h => h15 (ha.mp h)), if_neg h15]
    rw [Nat.zero_or]
    rw [lor_eq_add _ (g * 2 ^ 5 * 2 ^ 6) 16 ⟨r * 2 ^ 3, by omega⟩ (by omega)]
    rw [lor_eq_add _ (b * 2 ^ 3) 8 ⟨r * 2 ^ 11 + g * 2 ^ 3, by omega⟩ (by omega)]
    omega


theorem Tga16Reader.call_of_fit16 (s : QIODevice) (h : s.pos + 2 ≤ s.data.length) :
    Tga16Reader.call s =
      ((if (s.byteAt s.pos + 256 * s.byteAt (s.pos + 1)).testBit 15 then 255 else 0) * 2 ^ 24
        + ((s.byteAt s.pos + 256 * s.byteAt (s.pos + 1)) / 2 ^ 10 % 32) * 2 ^ 19
        + ((s.byteAt s.pos + 256 * s.byteAt (s.pos + 1)) / 2 ^ 5 % 32) * 2 ^ 11
        + ((s.byteAt s.pos + 256 * s.byteAt (s.pos + 1)) % 32) * 2 ^ 3,
       { s with pos := s.pos + 2 }) := by
  have h1 := QIODevice.getChar_of_lt s (by omega)
  have h2 := QIODevice.getChar_of_lt { s with pos := s.pos + 1 } (by simp only; omega)
  have hb0 := QIODevice.byteAt_lt s s.pos
  have hb1 := QIODevice.byteAt_lt s (s.pos + 1)
  unfold Tga16Reader.call
  rw [h1]
  simp only
  rw [h2]
  simp only
  have e0 : s.data.getD s.pos 0 % 256 = s.byteAt s.pos := rfl
  have e1 : s.data.getD (s.pos + 1) 0 % 256 = s.byteAt (s.pos + 1) := rfl
  rw [e0, e1, lor_shiftLeft_eq_add _ _ hb0, Nat.mod_eq_of_lt (by omega), color16_eq]

theorem Tga16Reader.getIndex_of_fit16 (s : QIODevice) (h : s.pos + 2 ≤ s.data.length) :
    Tga16Reader.getIndex s =
      (((s.byteAt s.pos + 256 * s.byteAt (s.pos + 1) : Nat) : Int), { s with pos := s.pos + 2 }) := by
  have h1 := QIODevice.getChar_of_lt s (by omega)
  have h2 := QIODevice.getChar_of_lt { s with pos := s.pos + 1 } (by simp only; omega)
  have hb0 := QIODevice.byteAt_lt s s.pos
  have hb1 := QIODevice.byteAt_lt s (s.pos + 1)
  unfold Tga16Reader.getIndex
  rw [h1]
  simp only
  rw [h2]
  simp only
  have e0 : s.data.getD s.pos 0 % 256 = s.byteAt s.pos := rfl
  have e1 : s.data.getD (s.pos + 1) 0 % 256 = s.byteAt (s.pos + 1) := rfl
  have eff : (0xFF : Nat) = 2 ^ 8 - 1 := by decide
  rw [e0, e1, eff, Nat.and_pow_two_sub_one_eq_mod, Nat.and_pow_two_sub_one_eq_mod,
    Nat.mod_eq_of_lt hb0, Nat.mod_eq_of_lt hb1, lor_shiftLeft_eq_add _ _ hb0,
    Nat.mod_eq_of_lt (by omega), toInt_of_lt _ (by omega)]


/-! ## Lemmas: the index reads -/

theorem Tga8Reader.getIndex_of_fit8 (s : QIODevice) (h : s.pos + 1 ≤ s.data.length) :
    Tga8Reader.getIndex s = (((s.byteAt s.pos : Nat) : Int), { s with pos := s.pos + 1 }) := by
  have h1 := QIODevice.getChar_of_lt s (by omega)
  unfold Tga8Reader.getIndex
  rw [h1]
  rfl

theorem Tga24Reader.getIndex_of_fit24 (s : QIODevice) (h : s.pos + 3 ≤ s.data.length) :
    Tga24Reader.getIndex s =
      (((s.byteAt s.pos + 256 * s.byteAt (s.pos + 1) + 65536 * s.byteAt (s.pos + 2) : Nat) : Int),
        { s with pos := s.pos + 3 }) := by
  have h1 := QIODevice.getChar_of_lt s (by omega)
  have h2 := QIODevice.getChar_of_lt { s with pos := s.pos + 1 } (by simp only; omega)
  have h3 := QIODevice.getChar_of_lt { s with pos := s.pos + 1 + 1 } (by simp only; omega)
  have hb0 := QIODevice.byteAt_lt s s.pos
  have hb1 := QIODevice.byteAt_lt s (s.pos + 1)
  have hb2 := QIODevice.byteAt_lt s (s.pos + 2)
  unfold Tga24Reader.getIndex
  rw [h1]
  simp only
  rw [h2]
  simp only
  rw [h3]
  simp only
  have e0 : s.data.getD s.pos 0 % 256 = s.byteAt s.pos := rfl
  have e1 : s.data.getD (s.pos + 1) 0 % 256 = s.byteAt (s.pos + 1) := rfl
  have e2 : s.data.getD (s.pos + 1 + 1) 0 % 256 = s.byteAt (s.pos + 2) := rfl
  rw [e0, e1, e2]
  simp only [Nat.shiftLeft_eq]
  rw [lor_eq_add _ (s.byteAt (s.pos + 1) * 2 ^ 8) 16 ⟨s.byteAt (s.pos + 2), by rw [Nat.mul_comm]⟩
    (by omega)]
  rw [lor_eq_add _ (s.byteAt s.pos) 8
    ⟨s.byteAt (s.pos + 2) * 2 ^ 8 + s.byteAt (s.pos + 1), by omega⟩ (by omega)]
  rw [Nat.mod_eq_of_lt (by omega), toInt_of_lt _ (by omega)]
  have e : s.byteAt (s.pos + 2) * 2 ^ 16 + s.byteAt (s.pos + 1) * 2 ^ 8 + s.byteAt s.pos =
      s.byteAt s.pos + 256 * s.byteAt (s.pos + 1) + 65536 * s.byteAt (s.pos + 2) := by omega
  rw [e]

theorem Tga32Reader.getIndex_of_fit32 (s : QIODevice) (h : s.pos + 4 ≤ s.data.length) :
    Tga32Reader.getIndex s =
      (toInt (s.byteAt s.pos + 256 * s.byteAt (s.pos + 1) + 65536 * s.byteAt (s.pos + 2)
          + 16777216 * s.byteAt (s.pos + 3)),
        { s with pos := s.pos + 4 }) := by
  have h1 := QIODevice.getChar_of_lt s (by omega)
  have h2 := QIODevice.getChar_of_lt { s with pos := s.pos + 1 } (by simp only; omega)
  have h3 := QIODevice.getChar_of_lt { s with pos := s.pos + 1 + 1 } (by simp only; omega)
  have h4 := QIODevice.getChar_of_lt { s with pos := s.pos + 1 + 1 + 1 } (by simp only; omega)
  have hb0 := QIODevice.byteAt_lt s s.pos
  have hb1 := QIODevice.byteAt_lt s (s.pos + 1)
  have hb2 := QIODevice.byteAt_lt s (s.pos + 2)
  have hb3 := QIODevice.byteAt_lt s (s.pos + 3)
  unfold Tga32Reader.getIndex
  rw [h1]
  simp only
  rw [h2]
  simp only
  rw [h3]
  simp only
  rw [h4]
  simp only
  have e0 : s.data.getD s.pos 0 % 256 = s.byteAt s.pos := rfl
  have e1 : s.data.getD (s.pos + 1) 0 % 256 = s.byteAt (s.pos + 1) := rfl
  have e2 : s.data.getD (s.pos + 1 + 1) 0 % 256 = s.byteAt (s.pos + 2) := rfl
  have e3 : s.data.getD (s.pos + 1 + 1 + 1) 0 % 256 = s.byteAt (s.pos + 3) := rfl
  rw [e0, e1, e2, e3]
  simp only [Nat.shiftLeft_eq]
  rw [lor_eq_add _ (s.byteAt (s.pos + 2) * 2 ^ 16) 24 ⟨s.byteAt (s.pos + 3), by rw [Nat.mul_comm]⟩
    (by omega)]
  rw [lor_eq_add _ (s.byteAt (s.pos + 1) * 2 ^ 8) 16
    ⟨s.byteAt (s.pos + 3) * 2 ^ 8 + s.byteAt (s.pos + 2), by omega⟩ (by omega)]
  rw [lor_eq_add _ (s.byteAt s.pos) 8
    ⟨s.byteAt (s.pos + 3) * 2 ^ 16 + s.byteAt (s.pos + 2) * 2 ^ 8 + s.byteAt (s.pos + 1), by omega⟩
    (by omega)]
  rw [Nat.mod_eq_of_lt (by omega)]
  have e : s.byteAt (s.pos + 3) * 2 ^ 24 + s.byteAt (s.pos + 2) * 2 ^ 16
      + s.byteAt (s.pos + 1) * 2 ^ 8 + s.byteAt s.pos =
      s.byteAt s.pos + 256 * s.byteAt (s.pos + 1) + 65536 * s.byteAt (s.pos + 2)
        + 16777216 * s.byteAt (s.pos + 3) := by omega
  rw [e]

theorem unsignedLE_four (s : QIODevice) :
    unsignedLE s 1 = s.byteAt s.pos ∧
    unsignedLE s 2 = s.byteAt s.pos + 256 * s.byteAt (s.pos + 1) ∧
    unsignedLE s 3 = s.byteAt s.pos + 256 * s.byteAt (s.pos + 1) + 65536 * s.byteAt (s.pos + 2) ∧
    unsignedLE s 4 = s.byteAt s.pos + 256 * s.byteAt (s.pos + 1) + 65536 * s.byteAt (s.pos + 2)
      + 16777216 * s.byteAt (s.pos + 3) := by
  simp only [unsignedLE, Nat.add_zero, Nat.zero_add, Nat.pow_zero, Nat.mul_one]
  refine ⟨trivial, ?_, ?_, ?_⟩ <;> omega

/-! ### Reads that run out of bytes -/

theorem Tga8Reader.call8_truncated (s : QIODevice) (h : s.data.length < s.pos + 1) :
    (Tga8Reader.call s).1 = 0 ∧ (Tga8Reader.call s).2 = { s with pos := max s.pos s.data.length } := by
  obtain ⟨a, b, c, d, p⟩ := s
  simp only at h ⊢
  unfold Tga8Reader.call
  rw [QIODevice.getChar_of_ge (⟨a, b, c, d, p⟩ : QIODevice) (by simp only; omega)]
  refine ⟨rfl, ?_⟩
  simp only [QIODevice.mk.injEq, true_and]
  omega

theorem Tga8Reader.getIndex8_truncated (s : QIODevice) (h : s.data.length < s.pos + 1) :
    (Tga8Reader.getIndex s).1 = 0 ∧ (Tga8Reader.getIndex s).2 = { s with pos := max s.pos s.data.length } := by
  obtain ⟨a, b, c, d, p⟩ := s
  simp only at h ⊢
  unfold Tga8Reader.getIndex
  rw [QIODevice.getChar_of_ge (⟨a, b, c, d, p⟩ : QIODevice) (by simp only; omega)]
  refine ⟨rfl, ?_⟩
  simp only [QIODevice.mk.injEq, true_and]
  omega

theorem Tga16Reader.call16_truncated (s : QIODevice) (h : s.data.length < s.pos + 2) :
    (Tga16Reader.call s).1 = 0 ∧ (Tga16Reader.call s).2 = { s with pos := max s.pos s.data.length } := by
  obtain ⟨a, b, c, d, p⟩ := s
  simp only at h ⊢
  unfold Tga16Reader.call
  rcases Nat.lt_or_ge (p) d.length with h0 | h0
  · rw [QIODevice.getChar_of_lt (⟨a, b, c, d, p⟩ : QIODevice) h0]
    simp only
    rw [QIODevice.getChar_of_ge (⟨a, b, c, d, p + 1⟩ : QIODevice) (by simp only; omega)]
    refine ⟨rfl, ?_⟩
    simp only [QIODevice.mk.injEq, true_and]
    omega
  · rw [QIODevice.getChar_of_ge (⟨a, b, c, d, p⟩ : QIODevice) h0]
    refine ⟨rfl, ?_⟩
    simp only [QIODevice.mk.injEq, true_and]
    omega

theorem Tga16Reader.getIndex16_truncated (s : QIODevice) (h : s.data.length < s.pos + 2) :
    (Tga16Reader.getIndex s).1 = 0 ∧ (Tga16Reader.getIndex s).2 = { s with pos := max s.pos s.data.length } := by
  obtain ⟨a, b, c, d, p⟩ := s
  simp only at h ⊢
  unfold Tga16Reader.getIndex
  rcases Nat.lt_or_ge (p) d.length with h0 | h0
  · rw [QIODevice.getChar_of_lt (⟨a, b, c, d, p⟩ : QIODevice) h0]
    simp only
    rw [QIODevice.getChar_of_ge (⟨a, b, c, d, p + 1⟩ : QIODevice) (by simp only; omega)]
    refine ⟨rfl, ?_⟩
    simp only [QIODevice.mk.injEq, true_and]
    omega
  · rw [QIODevice.getChar_of_ge (⟨a, b, c, d, p⟩ : QIODevice) h0]
    refine ⟨rfl, ?_⟩
    simp only [QIODevice.mk.injEq, true_and]
    omega

theorem Tga24Reader.call24_truncated (s : QIODevice) (h : s.data.length < s.pos + 3) :
    (Tga24Reader.call s).1 = 0 ∧ (Tga24Reader.call s).2 = { s with pos := max s.pos s.data.length } := by
  obtain ⟨a, b, c, d, p⟩ := s
  simp only at h ⊢
  unfold Tga24Reader.call
  rcases Nat.lt_or_ge (p) d.length with h0 | h0
  · rw [QIODevice.getChar_of_lt (⟨a, b, c, d, p⟩ : QIODevice) h0]
    simp only
    rcases Nat.lt_or_ge (p + 1) d.length with h1 | h1
    · rw [QIODevice.getChar_of_lt (⟨a, b, c, d, p + 1⟩ : QIODevice) h1]
      simp only
      rw [QIODevice.getChar_of_ge (⟨a, b, c, d, p + 1 + 1⟩ : QIODevice) (by simp only; omega)]
      refine ⟨rfl, ?_⟩
      simp only [QIODevice.mk.injEq, true_and]
      omega
    · rw [QIODevice.getChar_of_ge (⟨a, b, c, d, p + 1⟩ : QIODevice) h1]
      refine ⟨rfl, ?_⟩
      simp only [QIODevice.mk.injEq, true_and]
      omega
  · rw [QIODevice.getChar_of_ge (⟨a, b, c, d, p⟩ : QIODevice) h0]
    refine ⟨rfl, ?_⟩
    simp only [QIODevice.mk.injEq, true_and]
    omega

theorem Tga24Reader.getIndex24_truncated (s : QIODevice) (h : s.data.length < s.pos + 3) :
    (Tga24Reader.getIndex s).1 = 0 ∧ (Tga24Reader.getIndex s).2 = { s with pos := max s.pos s.data.length } := by
  obtain ⟨a, b, c, d, p⟩ := s
  simp only at h ⊢
  unfold Tga24Reader.getIndex
  rcases Nat.lt_or_ge (p) d.length with h0 | h0
  · rw [QIODevice.getChar_of_lt (⟨a, b, c, d, p⟩ : QIODevice) h0]
    simp only
    rcases Nat.lt_or_ge (p + 1) d.length with h1 | h1
    · rw [QIODevice.getChar_of_lt (⟨a, b, c, d, p + 1⟩ : QIODevice) h1]
      simp only
      rw [QIODevice.getChar_of_ge (⟨a, b, c, d, p + 1 + 1⟩ : QIODevice) (by simp only; omega)]
      refine ⟨rfl, ?_⟩
      simp only [QIODevice.mk.injEq, true_and]
      omega
    · rw [QIODevice.getChar_of_ge (⟨a, b, c, d, p + 1⟩ : QIODevice) h1]
      refine ⟨rfl, ?_⟩
      simp only [QIODevice.mk.injEq, true_and]
      omega
  · rw [QIODevice.getChar_of_ge (⟨a, b, c, d, p⟩ : QIODevice) h0]
    refine ⟨rfl, ?_⟩
    simp only [QIODevice.mk.injEq, true_and]
    omega

theorem Tga32Reader.call32_truncated (s : QIODevice) (h : s.data.length < s.pos + 4) :
    (Tga32Reader.call s).1 = 0 ∧ (Tga32Reader.call s).2 = { s with pos := max s.pos s.data.length } := by
  obtain ⟨a, b, c, d, p⟩ := s
  simp only at h ⊢
  unfold Tga32Reader.call
  rcases Nat.lt_or_ge (p) d.length with h0 | h0
  · rw [QIODevice.getChar_of_lt (⟨a, b, c, d, p⟩ : QIODevice) h0]
    simp only
    rcases Nat.lt_or_ge (p + 1) d.length with h1 | h1
    · rw [QIODevice.getChar_of_lt (⟨a, b, c, d, p + 1⟩ : QIODevice) h1]
      simp only
      rcases Nat.lt_or_ge (p + 1 + 1) d.length with h2 | h2
      · rw [QIODevice.getChar_of_lt (⟨a, b, c, d, p + 1 + 1⟩ : QIODevice) h2]
        simp only
        rw [QIODevice.getChar_of_ge (⟨a, b, c, d, p + 1 + 1 + 1⟩ : QIODevice) (by simp only; omega)]
        refine ⟨rfl, ?_⟩
        simp only [QIODevice.mk.injEq, true_and]
        omega
      · rw [QIODevice.getChar_of_ge (⟨a, b, c, d, p + 1 + 1⟩ : QIODevice) h2]
        refine ⟨rfl, ?_⟩
        simp only [QIODevice.mk.injEq, true_and]
        omega
    · rw [QIODevice.getChar_of_ge (⟨a, b, c, d, p + 1⟩ : QIODevice) h1]
      refine ⟨rfl, ?_⟩
      simp only [QIODevice.mk.injEq, true_and]
      omega
  · rw [QIODevice.getChar_of_ge (⟨a, b, c, d, p⟩ : QIODevice) h0]
    refine ⟨rfl, ?_⟩
    simp only [QIODevice.mk.injEq, true_and]
    omega

theorem Tga32Reader.getIndex32_truncated (s : QIODevice) (h : s.data.length < s.pos + 4) :
    (Tga32Reader.getIndex s).1 = 0 ∧ (Tga32Reader.getIndex s).2 = { s with pos := max s.pos s.data.length } := by
  obtain ⟨a, b, c, d, p⟩ := s
  simp only at h ⊢
  unfold Tga32Reader.getIndex
  rcases Nat.lt_or_ge (p) d.length with h0 | h0
  · rw [QIODevice.getChar_of_lt (⟨a, b, c, d, p⟩ : QIODevice) h0]
    simp only
    rcases Nat.lt_or_ge (p + 1) d.length with h1 | h1
    · rw [QIODevice.getChar_of_lt (⟨a, b, c, d, p + 1⟩ : QIODevice) h1]
      simp only
      rcases Nat.lt_or_ge (p + 1 + 1) d.length with h2 | h2
      · rw [QIODevice.getChar_of_lt (⟨a, b, c, d, p + 1 + 1⟩ : QIODevice) h2]
        simp only
        rw [QIODevice.getChar_of_ge (⟨a, b, c, d, p + 1 + 1 + 1⟩ : QIODevice) (by simp only; omega)]
        refine ⟨rfl, ?_⟩
        simp only [QIODevice.mk.injEq, true_and]
        omega
      · rw [QIODevice.getChar_of_ge (⟨a, b, c, d, p + 1 + 1⟩ : QIODevice) h2]
        refine ⟨rfl, ?_⟩
        simp only [QIODevice.mk.injEq, true_and]
        omega
    · rw [QIODevice.getChar_of_ge (⟨a, b, c, d, p + 1⟩ : QIODevice) h1]
      refine ⟨rfl, ?_⟩
      simp only [QIODevice.mk.injEq, true_and]
      omega
  · rw [QIODevice.getChar_of_ge (⟨a, b, c, d, p⟩ : QIODevice) h0]
    refine ⟨rfl, ?_⟩
    simp only [QIODevice.mk.injEq, true_and]
    omega


theorem QTgaFile.readImage_message (f : QTgaFile) (img : QImage) (f1 : QTgaFile)
    (h : f.readImage = .ok (img, f1)) :
    f1.mErrorMessage = f.mErrorMessage ∧ f1.mHeader = f.mHeader ∧
    f1.m_bHighVersion = f.m_bHighVersion := by
  rw [QTgaFile.readImage_eq] at h
  by_cases hv : f.isValid = false
  · rw [if_pos hv] at h
    simp only [Except.ok.injEq, Prod.mk.injEq] at h
    rw [← h.2]; exact ⟨rfl, rfl, rfl⟩
  · rw [if_neg hv] at h
    by_cases ht : f.hdr ImageType = 0
    · rw [if_pos ht] at h
      simp only [Except.ok.injEq, Prod.mk.injEq] at h
      rw [← h.2]; exact ⟨rfl, rfl, rfl⟩
    · rw [if_neg ht] at h
      cases hd : f.decodeFrom (f.mDevice.seek ((HeaderSize + f.hdr IdLength : Nat) : Int)).2 with
      | error e => rw [hd] at h; cases h
      | ok v =>
        rw [hd] at h
        simp only [Except.ok.injEq, Prod.mk.injEq] at h
        rw [← h.2]; exact ⟨rfl, rfl, rfl⟩

/-! ### The palette loop before a direct-color path -/

theorem QTgaFile.readColorMap_eq (r : TgaReader) :
    ∀ (n : Nat) (cm : List QRgb) (d : QIODevice),
      readColorMap (some r) n cm d =
        .ok (cm ++ (readSamples r n d).1, (readSamples r n d).2) := by
  intro n
  induction n with
  | zero => intro cm d; simp [readColorMap, readSamples]
  | succ n ih =>
    intro cm d
    simp only [readColorMap, callReader, readSamples, ih, List.append_assoc, List.singleton_append]

/-- The palette loop of `readImage` when the palette is empty or its entry size has a
reader and the entries are on the source: the cursor moves by the size of the palette. -/
theorem QTgaFile.readColorMap_skip (depth n : Nat) (d : QIODevice)
    (hcm : n = 0 ∨ newReader depth ≠ none)
    (hsrc : d.pos + n * (depth / 8) ≤ d.data.length) :
    ∃ cm, readColorMap (newReader depth) n [] d =
      .ok (cm, { d with pos := d.pos + n * (depth / 8) }) := by
  cases hr : newReader depth with
  | none =>
    rcases hcm with h0 | h0
    · subst h0
      exact ⟨[], by simp [readColorMap]⟩
    · exact absurd hr h0
  | some r =>
    have hb := newReader_bytes depth r hr
    rw [← hb] at hsrc ⊢
    refine ⟨(readSamples r n d).1, ?_⟩
    rw [QTgaFile.readColorMap_eq, (readSamples_of_fit r n d hsrc).1]
    rfl

theorem QTgaFile.compression_of_type (f : QTgaFile) :
    (f.hdr ImageType = 2 ∨ f.hdr ImageType = 3 → f.compression = .NoCompression) ∧
    (f.hdr ImageType = 10 ∨ f.hdr ImageType = 11 → f.compression = .RleCompression) := by
  unfold compression
  constructor
  · intro h
    rw [if_neg (by omega)]
  · intro h
    rw [if_pos (by omega)]

/-- The decode of a direct-color image: the palette loop, then the direct path of the
type code, from the device the palette loop leaves. -/
theorem QTgaFile.decodeFrom_direct (f : QTgaFile) (dev0 dev1 : QIODevice) (cm : List QRgb)
    (ht : f.hdr ImageType = 2 ∨ f.hdr ImageType = 3 ∨ f.hdr ImageType = 10 ∨
      f.hdr ImageType = 11)
    (hcm : readColorMap (newReader (littleEndianInt f.mHeader CMapDepth))
      (littleEndianInt f.mHeader CMapLength) [] dev0 = .ok (cm, dev1)) :
    f.decodeFrom dev0 =
      if f.hdr ImageType = 2 ∨ f.hdr ImageType = 3 then
        f.noCompressProcess (newReader (f.hdr PixelDepth)) (QImage.create f.width f.height, dev1)
      else
        f.rleProcess (newReader (f.hdr PixelDepth)) (QImage.create f.width f.height, dev1) := by
  unfold decodeFrom
  rw [hcm]
  simp only
  by_cases h23 : f.hdr ImageType = 2 ∨ f.hdr ImageType = 3
  · rw [(QTgaFile.compression_of_type f).1 h23]
    simp only [if_true, if_pos h23]
    have h1 : ¬ f.hdr ImageType = 1 := by omega
    cases hp : f.noCompressProcess (newReader (f.hdr PixelDepth))
        (QImage.create f.width f.height, dev1) with
    | error e => rfl
    | ok st => simp only [if_neg h1]
  · have h1011 : f.hdr ImageType = 10 ∨ f.hdr ImageType = 11 := by omega
    rw [(QTgaFile.compression_of_type f).2 h1011]
    have hne : ¬ (Compression.RleCompression = Compression.NoCompression) := by decide
    simp only [if_neg hne, if_pos h1011, if_neg h23]
    have h9 : ¬ f.hdr ImageType = 9 := by omega
    cases hp : f.rleProcess (newReader (f.hdr PixelDepth))
        (QImage.create f.width f.height, dev1) with
    | error e => rfl
    | ok st => simp only [if_neg h9]

/-- Source `readImage` on a valid decoder of a direct-color type whose palette loop goes
through: the direct path runs from the offset after the id field and the palette. -/
theorem QTgaFile.readImage_direct (f : QTgaFile) (hv : f.isValid = true)
    (ht : f.hdr ImageType = 2 ∨ f.hdr ImageType = 3 ∨ f.hdr ImageType = 10 ∨
      f.hdr ImageType = 11)
    (hcm : littleEndianInt f.mHeader CMapLength = 0 ∨
      newReader (littleEndianInt f.mHeader CMapDepth) ≠ none)
    (hsrc : 18 + f.hdr IdLength +
      littleEndianInt f.mHeader CMapLength * (littleEndianInt f.mHeader CMapDepth / 8) ≤
        f.mDevice.data.length) :
    f.readImage =
      match (if f.hdr ImageType = 2 ∨ f.hdr ImageType = 3 then
          f.noCompressProcess (newReader (f.hdr PixelDepth))
            (QImage.create f.width f.height,
             { f.mDevice with pos := 18 + f.hdr IdLength +
                littleEndianInt f.mHeader CMapLength * (littleEndianInt f.mHeader CMapDepth / 8) })
        else
          f.rleProcess (newReader (f.hdr PixelDepth))
            (QImage.create f.width f.height,
             { f.mDevice with pos := 18 + f.hdr IdLength +
                littleEndianInt f.mHeader CMapLength * (littleEndianInt f.mHeader CMapDepth / 8) }))
      with
      | .error e => .error e
      | .ok (img, dev2) => .ok (img, { f with mDevice := dev2 }) := by
  rw [QTgaFile.readImage_eq]
  have hv' : ¬ f.isValid = false := by rw [hv]; decide
  have h0 : ¬ f.hdr ImageType = 0 := by omega
  rw [if_neg hv', if_neg h0]
  have hseek := QIODevice.seek_of_le f.mDevice (HeaderSize + f.hdr IdLength)
    (Or.inl (by simp only [HeaderSize]; omega))
  rw [hseek]
  obtain ⟨cm, hc⟩ := QTgaFile.readColorMap_skip (littleEndianInt f.mHeader CMapDepth)
    (littleEndianInt f.mHeader CMapLength) { f.mDevice with pos := HeaderSize + f.hdr IdLength }
    hcm (by simp only [HeaderSize]; omega)
  rw [QTgaFile.decodeFrom_direct f _ _ cm ht hc]
  rfl

/-! ### Packet streams -/

theorem QIODevice.getChar_of_drop (d : QIODevice) (a : Nat) (t : List Nat)
    (h : d.data.drop d.pos = a :: t) :
    d.getChar = (some a, { d with pos := d.pos + 1 }) ∧ d.data.drop (d.pos + 1) = t ∧
      d.pos < d.data.length := by
  have hlt : d.pos < d.data.length := by
    rcases Nat.lt_or_ge d.pos d.data.length with h1 | h1
    · exact h1
    · rw [List.drop_eq_nil_of_le h1] at h; cases h
  rw [List.drop_eq_getElem_cons hlt] at h
  injection h with h1 h2
  refine ⟨?_, h2, hlt⟩
  rw [QIODevice.getChar_of_lt d hlt, List.getD_eq_getElem _ _ hlt, h1]

/-- A sample read on a device whose content at the cursor starts with the bytes of a
sample: the color of the sample, and the cursor after it. -/
theorem TgaReader.call_of_bytes (r : TgaReader) (d : QIODevice) (s rest : List Nat)
    (hs : s.length = r.bytes) (h : d.data.drop d.pos = s ++ rest) :
    r.call d = (sampleColor r s, { d with pos := d.pos + r.bytes }) ∧
      d.data.drop (d.pos + r.bytes) = rest := by
  cases r
  · match s, hs with
    | [a], _ =>
      obtain ⟨g1, g2, _⟩ := QIODevice.getChar_of_drop d a rest h
      refine ⟨?_, g2⟩
      simp only [TgaReader.call, Tga8Reader.call, g1, sampleColor, TgaReader.bytes]
      rfl
  · match s, hs with
    | [a, b], _ =>
      obtain ⟨g1, g2, _⟩ := QIODevice.getChar_of_drop d a (b :: rest) h
      obtain ⟨k1, k2, _⟩ := QIODevice.getChar_of_drop { d with pos := d.pos + 1 } b rest g2
      refine ⟨?_, k2⟩
      simp only [TgaReader.call, Tga16Reader.call, g1, k1, sampleColor, TgaReader.bytes]
      rfl
  · match s, hs with
    | [a, b, c], _ =>
      obtain ⟨g1, g2, _⟩ := QIODevice.getChar_of_drop d a (b :: c :: rest) h
      obtain ⟨k1, k2, _⟩ := QIODevice.getChar_of_drop { d with pos := d.pos + 1 } b (c :: rest) g2
      obtain ⟨l1, l2, _⟩ := QIODevice.getChar_of_drop { d with pos := d.pos + 1 + 1 } c rest k2
      refine ⟨?_, l2⟩
      simp only [TgaReader.call, Tga24Reader.call, g1, k1, l1, sampleColor, TgaReader.bytes]
      rfl
  · match s, hs with
    | [a, b, c, e], _ =>
      obtain ⟨g1, g2, _⟩ := QIODevice.getChar_of_drop d a (b :: c :: e :: rest) h
      obtain ⟨k1, k2, _⟩ := QIODevice.getChar_of_drop { d with pos := d.pos + 1 } b
        (c :: e :: rest) g2
      obtain ⟨l1, l2, _⟩ := QIODevice.getChar_of_drop { d with pos := d.pos + 1 + 1 } c
        (e :: rest) k2
      obtain ⟨m1, m2, _⟩ := QIODevice.getChar_of_drop { d with pos := d.pos + 1 + 1 + 1 } e
        rest l2
      refine ⟨?_, m2⟩
      simp only [TgaReader.call, Tga32Reader.call, g1, k1, l1, m1, sampleColor, TgaReader.bytes]
      rfl

/-- The sample reads on a device whose content at the cursor starts with the bytes of
the samples `ss`: their colors, and the cursor after them. -/
theorem readSamples_of_bytes (r : TgaReader) :
    ∀ (ss : List (List Nat)) (d : QIODevice) (rest : List Nat),
      (∀ s ∈ ss, s.length = r.bytes) → d.data.drop d.pos = ss.flatten ++ rest →
      readSamples r ss.length d =
          (ss.map (sampleColor r), { d with pos := d.pos + ss.flatten.length }) ∧
        d.data.drop (d.pos + ss.flatten.length) = rest ∧
        ss.flatten.length = ss.length * r.bytes := by
  intro ss
  induction ss with
  | nil =>
    intro d rest _ h
    exact ⟨rfl, h, by simp⟩
  | cons s ss ih =>
    intro d rest hs h
    rw [List.flatten_cons, List.append_assoc] at h
    obtain ⟨c1, c2⟩ := TgaReader.call_of_bytes r d s (ss.flatten ++ rest)
      (hs s (List.mem_cons_self _ _)) h
    obtain ⟨i1, i2, i3⟩ := ih { d with pos := d.pos + r.bytes } rest
      (fun t ht => hs t (List.mem_cons_of_mem _ ht)) c2
    have hl : (s :: ss).flatten.length = r.bytes + ss.flatten.length := by
      rw [List.flatten_cons, List.length_append, hs s (List.mem_cons_self _ _)]
    simp only at i1 i2
    refine ⟨?_, ?_, ?_⟩
    · simp only [List.length_cons, readSamples, c1, i1, List.map_cons, hl, Nat.add_assoc]
    · rw [hl, ← Nat.add_assoc]; exact i2
    · rw [hl, i3, List.length_cons, Nat.add_mul, Nat.one_mul, Nat.add_comm]

theorem header_raw : ∀ m, m < 128 → (m % 256).testBit 7 = false ∧ (m % 256) &&& 0x7F = m := by
  decide

theorem header_rep : ∀ m, m < 128 →
    ((0x80 ||| m) % 256).testBit 7 = true ∧ ((0x80 ||| m) % 256) &&& 0x7F = m := by
  decide

theorem TgaRleReader.call_of_drop (d : QIODevice) (a : Nat) (t : List Nat)
    (h : d.data.drop d.pos = a :: t) :
    TgaRleReader.call d =
      ({ repeat_ := if (a % 256).testBit 7 then 1 else 0, number := (a % 256 &&& 0x7F) + 1 },
        { d with pos := d.pos + 1 }) ∧ d.data.drop (d.pos + 1) = t := by
  obtain ⟨g1, g2, g3⟩ := QIODevice.getChar_of_drop d a t h
  refine ⟨?_, g2⟩
  unfold TgaRleReader.call
  rw [g1]
  simp only
  rw [shiftRight_seven _ (Nat.mod_lt _ (by decide))]


theorem QTgaFile.rleLoop_packet (f : QTgaFile) (r : TgaReader) (hw : 0 < f.width)
    (p : Packet) (hp : p.wellFormed r.bytes) (k : Nat) (img : QImage) (dev : QIODevice)
    (rest : List Nat) (h : dev.data.drop dev.pos = p.specEncode ++ rest)
    (hk : k < f.width * f.height) (fuel : Nat) :
    rleLoop f (some r) (fuel + 1) { x := k % f.width, y := k / f.width, img := img, dev := dev } =
      rleLoop f (some r) fuel
        { x := (k + p.samples.length) % f.width, y := (k + p.samples.length) / f.width,
          img := writeSeq f img k (p.samples.map (sampleColor r)),
          dev := { dev with pos := dev.pos + p.specEncode.length } } ∧
      dev.data.drop (dev.pos + p.specEncode.length) = rest := by
  have hy := (f.cursor_lt k hk).2
  obtain ⟨p1, p2, p3⟩ := hp
  cases p with
  | raw ss =>
    simp only [Packet.samples] at p1 p2 p3
    simp only [Packet.specEncode, List.cons_append] at h
    obtain ⟨c1, c2⟩ := TgaRleReader.call_of_drop dev _ _ h
    obtain ⟨b1, b2⟩ := header_raw (ss.length - 1) (by omega)
    rw [b1, b2] at c1
    have hn : ss.length - 1 + 1 = ss.length := by omega
    rw [hn] at c1
    obtain ⟨s1, s2, s3⟩ := readSamples_of_bytes r ss { dev with pos := dev.pos + 1 } rest p3 c2
    simp only at s1 s2
    refine ⟨?_, ?_⟩
    · rw [rleLoop]
      simp only [if_pos hy, c1, Bool.false_eq_true, if_false]
      rw [if_neg (by omega)]
      simp only [rlePacket, Nat.zero_ne_one, if_false]
      rw [QTgaFile.rleRun_raw f r hw, s1]
      simp only [Packet.samples, Packet.specEncode, List.length_cons, Nat.add_assoc,
        Nat.add_comm 1]
    · simp only [Packet.specEncode, List.length_cons]
      rw [← s2]
      congr 1
      omega
  | rep n s =>
    simp only [Packet.samples, List.length_replicate] at p1 p2
    have hs : s.length = r.bytes := p3 s (by
      simp only [Packet.samples]
      exact List.mem_replicate.mpr ⟨by omega, rfl⟩)
    simp only [Packet.specEncode, List.cons_append] at h
    obtain ⟨c1, c2⟩ := TgaRleReader.call_of_drop dev _ _ h
    obtain ⟨b1, b2⟩ := header_rep (n - 1) (by omega)
    rw [b1, b2] at c1
    have hn : n - 1 + 1 = n := by omega
    rw [hn] at c1
    obtain ⟨s1, s2⟩ := TgaReader.call_of_bytes r { dev with pos := dev.pos + 1 } s rest hs c2
    simp only at s1 s2
    refine ⟨?_, ?_⟩
    · rw [rleLoop]
      simp only [if_pos hy, c1, if_true]
      rw [if_neg (by omega)]
      simp only [rlePacket, if_true, callReader, s1]
      rw [QTgaFile.rleRun_repeat f (some r) 1 (by decide) hw]
      simp only [Packet.samples, Packet.specEncode, List.length_cons, List.length_replicate,
        List.map_replicate, hs, Nat.add_assoc, Nat.add_comm 1]
    · simp only [Packet.specEncode, List.length_cons, hs]
      rw [← s2]
      congr 1
      omega

theorem packetSamples_cons_length (p : Packet) (ps : List Packet) :
    (packetSamples (p :: ps)).length = p.samples.length + (packetSamples ps).length := by
  simp only [packetSamples, List.length_append]

/-- The outer loop of `rleProcess` over a stream of well-formed packets that stays inside
the raster: one iteration per packet, the colors of the samples written in stream order
from the cursor on, the device after the packets. -/
theorem QTgaFile.rleLoop_packets (f : QTgaFile) (r : TgaReader) (hw : 0 < f.width) :
    ∀ (ps : List Packet) (k : Nat) (img : QImage) (dev : QIODevice) (rest : List Nat)
      (fuel : Nat),
      (∀ p ∈ ps, p.wellFormed r.bytes) →
      dev.data.drop dev.pos = specPacketStream ps ++ rest →
      k + (packetSamples ps).length ≤ f.width * f.height →
      rleLoop f (some r) (ps.length + fuel)
          { x := k % f.width, y := k / f.width, img := img, dev := dev } =
        rleLoop f (some r) fuel
          { x := (k + (packetSamples ps).length) % f.width,
            y := (k + (packetSamples ps).length) / f.width,
            img := writeSeq f img k ((packetSamples ps).map (sampleColor r)),
            dev := { dev with pos := dev.pos + (specPacketStream ps).length } } ∧
        dev.data.drop (dev.pos + (specPacketStream ps).length) = rest := by
  intro ps
  induction ps with
  | nil =>
    intro k img dev rest fuel _ h _
    refine ⟨?_, h⟩
    simp only [List.length_nil, Nat.zero_add, packetSamples, specPacketStream, Nat.add_zero,
      List.map_nil, writeSeq]
  | cons p ps ih =>
    intro k img dev rest fuel hwf h hk
    have hp := hwf p (List.mem_cons_self _ _)
    rw [packetSamples_cons_length] at hk
    simp only [specPacketStream, List.append_assoc] at h
    obtain ⟨q1, q2⟩ := QTgaFile.rleLoop_packet f r hw p hp k img dev _ h
      (by have := hp.1; omega) (ps.length + fuel)
    obtain ⟨i1, i2⟩ := ih (k + p.samples.length)
      (writeSeq f img k (p.samples.map (sampleColor r)))
      { dev with pos := dev.pos + p.specEncode.length } rest fuel
      (fun t ht => hwf t (List.mem_cons_of_mem _ ht)) q2 (by omega)
    simp only at i1 i2
    have e : (p :: ps).length + fuel = ps.length + fuel + 1 := by
      simp only [List.length_cons]; omega
    rw [e, q1, i1]
    refine ⟨?_, ?_⟩
    · simp only [packetSamples, specPacketStream, List.length_append, List.map_append,
        QTgaFile.writeSeq_append, List.length_map, Nat.add_assoc]
    · simp only [specPacketStream, List.length_append, ← Nat.add_assoc]
      exact i2

theorem Packet.specEncode_pos (p : Packet) : 1 ≤ p.specEncode.length := by
  cases p <;> simp [Packet.specEncode]

theorem specPacketStream_length (ps : List Packet) : ps.length ≤ (specPacketStream ps).length := by
  induction ps with
  | nil => exact Nat.le_refl _
  | cons p ps ih =>
    have := Packet.specEncode_pos p
    simp only [specPacketStream, List.length_cons, List.length_append]
    omega

theorem packetSamples_length (bytes : Nat) (ps : List Packet)
    (hwf : ∀ p ∈ ps, p.wellFormed bytes) : ∀ s ∈ packetSamples ps, s.length = bytes := by
  induction ps with
  | nil => intro s hs; cases hs
  | cons p ps ih =>
    intro s hs
    simp only [packetSamples, List.mem_append] at hs
    rcases hs with h | h
    · exact (hwf p (List.mem_cons_self _ _)).2.2 s h
    · exact ih (fun t ht => hwf t (List.mem_cons_of_mem _ ht)) s h

theorem QTgaFile.rleLoop_done (f : QTgaFile) (pReader : Option TgaReader) (fuel : Nat)
    (st : RleState) (h : ¬ st.y < f.height) : rleLoop f pReader fuel st = .ok st := by
  cases fuel <;> simp only [rleLoop, if_neg h]

/-- Source `rleProcess` over a stream of well-formed packets that either fills the raster
or ends the source before the raster is full: the colors of the samples are written in
stream order from the first pixel on, and the device is left after the packets. -/
theorem QTgaFile.rleProcess_packets (f : QTgaFile) (r : TgaReader) (hw : 0 < f.width)
    (ps : List Packet) (hwf : ∀ p ∈ ps, p.wellFormed r.bytes) (img : QImage)
    (dev : QIODevice) (rest : List Nat)
    (h : dev.data.drop dev.pos = specPacketStream ps ++ rest)
    (hn : (packetSamples ps).length ≤ f.width * f.height)
    (hend : (packetSamples ps).length = f.width * f.height ∨ rest = []) :
    rleProcess f (some r) (img, dev) =
      .ok (writeSeq f img 0 ((packetSamples ps).map (sampleColor r)),
           { dev with pos := dev.pos + (specPacketStream ps).length }) := by
  have hlen : (specPacketStream ps).length + rest.length = dev.data.length - dev.pos := by
    rw [← List.length_drop, h, List.length_append]
  have hps := specPacketStream_length ps
  have hfuel : dev.size - dev.pos + 1 =
      ps.length + (dev.size - dev.pos - ps.length + 1) := by
    simp only [QIODevice.size]; omega
  have h0 : (0 : Nat) % f.width = 0 ∧ (0 : Nat) / f.width = 0 :=
    ⟨Nat.zero_mod _, Nat.zero_div _⟩
  obtain ⟨q1, q2⟩ := QTgaFile.rleLoop_packets f r hw ps 0 img dev rest
    (dev.size - dev.pos - ps.length + 1) hwf h (by omega)
  rw [h0.1, h0.2] at q1
  unfold rleProcess
  simp only
  rw [hfuel, q1, Nat.zero_add]
  by_cases hfull : (packetSamples ps).length = f.width * f.height
  · rw [QTgaFile.rleLoop_done]
    simp only [hfull, Nat.mul_div_cancel_left _ hw]
    omega
  · have hrest : rest = [] := by
      rcases hend with h1 | h1
      · exact absurd h1 hfull
      · exact h1
    subst hrest
    have hy := (f.cursor_lt (packetSamples ps).length (by omega)).2
    rw [rleLoop]
    simp only [if_pos hy]
    rw [TgaRleReader.call_of_ge _ (by simp only [List.length_nil] at hlen ⊢; omega)]
    simp only [if_true]

theorem QImage.create_pixel (w h X Y : Nat) : (QImage.create w h).pixel X Y = none := by
  unfold QImage.create QImage.pixel
  split
  · simp [QImage.null]
  · simp only
    split
    · rw [List.getD_eq_getElem?_getD, List.getElem?_replicate]
      split <;> rfl
    · rfl

theorem QImage.create_warnings (w h : Nat) : (QImage.create w h).warnings = [] := by
  unfold QImage.create
  split <;> rfl

/-! ### The packet loops return -/

theorem TgaRleReader.call_bound (s : QIODevice) :
    (TgaRleReader.call s).1.number ≤ 128 ∧
    ((TgaRleReader.call s).1.number = 0 → s.data.length ≤ s.pos ∧ (TgaRleReader.call s).2 = s) ∧
    ((TgaRleReader.call s).1.number ≠ 0 →
      s.pos < s.data.length ∧ (TgaRleReader.call s).2 = { s with pos := s.pos + 1 }) ∧
    ((TgaRleReader.call s).1.repeat_ = 0 ∨ (TgaRleReader.call s).1.repeat_ = 1) := by
  rcases Nat.lt_or_ge s.pos s.data.length with h | h
  · rw [TgaRleReader.call_of_lt s h]
    have hb : s.byteAt s.pos &&& 0x7F ≤ 0x7F := Nat.and_le_right
    refine ⟨by simp only; omega, fun h0 => by simp only at h0; omega, fun _ => ⟨h, rfl⟩, ?_⟩
    simp only
    split
    · exact Or.inr rfl
    · exact Or.inl rfl
  · rw [TgaRleReader.call_of_ge s h]
    exact ⟨by simp, fun _ => ⟨h, rfl⟩, fun h0 => absurd rfl h0, Or.inl rfl⟩

theorem QTgaFile.putPixel_width_zero (f : QTgaFile) (h0 : f.width = 0) (st : RleState)
    (c : QRgb) (dev : QIODevice) (hx : st.x + 1 < 2 ^ 31) :
    putPixel f st c dev =
      .ok { x := st.x + 1, y := st.y, img := st.img.setPixel (f.curX st.x) (f.curY st.y) c,
            dev := dev } := by
  unfold putPixel
  simp only
  rw [if_neg (by omega), if_neg (by omega)]

theorem QTgaFile.rleRun_width_zero (f : QTgaFile) (r : TgaReader) (rep : Nat)
    (h0 : f.width = 0) :
    ∀ (n : Nat) (c : QRgb) (st : RleState), st.x + n < 2 ^ 31 →
      ∃ st1, rleRun f (some r) rep n c st = .ok st1 ∧ st1.x = st.x + n ∧ st1.y = st.y ∧
        st.dev.advanced st1.dev := by
  intro n
  induction n with
  | zero =>
    intro c st _
    exact ⟨st, rfl, rfl, rfl, QIODevice.advanced_refl _⟩
  | succ n ih =>
    intro c st hx
    by_cases hrep : rep = 0
    · obtain ⟨st1, i1, i2, i3, i4⟩ := ih (r.call st.dev).1
        { x := st.x + 1, y := st.y,
          img := st.img.setPixel (f.curX st.x) (f.curY st.y) (r.call st.dev).1,
          dev := (r.call st.dev).2 } (by simp only; omega)
      refine ⟨st1, ?_, by rw [i2]; simp only; omega, i3,
        QIODevice.advanced_trans (TgaReader.call_advanced r st.dev) i4⟩
      rw [rleRun]
      simp only [if_pos hrep, callReader]
      rw [QTgaFile.putPixel_width_zero f h0 _ _ _ (by omega)]
      exact i1
    · obtain ⟨st1, i1, i2, i3, i4⟩ := ih c
        { x := st.x + 1, y := st.y,
          img := st.img.setPixel (f.curX st.x) (f.curY st.y) c,
          dev := st.dev } (by simp only; omega)
      refine ⟨st1, ?_, by rw [i2]; simp only; omega, i3, i4⟩
      rw [rleRun]
      simp only [if_neg hrep]
      rw [QTgaFile.putPixel_width_zero f h0 _ _ _ (by omega)]
      exact i1


theorem QIODevice.advanced_facts {s t : QIODevice} (h : s.advanced t) :
    t.data.length = s.data.length ∧ s.pos ≤ t.pos := by
  obtain ⟨p, hp, rfl⟩ := h
  exact ⟨rfl, hp⟩

theorem QTgaFile.rlePacket_ok (f : QTgaFile) (r : TgaReader) (hw : 0 < f.width)
    (info : RleInfo) (hrep : info.repeat_ = 0 ∨ info.repeat_ = 1) (k : Nat) (img : QImage)
    (dev : QIODevice) :
    ∃ st1, rlePacket f (some r) info { x := k % f.width, y := k / f.width, img := img, dev := dev }
        = .ok st1 ∧
      st1.x = (k + info.number) % f.width ∧ st1.y = (k + info.number) / f.width ∧
      dev.advanced st1.dev := by
  unfold rlePacket
  rcases hrep with h | h
  · rw [h]
    simp only [Nat.zero_ne_one, if_false]
    rw [QTgaFile.rleRun_raw f r hw]
    exact ⟨_, rfl, rfl, rfl, readSamples_advanced r _ dev⟩
  · rw [h]
    simp only [if_true, callReader]
    rw [QTgaFile.rleRun_repeat f (some r) 1 (by decide) hw]
    exact ⟨_, rfl, rfl, rfl, TgaReader.call_advanced r dev⟩

theorem QTgaFile.rlePacket_width_zero (f : QTgaFile) (r : TgaReader) (h0 : f.width = 0)
    (info : RleInfo) (st : RleState) (hx : st.x + info.number < 2 ^ 31) :
    ∃ st1, rlePacket f (some r) info st = .ok st1 ∧ st1.x = st.x + info.number ∧
      st1.y = st.y ∧ st.dev.advanced st1.dev := by
  unfold rlePacket
  by_cases h : info.repeat_ = 1
  · simp only [if_pos h, callReader]
    obtain ⟨st1, i1, i2, i3, i4⟩ := QTgaFile.rleRun_width_zero f r info.repeat_ h0 info.number
      (r.call st.dev).1 { st with dev := (r.call st.dev).2 } hx
    exact ⟨st1, i1, i2, i3, QIODevice.advanced_trans (TgaReader.call_advanced r st.dev) i4⟩
  · simp only [if_neg h]
    exact QTgaFile.rleRun_width_zero f r info.repeat_ h0 info.number 0 st hx

/-- The outer loop of `rleProcess` returns when the width is not 0 and a reader is there. -/
theorem QTgaFile.rleLoop_ok (f : QTgaFile) (r : TgaReader) (hw : 0 < f.width) :
    ∀ (fuel k : Nat) (img : QImage) (dev : QIODevice), dev.data.length - dev.pos < fuel →
      ∃ st1, rleLoop f (some r) fuel { x := k % f.width, y := k / f.width, img := img, dev := dev }
        = .ok st1 := by
  intro fuel
  induction fuel with
  | zero => intro k img dev h; omega
  | succ fuel ih =>
    intro k img dev h
    rw [rleLoop]
    by_cases hy : k / f.width < f.height
    · simp only [if_pos hy]
      obtain ⟨_, _, b3, b4⟩ := TgaRleReader.call_bound dev
      by_cases hn : (TgaRleReader.call dev).1.number = 0
      · rw [if_pos hn]; exact ⟨_, rfl⟩
      · rw [if_neg hn]
        obtain ⟨c1, c2⟩ := b3 hn
        obtain ⟨st1, p1, p2, p3, p4⟩ := QTgaFile.rlePacket_ok f r hw (TgaRleReader.call dev).1 b4 k
          img (TgaRleReader.call dev).2
        rw [p1]
        simp only
        obtain ⟨a1, a2⟩ := QIODevice.advanced_facts p4
        rw [c2] at a1 a2
        simp only at a1 a2
        obtain ⟨x1, y1, img1, dev1⟩ := st1
        simp only at p2 p3 a1 a2 ⊢
        rw [p2, p3]
        exact ih _ img1 dev1 (by omega)
    · simp only [if_neg hy]; exact ⟨_, rfl⟩

/-- The outer loop of `rleProcess` returns when the width is 0, a reader is there and the
source is short enough for the column counter to stay an `int`. -/
theorem QTgaFile.rleLoop_width_zero (f : QTgaFile) (r : TgaReader) (h0 : f.width = 0) :
    ∀ (fuel : Nat) (st : RleState), st.dev.data.length - st.dev.pos < fuel →
      st.x + 128 * (st.dev.data.length - st.dev.pos) < 2 ^ 31 →
      ∃ st1, rleLoop f (some r) fuel st = .ok st1 ∧ st1.y = st.y := by
  intro fuel
  induction fuel with
  | zero => intro st h; omega
  | succ fuel ih =>
    intro st h hx
    rw [rleLoop]
    by_cases hy : st.y < f.height
    · simp only [if_pos hy]
      obtain ⟨b1, _, b3, _⟩ := TgaRleReader.call_bound st.dev
      by_cases hn : (TgaRleReader.call st.dev).1.number = 0
      · rw [if_pos hn]; exact ⟨_, rfl, rfl⟩
      · rw [if_neg hn]
        obtain ⟨c1, c2⟩ := b3 hn
        obtain ⟨st1, p1, p2, p3, p4⟩ := QTgaFile.rlePacket_width_zero f r h0
          (TgaRleReader.call st.dev).1 { st with dev := (TgaRleReader.call st.dev).2 }
          (by simp only; omega)
        rw [p1]
        simp only
        obtain ⟨a1, a2⟩ := QIODevice.advanced_facts p4
        simp only [c2] at a1 a2 p2 p3
        obtain ⟨i1, i2⟩ := ih st1 (by omega) (by omega)
        exact ⟨i1, i2.1, by rw [i2.2, p3]⟩
    · simp only [if_neg hy]; exact ⟨_, rfl, rfl⟩

/-- Source `rleProcess` returns a raster: always when the width is not 0, and when the
width is 0 for a source of less than `2^31 / 128` bytes after the cursor. -/
theorem QTgaFile.rleProcess_ok (f : QTgaFile) (r : TgaReader) (st : QImage × QIODevice)
    (h : 1 ≤ f.width ∨ 128 * (st.2.data.length - st.2.pos) < 2 ^ 31) :
    ∃ v, rleProcess f (some r) st = .ok v := by
  unfold rleProcess
  by_cases hw : 0 < f.width
  · obtain ⟨st1, h1⟩ := QTgaFile.rleLoop_ok f r hw (st.2.size - st.2.pos + 1) 0 st.1 st.2
      (by simp only [QIODevice.size]; omega)
    rw [Nat.zero_mod, Nat.zero_div] at h1
    rw [h1]
    exact ⟨_, rfl⟩
  · have h0 : f.width = 0 := by omega
    obtain ⟨st1, h1, _⟩ := QTgaFile.rleLoop_width_zero f r h0 (st.2.size - st.2.pos + 1)
      { x := 0, y := 0, img := st.1, dev := st.2 } (by simp only [QIODevice.size]; omega)
      (by simp only; omega)
    rw [h1]
    exact ⟨_, rfl⟩

/-! ## The claims -/

/-- C1. A valid decoder whose header has image type 2, pixel depth 24, descriptor 0 and
color-map length 0, of width `w >= 1` and height `h >= 1`, on a source that holds at least
`3*w*h` bytes after the header and the id field: `readImage` returns a `w` x `h` image in
which, for all `x < w` and `y < h`, the pixel at output `(x, h-1-y)` is `qRgb R G B` for the
`(y*w+x)`-th stored triple, stored in the order B, G, R; that color is the fully opaque
`0xFF000000 + R*2^16 + G*2^8 + B`. -/
theorem readImage_uncompressed24 (f : QTgaFile) (hv : f.isValid = true)
    (ht : f.hdr ImageType = 2) (hd : f.hdr PixelDepth = 24) (hdesc : f.hdr ImageDescriptor = 0)
    (hcm : littleEndianInt f.mHeader CMapLength = 0)
    (hw : 1 ≤ f.width) (hh : 1 ≤ f.height)
    (hsrc : 18 + f.hdr IdLength + 3 * f.width * f.height ≤ f.mDevice.data.length) :
    ∃ img f1, f.readImage = .ok (img, f1) ∧ img.width = f.width ∧ img.height = f.height ∧
      ∀ x y, x < f.width → y < f.height →
        img.pixel x (f.height - 1 - y) =
          some (qRgb (f.mDevice.byteAt (18 + f.hdr IdLength + 3 * (y * f.width + x) + 2))
                     (f.mDevice.byteAt (18 + f.hdr IdLength + 3 * (y * f.width + x) + 1))
                     (f.mDevice.byteAt (18 + f.hdr IdLength + 3 * (y * f.width + x)))) ∧
        qRgb (f.mDevice.byteAt (18 + f.hdr IdLength + 3 * (y * f.width + x) + 2))
             (f.mDevice.byteAt (18 + f.hdr IdLength + 3 * (y * f.width + x) + 1))
             (f.mDevice.byteAt (18 + f.hdr IdLength + 3 * (y * f.width + x))) =
          255 * 2 ^ 24 + f.mDevice.byteAt (18 + f.hdr IdLength + 3 * (y * f.width + x) + 2) * 2 ^ 16
            + f.mDevice.byteAt (18 + f.hdr IdLength + 3 * (y * f.width + x) + 1) * 2 ^ 8
            + f.mDevice.byteAt (18 + f.hdr IdLength + 3 * (y * f.width + x)) := by
  have hmul : 3 * f.width * f.height = (f.height * f.width) * 3 := by
    rw [Nat.mul_assoc, Nat.mul_comm 3, Nat.mul_comm f.width]
  have hseek := QIODevice.seek_of_le f.mDevice (HeaderSize + f.hdr IdLength)
    (Or.inl (by simp only [HeaderSize]; omega))
  have hcomp : f.compression = .NoCompression := by
    unfold compression; rw [ht]; rfl
  have hrd : newReader 24 = some .tga24 := rfl
  obtain ⟨rs1, rs2⟩ := readSamples_of_fit .tga24 (f.height * f.width)
    { f.mDevice with pos := HeaderSize + f.hdr IdLength }
    (by simp only [HeaderSize, TgaReader.bytes]; omega)
  obtain ⟨s1, s2, s3, s4⟩ := f.writeSeq_spec
    (readSamples .tga24 (f.height * f.width) { f.mDevice with pos := HeaderSize + f.hdr IdLength }).1
    (QImage.create f.width f.height) 0 (QImage.create_fits f hw hh)
    (by rw [readSamples_length, Nat.mul_comm]; omega)
  refine ⟨writeSeq f (QImage.create f.width f.height) 0
      (readSamples .tga24 (f.height * f.width)
        { f.mDevice with pos := HeaderSize + f.hdr IdLength }).1,
    { f with mDevice := (readSamples .tga24 (f.height * f.width)
        { f.mDevice with pos := HeaderSize + f.hdr IdLength }).2 }, ?_, s1.1, s1.2.1, ?_⟩
  · unfold readImage
    simp only [hv, ht, hcm, hd, hseek, hcomp, hrd, readColorMap, Bool.true_eq_false, if_false,
      OfNat.ofNat_ne_zero, true_or, if_true, noCompressProcess_eq]
    simp
  · intro x y hx hy
    have hk : y * f.width + x < f.height * f.width := by
      have := index_lt f.width f.height x y hx hy
      rw [Nat.mul_comm f.width f.height] at this; exact this
    have hc := f.cursor_of_lt x y hx
    have h3 := s3 (y * f.width + x) _ (rs2 _ hk)
    rw [Nat.zero_add] at h3
    have hox : f.outX (y * f.width + x) = x := by
      simp [outX, specOutX, hdesc, hc.1]
    have hoy : f.outY (y * f.width + x) = f.height - 1 - y := by
      simp [outY, specOutY, hdesc, hc.2]
    rw [hox, hoy] at h3
    refine ⟨?_, qRgb_eq _ _ _ (QIODevice.byteAt_lt _ _) (QIODevice.byteAt_lt _ _)
      (QIODevice.byteAt_lt _ _)⟩
    rw [h3]
    simp only [TgaReader.call, TgaReader.bytes, HeaderSize]
    have e : 18 + f.hdr IdLength + (y * f.width + x) * 3 =
        18 + f.hdr IdLength + 3 * (y * f.width + x) := by omega
    rw [e]
    have hfit : ({ f.mDevice with pos := 18 + f.hdr IdLength + 3 * (y * f.width + x) }
        : QIODevice).pos + 3 ≤ f.mDevice.data.length := by
      simp only; omega
    rw [Tga24Reader.call24_of_fit _ hfit]
    rfl

/-- The 2x2 case of C1: samples 0 and 1 are on the bottom output row, samples 2 and 3 on
the top output row. -/
theorem readImage_uncompressed24_witness :
    ∃ img f1,
      (QTgaFile.new (bufferOf (header2x2 2 24 ++ [1, 2, 3, 4, 5, 6, 7, 8, 9, 10, 11, 12]))).readImage =
        .ok (img, f1) ∧
      img.width = 2 ∧ img.height = 2 ∧
      img.pixel 0 1 = some (qRgb 3 2 1) ∧ img.pixel 1 1 = some (qRgb 6 5 4) ∧
      img.pixel 0 0 = some (qRgb 9 8 7) ∧ img.pixel 1 0 = some (qRgb 12 11 10) := by
  obtain ⟨img, f1, h1, h2, h3, h4⟩ := readImage_uncompressed24
    (QTgaFile.new (bufferOf (header2x2 2 24 ++ [1, 2, 3, 4, 5, 6, 7, 8, 9, 10, 11, 12])))
    (by decide) (by decide) (by decide) (by decide) (by decide) (by decide) (by decide) (by decide)
  exact ⟨img, f1, h1, h2, h3, (h4 0 0 (by decide) (by decide)).1, (h4 1 0 (by decide) (by decide)).1,
    (h4 0 1 (by decide) (by decide)).1, (h4 1 1 (by decide) (by decide)).1⟩

/-- C2. Direct-color RLE decoding, the packet loop at logical cursor `k = y*width + x`
on an image of the header's dimensions, the device at a packet-header byte `b` with bit 7
set, run length `n = (b & 0x7F) + 1` with `k + n <= width*height`, and at least `depth/8`
bytes after the header byte: the header decodes to a repeat packet of `n`; the packet
succeeds and is one iteration of the outer loop; the device has advanced by `1 + depth/8`
bytes (one sample read); the cursor is at `k + n`; the one color read right after the
header byte is at the output positions of the stream pixels `k .. k+n-1`, every other
pixel is unchanged and no write is refused. -/
theorem rle_repeat_packet (f : QTgaFile) (depth : Nat) (r : TgaReader)
    (hr : newReader depth = some r) (st : RleState) (hf : f.fits st.img)
    (hx : st.x < f.width)
    (h7 : (st.dev.byteAt st.dev.pos).testBit 7 = true)
    (hrun : st.y * f.width + st.x + ((st.dev.byteAt st.dev.pos &&& 0x7F) + 1) ≤ f.width * f.height)
    (hbytes : st.dev.pos + 1 + depth / 8 ≤ st.dev.data.length) :
    ∃ st1 : RleState,
      (TgaRleReader.call st.dev).1 =
          { repeat_ := 1, number := (st.dev.byteAt st.dev.pos &&& 0x7F) + 1 } ∧
      rlePacket f (some r) (TgaRleReader.call st.dev).1
          { st with dev := (TgaRleReader.call st.dev).2 } = .ok st1 ∧
      (∀ fuel, rleLoop f (some r) (fuel + 1) st = rleLoop f (some r) fuel st1) ∧
      st1.dev = { st.dev with pos := st.dev.pos + 1 + depth / 8 } ∧
      st1.x = (st.y * f.width + st.x + ((st.dev.byteAt st.dev.pos &&& 0x7F) + 1)) % f.width ∧
      st1.y = (st.y * f.width + st.x + ((st.dev.byteAt st.dev.pos &&& 0x7F) + 1)) / f.width ∧
      f.fits st1.img ∧ st1.img.warnings = st.img.warnings ∧
      (∀ i, i < (st.dev.byteAt st.dev.pos &&& 0x7F) + 1 →
        st1.img.pixel (f.outX (st.y * f.width + st.x + i)) (f.outY (st.y * f.width + st.x + i)) =
          some (r.call { st.dev with pos := st.dev.pos + 1 }).1) ∧
      (∀ X Y, (∀ i, i < (st.dev.byteAt st.dev.pos &&& 0x7F) + 1 →
          ¬ (X = f.outX (st.y * f.width + st.x + i) ∧ Y = f.outY (st.y * f.width + st.x + i))) →
        st1.img.pixel X Y = st.img.pixel X Y) := by
  obtain ⟨x, y, img, dev⟩ := st
  simp only at hf hx h7 hrun hbytes ⊢
  have hpos : dev.pos < dev.data.length := by omega
  have hw : 0 < f.width := by omega
  have hy : y < f.height := by
    rcases Nat.lt_or_ge y f.height with h | h
    · exact h
    · have := Nat.mul_le_mul_right f.width h
      rw [Nat.mul_comm f.width f.height] at hrun
      omega
  have hb := newReader_bytes depth r hr
  have hcall := TgaRleReader.call_of_lt dev hpos
  rw [h7] at hcall
  simp only [if_true] at hcall
  obtain ⟨cx, cy⟩ := f.cursor_of_lt x y hx
  generalize hn : (dev.byteAt dev.pos &&& 0x7F) + 1 = n at *
  generalize hk : y * f.width + x = k at *
  have hfit : ({ dev with pos := dev.pos + 1 } : QIODevice).pos + r.bytes ≤
      ({ dev with pos := dev.pos + 1 } : QIODevice).data.length := by
    simp only; omega
  have hdev := TgaReader.call_of_fit r _ hfit
  simp only at hdev
  have hrun1 := QTgaFile.rleRun_repeat f (some r) 1 (by decide) hw n k
    (r.call { dev with pos := dev.pos + 1 }).1 img (r.call { dev with pos := dev.pos + 1 }).2
  rw [cx, cy] at hrun1
  have hpk : rlePacket f (some r) { repeat_ := 1, number := n }
      { x := x, y := y, img := img, dev := { dev with pos := dev.pos + 1 } } =
      .ok { x := (k + n) % f.width, y := (k + n) / f.width,
            img := writeSeq f img k (List.replicate n (r.call { dev with pos := dev.pos + 1 }).1),
            dev := (r.call { dev with pos := dev.pos + 1 }).2 } := by
    simp only [rlePacket, if_true, callReader]
    exact hrun1
  obtain ⟨s1, s2, s3, s4⟩ := f.writeSeq_spec
    (List.replicate n (r.call { dev with pos := dev.pos + 1 }).1) img k hf
    (by rw [List.length_replicate]; exact hrun)
  refine ⟨{ x := (k + n) % f.width, y := (k + n) / f.width,
            img := writeSeq f img k (List.replicate n (r.call { dev with pos := dev.pos + 1 }).1),
            dev := (r.call { dev with pos := dev.pos + 1 }).2 }, ?_, ?_, ?_, ?_, rfl, rfl, s1, s2, ?_, ?_⟩
  · rw [hcall]
  · rw [hcall]; exact hpk
  · intro fuel
    have hn0 : n ≠ 0 := by omega
    simp only [rleLoop, if_pos hy, hcall, hn0, if_false, hpk]
  · simp only; rw [hdev, hb]
  · intro i hi
    exact s3 i _ (by rw [List.getElem?_replicate, if_pos hi])
  · intro X Y h
    exact s4 X Y (by rw [List.length_replicate]; exact h)

/-- The case `b = 0x83` of C2 with a 24-bit sample: four identical output pixels. -/
theorem rle_repeat_packet_witness :
    ∃ st1 : RleState,
      rlePacket (QTgaFile.new (bufferOf (header2x2 10 24 ++ [0x83, 10, 20, 30, 0, 0, 0, 0])))
        (some .tga24) { repeat_ := 1, number := 4 }
        { rleStart (QTgaFile.new (bufferOf (header2x2 10 24 ++ [0x83, 10, 20, 30, 0, 0, 0, 0]))) with
          dev := { bufferOf (header2x2 10 24 ++ [0x83, 10, 20, 30, 0, 0, 0, 0]) with pos := 19 } } =
          .ok st1 ∧
      st1.dev.pos = 22 ∧ st1.x = 0 ∧ st1.y = 2 ∧
      st1.img.pixel 0 1 = some (qRgb 30 20 10) ∧ st1.img.pixel 1 1 = some (qRgb 30 20 10) ∧
      st1.img.pixel 0 0 = some (qRgb 30 20 10) ∧ st1.img.pixel 1 0 = some (qRgb 30 20 10) := by
  obtain ⟨st1, _, h2, _, h4, h5, h6, _, _, h9, _⟩ := rle_repeat_packet
    (QTgaFile.new (bufferOf (header2x2 10 24 ++ [0x83, 10, 20, 30, 0, 0, 0, 0]))) 24 .tga24 rfl
    (rleStart (QTgaFile.new (bufferOf (header2x2 10 24 ++ [0x83, 10, 20, 30, 0, 0, 0, 0]))))
    (by decide) (by decide) (by decide) (by decide) (by decide)
  exact ⟨st1, h2, by rw [h4]; decide, by rw [h5]; decide, by rw [h6]; decide, h9 0 (by decide),
    h9 1 (by decide), h9 2 (by decide), h9 3 (by decide)⟩

/-- C3. Direct-color RLE decoding, the packet loop at logical cursor `k = y*width + x`
on an image of the header's dimensions, the device at a packet-header byte `b` with bit 7
clear, run length `n = (b & 0x7F) + 1` with `k + n <= width*height`, and at least
`n * depth/8` bytes after the header byte: the header decodes to a raw packet of `n`; the
packet succeeds and is one iteration of the outer loop; the device has advanced by
`1 + n * depth/8` bytes; the cursor is at `k + n`; the `i`-th sample read (the one at offset
`1 + i * depth/8` from the header byte) is at the output position of stream pixel `k + i`
for every `i < n`, every other pixel is unchanged and no write is refused. -/
theorem rle_raw_packet (f : QTgaFile) (depth : Nat) (r : TgaReader)
    (hr : newReader depth = some r) (st : RleState) (hf : f.fits st.img)
    (hx : st.x < f.width)
    (h7 : (st.dev.byteAt st.dev.pos).testBit 7 = false)
    (hrun : st.y * f.width + st.x + ((st.dev.byteAt st.dev.pos &&& 0x7F) + 1) ≤ f.width * f.height)
    (hbytes : st.dev.pos + 1 + ((st.dev.byteAt st.dev.pos &&& 0x7F) + 1) * (depth / 8) ≤
      st.dev.data.length) :
    ∃ st1 : RleState,
      (TgaRleReader.call st.dev).1 =
          { repeat_ := 0, number := (st.dev.byteAt st.dev.pos &&& 0x7F) + 1 } ∧
      rlePacket f (some r) (TgaRleReader.call st.dev).1
          { st with dev := (TgaRleReader.call st.dev).2 } = .ok st1 ∧
      (∀ fuel, rleLoop f (some r) (fuel + 1) st = rleLoop f (some r) fuel st1) ∧
      st1.dev = { st.dev with
        pos := st.dev.pos + 1 + ((st.dev.byteAt st.dev.pos &&& 0x7F) + 1) * (depth / 8) } ∧
      st1.x = (st.y * f.width + st.x + ((st.dev.byteAt st.dev.pos &&& 0x7F) + 1)) % f.width ∧
      st1.y = (st.y * f.width + st.x + ((st.dev.byteAt st.dev.pos &&& 0x7F) + 1)) / f.width ∧
      f.fits st1.img ∧ st1.img.warnings = st.img.warnings ∧
      (∀ i, i < (st.dev.byteAt st.dev.pos &&& 0x7F) + 1 →
        st1.img.pixel (f.outX (st.y * f.width + st.x + i)) (f.outY (st.y * f.width + st.x + i)) =
          some (r.call { st.dev with pos := st.dev.pos + 1 + i * (depth / 8) }).1) ∧
      (∀ X Y, (∀ i, i < (st.dev.byteAt st.dev.pos &&& 0x7F) + 1 →
          ¬ (X = f.outX (st.y * f.width + st.x + i) ∧ Y = f.outY (st.y * f.width + st.x + i))) →
        st1.img.pixel X Y = st.img.pixel X Y) := by
  obtain ⟨x, y, img, dev⟩ := st
  simp only at hf hx h7 hrun hbytes ⊢
  have hpos : dev.pos < dev.data.length := by omega
  have hw : 0 < f.width := by omega
  have hy : y < f.height := by
    rcases Nat.lt_or_ge y f.height with h | h
    · exact h
    · have := Nat.mul_le_mul_right f.width h
      rw [Nat.mul_comm f.width f.height] at hrun
      omega
  have hb := newReader_bytes depth r hr
  have hcall := TgaRleReader.call_of_lt dev hpos
  rw [h7] at hcall
  simp only [Bool.false_eq_true, if_false] at hcall
  obtain ⟨cx, cy⟩ := f.cursor_of_lt x y hx
  generalize hn : (dev.byteAt dev.pos &&& 0x7F) + 1 = n at *
  generalize hk : y * f.width + x = k at *
  rw [← hb] at hbytes ⊢
  obtain ⟨rs1, rs2⟩ := readSamples_of_fit r n { dev with pos := dev.pos + 1 } (by simp only; omega)
  simp only at rs1 rs2
  have hrun1 := QTgaFile.rleRun_raw f r hw n k 0 img { dev with pos := dev.pos + 1 }
  rw [cx, cy] at hrun1
  have hpk : rlePacket f (some r) { repeat_ := 0, number := n }
      { x := x, y := y, img := img, dev := { dev with pos := dev.pos + 1 } } =
      .ok { x := (k + n) % f.width, y := (k + n) / f.width,
            img := writeSeq f img k (readSamples r n { dev with pos := dev.pos + 1 }).1,
            dev := (readSamples r n { dev with pos := dev.pos + 1 }).2 } := by
    simp only [rlePacket, Nat.zero_ne_one, if_false]
    exact hrun1
  obtain ⟨s1, s2, s3, s4⟩ := f.writeSeq_spec
    (readSamples r n { dev with pos := dev.pos + 1 }).1 img k hf
    (by rw [readSamples_length]; exact hrun)
  refine ⟨{ x := (k + n) % f.width, y := (k + n) / f.width,
            img := writeSeq f img k (readSamples r n { dev with pos := dev.pos + 1 }).1,
            dev := (readSamples r n { dev with pos := dev.pos + 1 }).2 },
          ?_, ?_, ?_, ?_, rfl, rfl, s1, s2, ?_, ?_⟩
  · rw [hcall]
  · rw [hcall]; exact hpk
  · intro fuel
    have hn0 : n ≠ 0 := by omega
    simp only [rleLoop, if_pos hy, hcall, hn0, if_false, hpk]
  · simp only; rw [rs1]
  · intro i hi
    exact s3 i _ (rs2 i hi)
  · intro X Y h
    exact s4 X Y (by rw [readSamples_length]; exact h)

/-- The case `b = 0x03` of C3 with four 24-bit samples: the four colors in input order. -/
theorem rle_raw_packet_witness :
    ∃ st1 : RleState,
      rlePacket
        (QTgaFile.new (bufferOf (header2x2 10 24 ++ [0x03, 1, 2, 3, 4, 5, 6, 7, 8, 9, 10, 11, 12])))
        (some .tga24) { repeat_ := 0, number := 4 }
        { rleStart
            (QTgaFile.new (bufferOf (header2x2 10 24 ++ [0x03, 1, 2, 3, 4, 5, 6, 7, 8, 9, 10, 11, 12])))
          with dev :=
            { bufferOf (header2x2 10 24 ++ [0x03, 1, 2, 3, 4, 5, 6, 7, 8, 9, 10, 11, 12]) with
              pos := 19 } } = .ok st1 ∧
      st1.dev.pos = 31 ∧ st1.x = 0 ∧ st1.y = 2 ∧
      st1.img.pixel 0 1 = some (qRgb 3 2 1) ∧ st1.img.pixel 1 1 = some (qRgb 6 5 4) ∧
      st1.img.pixel 0 0 = some (qRgb 9 8 7) ∧ st1.img.pixel 1 0 = some (qRgb 12 11 10) := by
  obtain ⟨st1, _, h2, _, h4, h5, h6, _, _, h9, _⟩ := rle_raw_packet
    (QTgaFile.new (bufferOf (header2x2 10 24 ++ [0x03, 1, 2, 3, 4, 5, 6, 7, 8, 9, 10, 11, 12])))
    24 .tga24 rfl
    (rleStart
      (QTgaFile.new (bufferOf (header2x2 10 24 ++ [0x03, 1, 2, 3, 4, 5, 6, 7, 8, 9, 10, 11, 12]))))
    (by decide) (by decide) (by decide) (by decide) (by decide)
  exact ⟨st1, h2, by rw [h4]; decide, by rw [h5]; decide, by rw [h6]; decide, h9 0 (by decide),
    h9 1 (by decide), h9 2 (by decide), h9 3 (by decide)⟩

/-- C5 fails as stated: a readable random-access source of exactly 18 bytes with a type-2,
24-bit header is not valid after construction; the seek to `size - 26` is refused. -/
theorem new_short_source_invalid :
    (bufferOf (header2x2 2 24)).readable = true ∧ (bufferOf (header2x2 2 24)).sequential = false ∧
    (bufferOf (header2x2 2 24)).data.length = 18 ∧
    (bufferOf (header2x2 2 24)).byteAt 16 = 24 ∧ (bufferOf (header2x2 2 24)).byteAt 2 = 2 ∧
    (QTgaFile.new (bufferOf (header2x2 2 24))).isValid = false ∧
    (QTgaFile.new (bufferOf (header2x2 2 24))).errorMessage = "Could not seek to image read footer" := by
  decide

/-- C5, amended. A readable random-access source of at least 26 and fewer than `2^31`
bytes whose header has a pixel depth (byte 16) among 8, 16, 24, 32 and a type code (byte 2)
among 0, 1, 2, 3, 9, 10, 11: after construction `isValid()` is true and the error message
is empty, whatever the other header fields. -/
theorem new_valid_of_supported (s : QIODevice) (hr : s.readable = true)
    (hs : s.sequential = false) (h26 : 26 ≤ s.data.length) (h31 : s.data.length < 2 ^ 31)
    (hdepth : s.byteAt 16 = 8 ∨ s.byteAt 16 = 16 ∨ s.byteAt 16 = 24 ∨ s.byteAt 16 = 32)
    (htype : s.byteAt 2 = 0 ∨ s.byteAt 2 = 1 ∨ s.byteAt 2 = 2 ∨ s.byteAt 2 = 3 ∨ s.byteAt 2 = 9 ∨
          s.byteAt 2 = 10 ∨ s.byteAt 2 = 11) :
    (QTgaFile.new s).isValid = true ∧ (QTgaFile.new s).errorMessage = "" := by
  have hv : (QTgaFile.new s).isValid = true := by
    rw [QTgaFile.new_isValid_iff s hr hs (by omega), toInt_of_lt _ h31]
    exact ⟨by omega, hdepth, by omega⟩
  exact ⟨hv, (String.isEmpty_iff _).mp hv⟩

/-- C5, amended, at a 30-byte source with a type-2, 24-bit header. -/
theorem new_valid_of_supported_witness :
    (QTgaFile.new (bufferOf (header2x2 2 24 ++ List.replicate 12 0))).isValid = true ∧
    (QTgaFile.new (bufferOf (header2x2 2 24 ++ List.replicate 12 0))).errorMessage = "" :=
  new_valid_of_supported (bufferOf (header2x2 2 24 ++ List.replicate 12 0)) rfl rfl
    (by decide) (by decide) (by decide) (by decide)

/-- C6. A readable random-access source that supplies an 18-byte header whose pixel depth
(byte 16) is not one of 8, 16, 24, 32 or whose type code (byte 2) is not one of 0, 1, 2, 3,
9, 10, 11: after construction `isValid()` is false and `errorMessage()` is not empty,
whatever the rest of the source (and so whatever the footer steps do). -/
theorem new_invalid_of_unsupported (s : QIODevice) (hr : s.readable = true)
    (hs : s.sequential = false) (hl : 18 ≤ s.data.length)
    (hbad : ¬ (s.byteAt 16 = 8 ∨ s.byteAt 16 = 16 ∨ s.byteAt 16 = 24 ∨ s.byteAt 16 = 32) ∨
      ¬ (s.byteAt 2 = 0 ∨ s.byteAt 2 = 1 ∨ s.byteAt 2 = 2 ∨ s.byteAt 2 = 3 ∨ s.byteAt 2 = 9 ∨
          s.byteAt 2 = 10 ∨ s.byteAt 2 = 11)) :
    (QTgaFile.new s).isValid = false ∧ (QTgaFile.new s).errorMessage ≠ "" := by
  have hiff := QTgaFile.new_isValid_iff s hr hs hl
  have hv : (QTgaFile.new s).isValid = false := by
    cases h : (QTgaFile.new s).isValid with
    | false => rfl
    | true =>
      obtain ⟨h1, h2, _⟩ := hiff.mp h
      rcases hbad with hb | hb
      · exact absurd h2 hb
      · exact absurd (by omega) hb
  refine ⟨hv, ?_⟩
  intro he
  unfold errorMessage at he
  unfold isValid at hv
  rw [he] at hv
  exact absurd hv (by decide)

/-- C6 at a 30-byte source whose header announces a pixel depth of 15. -/
theorem new_invalid_of_unsupported_witness :
    (QTgaFile.new (bufferOf (header2x2 2 15 ++ List.replicate 12 0))).isValid = false ∧
    (QTgaFile.new (bufferOf (header2x2 2 15 ++ List.replicate 12 0))).errorMessage ≠ "" :=
  new_invalid_of_unsupported (bufferOf (header2x2 2 15 ++ List.replicate 12 0)) rfl rfl
    (by decide) (Or.inl (by decide))

/-- C7 fails as stated: a 30-byte source whose header has type code 0 and pixel depth 0
is not valid after construction. -/
theorem no_image_data_depth_zero_invalid :
    (bufferOf (header2x2 0 0 ++ List.replicate 12 0)).byteAt 2 = 0 ∧
    (QTgaFile.new (bufferOf (header2x2 0 0 ++ List.replicate 12 0))).isValid = false ∧
    (QTgaFile.new (bufferOf (header2x2 0 0 ++ List.replicate 12 0))).errorMessage =
      "Image depth not valid" := by
  decide

/-- C7, amended. A readable random-access source that supplies an 18-byte header with
type code 0: whatever the remaining header fields, `readImage` returns the null image and
leaves the decoder and its device as they were (no palette or pixel byte is read);
construction records no error when the pixel depth is one of 8, 16, 24, 32 and the source
has at least 26 and fewer than `2^31` bytes, and records an error when the pixel depth is
none of these. -/
theorem readImage_no_image_data (s : QIODevice) (hr : s.readable = true)
    (hs : s.sequential = false) (hl : 18 ≤ s.data.length) (ht : s.byteAt 2 = 0) :
    (QTgaFile.new s).readImage = .ok (QImage.null, QTgaFile.new s) ∧
    ((s.byteAt 16 = 8 ∨ s.byteAt 16 = 16 ∨ s.byteAt 16 = 24 ∨ s.byteAt 16 = 32) →
      26 ≤ s.data.length → s.data.length < 2 ^ 31 → (QTgaFile.new s).isValid = true) ∧
    (¬ (s.byteAt 16 = 8 ∨ s.byteAt 16 = 16 ∨ s.byteAt 16 = 24 ∨ s.byteAt 16 = 32) →
      (QTgaFile.new s).isValid = false) := by
  have hiff := QTgaFile.new_isValid_iff s hr hs hl
  refine ⟨?_, ?_, ?_⟩
  · apply QTgaFile.readImage_type_zero
    have := QTgaFile.new_hdr s hr hs hl 2 (by omega)
    rw [ImageType, this, ht]
  · intro hd h26 h31
    rw [hiff, toInt_of_lt _ h31]
    exact ⟨by omega, hd, by omega⟩
  · intro hd
    cases h : (QTgaFile.new s).isValid with
    | false => rfl
    | true => exact absurd (hiff.mp h).2.1 hd

/-- C7, amended, at a 30-byte source with a type-0, 24-bit header. -/
theorem readImage_no_image_data_witness :
    (QTgaFile.new (bufferOf (header2x2 0 24 ++ List.replicate 12 7))).readImage =
      .ok (QImage.null, QTgaFile.new (bufferOf (header2x2 0 24 ++ List.replicate 12 7))) ∧
    (QTgaFile.new (bufferOf (header2x2 0 24 ++ List.replicate 12 7))).isValid = true :=
  have h := readImage_no_image_data (bufferOf (header2x2 0 24 ++ List.replicate 12 7)) rfl rfl
    (by decide) (by decide)
  ⟨h.1, h.2.1 (by decide) (by decide) (by decide)⟩

/-- C8. A decoder whose pixel data offset `18 + id-length` lies inside the source (or
whose device accepts a seek beyond its end): if `readImage` returns the image `img` and
leaves the decoder as `f1`, then `readImage` on `f1` returns the same image `img`, pixel
for pixel (the same colors where a pixel is written, the same pixels left unwritten), and
leaves the decoder as `f1` again. -/
theorem readImage_twice (f : QTgaFile)
    (hsrc : 18 + f.hdr IdLength ≤ f.mDevice.data.length ∨ f.mDevice.seekPastEnd = true)
    (img : QImage) (f1 : QTgaFile) (h : f.readImage = .ok (img, f1)) :
    f1.readImage = .ok (img, f1) := by
  rw [QTgaFile.readImage_eq] at h
  by_cases hv : f.isValid = false
  · rw [if_pos hv] at h
    simp only [Except.ok.injEq, Prod.mk.injEq] at h
    obtain ⟨rfl, rfl⟩ := h
    rw [QTgaFile.readImage_eq, if_pos hv]
  · rw [if_neg hv] at h
    by_cases ht : f.hdr ImageType = 0
    · rw [if_pos ht] at h
      simp only [Except.ok.injEq, Prod.mk.injEq] at h
      obtain ⟨rfl, rfl⟩ := h
      rw [QTgaFile.readImage_eq, if_neg hv, if_pos ht]
    · rw [if_neg ht] at h
      have hseek := QIODevice.seek_of_le f.mDevice (HeaderSize + f.hdr IdLength)
        (by simpa only [HeaderSize] using hsrc)
      rw [hseek] at h
      simp only at h
      cases hd : f.decodeFrom { f.mDevice with pos := HeaderSize + f.hdr IdLength } with
      | error e => rw [hd] at h; cases h
      | ok v =>
        rw [hd] at h
        simp only [Except.ok.injEq, Prod.mk.injEq] at h
        obtain ⟨rfl, rfl⟩ := h
        obtain ⟨p, _, hp⟩ := decodeFrom_advanced _ _ _ hd
        simp only at hp
        have hseek1 := QIODevice.seek_of_le v.2 (HeaderSize + f.hdr IdLength)
          (by rw [hp]; simpa only [HeaderSize] using hsrc)
        have hcongr : ({ f with mDevice := v.2 } : QTgaFile).decodeFrom = f.decodeFrom :=
          decodeFrom_congr rfl
        rw [QTgaFile.readImage_eq]
        have hv1 : ({ f with mDevice := v.2 } : QTgaFile).isValid = f.isValid := rfl
        have ht1 : ({ f with mDevice := v.2 } : QTgaFile).hdr = f.hdr := rfl
        rw [hv1, ht1, if_neg hv, if_neg ht, hcongr]
        simp only [hseek1]
        rw [hp]
        simp only [hd]
        rw [← hp]

/-- C8 at a 2x2 uncompressed 24-bit image: both calls return the same four pixels. -/
theorem readImage_twice_witness :
    ∃ img f1,
      (QTgaFile.new (bufferOf (header2x2 2 24 ++ [1, 2, 3, 4, 5, 6, 7, 8, 9, 10, 11, 12]))).readImage =
        .ok (img, f1) ∧
      f1.readImage = .ok (img, f1) ∧ f1.mDevice.pos = 30 ∧
      img.pixels = [some (qRgb 9 8 7), some (qRgb 12 11 10), some (qRgb 3 2 1), some (qRgb 6 5 4)] :=
  ⟨{ width := 2, height := 2,
     pixels := [some (qRgb 9 8 7), some (qRgb 12 11 10), some (qRgb 3 2 1), some (qRgb 6 5 4)],
     warnings := [] },
   { QTgaFile.new (bufferOf (header2x2 2 24 ++ [1, 2, 3, 4, 5, 6, 7, 8, 9, 10, 11, 12])) with
     mDevice :=
       { bufferOf (header2x2 2 24 ++ [1, 2, 3, 4, 5, 6, 7, 8, 9, 10, 11, 12]) with pos := 30 } },
   by decide,
   readImage_twice
     (QTgaFile.new (bufferOf (header2x2 2 24 ++ [1, 2, 3, 4, 5, 6, 7, 8, 9, 10, 11, 12])))
     (Or.inl (by decide)) _ _ (by decide),
   rfl, rfl⟩

/-- C9. The code does not do what the claim asks: on an indexed 1x1 image whose palette
has one entry and whose pixel holds the index 5, both the uncompressed path (type 1) and
the packet path (type 9) of a valid decoder reach the palette access `cMap[5]` on a vector
of size 1, outside `0 .. size-1`; no error is reported before the access. -/
theorem palette_index_out_of_range :
    (QTgaFile.new (indexedSource 1 1 24 [10, 20, 30, 5, 0, 0, 0, 0])).isValid = true ∧
    (QTgaFile.new (indexedSource 1 1 24 [10, 20, 30, 5, 0, 0, 0, 0])).readImage =
      .error (.cMapIndex 5 1) ∧
    (QTgaFile.new (indexedSource 9 1 24 [10, 20, 30, 0, 5, 0, 0, 0])).isValid = true ∧
    (QTgaFile.new (indexedSource 9 1 24 [10, 20, 30, 0, 5, 0, 0, 0])).readImage =
      .error (.cMapIndex 5 1) := by
  decide

/-- C10. The code does not do what the claim asks: on a valid decoder whose header
announces a color map of one entry of depth 15, `newReader` returns the null pointer and
the palette loop of `readImage` calls the reader through it; no error is reported before
the call. -/
theorem palette_null_reader :
    (QTgaFile.new (indexedSource 1 1 15 [10, 20, 30, 0, 0, 0, 0, 0])).isValid = true ∧
    newReader (QTgaFile.littleEndianInt
      (QTgaFile.new (indexedSource 1 1 15 [10, 20, 30, 0, 0, 0, 0, 0])).mHeader
      QTgaFile.CMapDepth) = none ∧
    (QTgaFile.new (indexedSource 1 1 15 [10, 20, 30, 0, 0, 0, 0, 0])).readImage =
      .error .nullReader := by
  decide

/-- C11 fails as stated: a 44-byte source whose header has the unsupported type code 4 and
whose last 26 bytes are a TGA 2.0 footer with the signature at offset `size - 18`; the
constructor returns at the type check and the version flag stays false. -/
theorem new_type_error_skips_footer :
    (bufferOf (header2x2 4 24 ++ tga2Footer)).data.length = 44 ∧
    (bufferOf (header2x2 4 24 ++ tga2Footer)).byteAt 2 = 4 ∧
    ((bufferOf (header2x2 4 24 ++ tga2Footer)).data.drop (44 - 18)).take 16 = QTgaFile.signature ∧
    (QTgaFile.new (bufferOf (header2x2 4 24 ++ tga2Footer))).errorMessage =
      "Image type not supported" ∧
    (QTgaFile.new (bufferOf (header2x2 4 24 ++ tga2Footer))).m_bHighVersion = false := by
  decide

/-- C11, amended. A readable random-access source of at least 26 and fewer than `2^31` bytes.
When the type code (byte 2) is one of 0, 1, 2, 3, 9, 10, 11 the footer is inspected: the
version flag is true exactly when the 16 bytes at offset `size - 18` are the signature,
and when in addition the pixel depth (byte 16) is none of 8, 16, 24, 32 the decoder is
invalid with a non-empty message. When the type code is none of these the constructor
records the error and returns: the decoder is invalid with a non-empty message and the
version flag is false. -/
theorem new_footer_inspection (s : QIODevice) (hr : s.readable = true)
    (hs : s.sequential = false) (h26 : 26 ≤ s.data.length) (h31 : s.data.length < 2 ^ 31) :
    ((s.byteAt 2 = 0 ∨ s.byteAt 2 = 1 ∨ s.byteAt 2 = 2 ∨ s.byteAt 2 = 3 ∨ s.byteAt 2 = 9 ∨
        s.byteAt 2 = 10 ∨ s.byteAt 2 = 11) →
      ((QTgaFile.new s).m_bHighVersion = true ↔
        ((s.data.drop (s.data.length - 18)).take 16).map (fun c => c % 256) = signature) ∧
      (¬ (s.byteAt 16 = 8 ∨ s.byteAt 16 = 16 ∨ s.byteAt 16 = 24 ∨ s.byteAt 16 = 32) →
        (QTgaFile.new s).isValid = false ∧ (QTgaFile.new s).errorMessage ≠ "")) ∧
    (¬ (s.byteAt 2 = 0 ∨ s.byteAt 2 = 1 ∨ s.byteAt 2 = 2 ∨ s.byteAt 2 = 3 ∨ s.byteAt 2 = 9 ∨
        s.byteAt 2 = 10 ∨ s.byteAt 2 = 11) →
      (QTgaFile.new s).isValid = false ∧ (QTgaFile.new s).errorMessage ≠ "" ∧
      (QTgaFile.new s).m_bHighVersion = false) := by
  constructor
  · intro hty
    obtain ⟨hflag, hmsg⟩ := QTgaFile.new_footer s hr hs h26 h31 (by omega)
    constructor
    · rw [hflag]
      exact beq_iff_eq
    · intro hd
      rw [if_pos hd] at hmsg
      unfold isValid errorMessage
      rw [hmsg]
      exact ⟨by decide, by decide⟩
  · intro hty
    obtain ⟨hflag, hmsg, _⟩ := QTgaFile.new_type_unsupported s hr hs (by omega) (by omega)
    unfold isValid errorMessage
    rw [hmsg]
    exact ⟨by decide, by decide, hflag⟩

/-- C11, amended, at a 44-byte source with a supported type code, the unsupported pixel
depth 15 and a TGA 2.0 footer: the decoder is invalid and the version flag is true. -/
theorem new_footer_inspection_witness :
    (QTgaFile.new (bufferOf (header2x2 2 15 ++ tga2Footer))).m_bHighVersion = true ∧
    (QTgaFile.new (bufferOf (header2x2 2 15 ++ tga2Footer))).isValid = false ∧
    (QTgaFile.new (bufferOf (header2x2 2 15 ++ tga2Footer))).errorMessage ≠ "" :=
  have h := (new_footer_inspection (bufferOf (header2x2 2 15 ++ tga2Footer)) rfl rfl
    (by decide) (by decide)).1 (by decide)
  ⟨h.1.mpr (by decide), h.2 (by decide)⟩

/-- C12. The code does not do what the claim asks: on a valid 1x1 image of type 10 whose
stream is one raw packet of run length 2, the inner loop of `rleProcess` has no test of
the end of the raster: it reads the second sample (the cursor ends at offset 25, after both
samples) and calls `setPixel(0, -1)`, which the image refuses with a warning. The same
happens in `rleCMapProcess` on the 1x1 image of type 9: the second index is read and the
call `setPixel(0, -1)` is made. The one pixel of the raster holds the first sample. -/
theorem rle_run_past_raster :
    (QTgaFile.new (source1x1 10 0 0 0 24 [1, 1, 2, 3, 4, 5, 6, 0])).isValid = true ∧
    (QTgaFile.new (source1x1 10 0 0 0 24 [1, 1, 2, 3, 4, 5, 6, 0])).width = 1 ∧
    (QTgaFile.new (source1x1 10 0 0 0 24 [1, 1, 2, 3, 4, 5, 6, 0])).height = 1 ∧
    (QTgaFile.new (source1x1 10 0 0 0 24 [1, 1, 2, 3, 4, 5, 6, 0])).readImage =
      .ok ({ width := 1, height := 1, pixels := [some (qRgb 3 2 1)], warnings := [(0, -1)] },
           { QTgaFile.new (source1x1 10 0 0 0 24 [1, 1, 2, 3, 4, 5, 6, 0]) with
             mDevice := { source1x1 10 0 0 0 24 [1, 1, 2, 3, 4, 5, 6, 0] with pos := 25 } }) ∧
    (QTgaFile.new (source1x1 9 1 24 0 8 [7, 8, 9, 1, 0, 0, 0, 0])).isValid = true ∧
    (QTgaFile.new (source1x1 9 1 24 0 8 [7, 8, 9, 1, 0, 0, 0, 0])).readImage =
      .ok ({ width := 1, height := 1, pixels := [some (qRgb 9 8 7)], warnings := [(0, -1)] },
           { QTgaFile.new (source1x1 9 1 24 0 8 [7, 8, 9, 1, 0, 0, 0, 0]) with
             mDevice := { source1x1 9 1 24 0 8 [7, 8, 9, 1, 0, 0, 0, 0] with pos := 24 } }) := by
  decide

/-- C13 fails as stated: two valid 2x2 decoders of type 10 with 24-bit pixels whose eight
bytes after the header are a raw packet of one sample and a repeat packet of two, three
pixels in all, ending at the end of the source. The header of the first announces a color
map of one entry of size 15: `newReader` returns the null pointer and the palette loop of
`readImage` calls through it. The header of the second announces one entry of size 24: the
palette loop takes the first three of the eight bytes, the packet loop starts at offset 21
on the byte 3, a raw run of four, and all four pixels are written, the first with
`qRgb 5 4 129` and not the color of the first sample, the others with 0. -/
theorem rle_stream_behind_color_map :
    (QTgaFile.new (source2x2 10 1 15 24 [0, 1, 2, 3, 0x81, 4, 5, 6])).isValid = true ∧
    (QTgaFile.new (source2x2 10 1 15 24 [0, 1, 2, 3, 0x81, 4, 5, 6])).hdr ImageType = 10 ∧
    (source2x2 10 1 15 24 [0, 1, 2, 3, 0x81, 4, 5, 6]).data.drop 18 =
      specPacketStream [.raw [[1, 2, 3]], .rep 2 [4, 5, 6]] ∧
    (packetSamples [.raw [[1, 2, 3]], .rep 2 [4, 5, 6]]).length = 3 ∧
    (QTgaFile.new (source2x2 10 1 15 24 [0, 1, 2, 3, 0x81, 4, 5, 6])).width *
      (QTgaFile.new (source2x2 10 1 15 24 [0, 1, 2, 3, 0x81, 4, 5, 6])).height = 4 ∧
    (QTgaFile.new (source2x2 10 1 15 24 [0, 1, 2, 3, 0x81, 4, 5, 6])).readImage =
      .error .nullReader ∧
    (QTgaFile.new (source2x2 10 1 24 24 [0, 1, 2, 3, 0x81, 4, 5, 6])).isValid = true ∧
    (source2x2 10 1 24 24 [0, 1, 2, 3, 0x81, 4, 5, 6]).data.drop 18 =
      specPacketStream [.raw [[1, 2, 3]], .rep 2 [4, 5, 6]] ∧
    (QTgaFile.new (source2x2 10 1 24 24 [0, 1, 2, 3, 0x81, 4, 5, 6])).readImage =
      .ok ({ width := 2, height := 2,
             pixels := [some 0, some 0, some (qRgb 5 4 0x81), some 0], warnings := [] },
           { QTgaFile.new (source2x2 10 1 24 24 [0, 1, 2, 3, 0x81, 4, 5, 6]) with
             mDevice := { source2x2 10 1 24 24 [0, 1, 2, 3, 0x81, 4, 5, 6] with pos := 26 } }) ∧
    sampleColor .tga24 [1, 2, 3] ≠ qRgb 5 4 0x81 := by
  decide

/-- C13, amended. A valid decoder of type 10 or 11 with a supported pixel depth, whose
header has color-map length `L` and color-map entry size `d` (the 16-bit value `readImage`
reads at offset 7) with `L = 0` or `d` one of 8, 16, 24, 32, on a source that holds the id
field and the `L` entries and whose bytes after them, from offset
`18 + id-length + L * (d/8)` to the end of the source, are exactly the encoding of a
sequence of well-formed packets carrying `m < width*height` samples: `readImage` returns a
non-null `width` x `height` image and an unchanged, valid decoder; the stream pixels
`0 .. m-1` hold the colors of their samples at their output positions, the pixels of the
stream positions `m .. width*height-1` are still unwritten, no write was refused, and the
device is at the end of the source. -/
theorem readImage_rle_stream_ends_early (f : QTgaFile) (hv : f.isValid = true)
    (ht : f.hdr ImageType = 10 ∨ f.hdr ImageType = 11)
    (r : TgaReader) (hr : newReader (f.hdr PixelDepth) = some r)
    (hw : 1 ≤ f.width) (hh : 1 ≤ f.height)
    (hcm : littleEndianInt f.mHeader CMapLength = 0 ∨
      newReader (littleEndianInt f.mHeader CMapDepth) ≠ none)
    (hsrc : 18 + f.hdr IdLength +
      littleEndianInt f.mHeader CMapLength * (littleEndianInt f.mHeader CMapDepth / 8) ≤
        f.mDevice.data.length)
    (ps : List Packet) (hwf : ∀ p ∈ ps, p.wellFormed r.bytes)
    (hm : (packetSamples ps).length < f.width * f.height)
    (hdata : f.mDevice.data.drop (18 + f.hdr IdLength +
      littleEndianInt f.mHeader CMapLength * (littleEndianInt f.mHeader CMapDepth / 8)) =
        specPacketStream ps) :
    ∃ img f1, f.readImage = .ok (img, f1) ∧
      f1.isValid = true ∧ f1.errorMessage = f.errorMessage ∧
      img.isNull = false ∧ img.width = f.width ∧ img.height = f.height ∧
      img.warnings = [] ∧ f1.mDevice.pos = f.mDevice.data.length ∧
      (∀ k s, (packetSamples ps)[k]? = some s →
        img.pixel (f.outX k) (f.outY k) = some (sampleColor r s)) ∧
      (∀ k, (packetSamples ps).length ≤ k → k < f.width * f.height →
        img.pixel (f.outX k) (f.outY k) = none) := by
  have h1011 : ¬ (f.hdr ImageType = 2 ∨ f.hdr ImageType = 3) := by omega
  have hdirect := QTgaFile.readImage_direct f hv (by omega) hcm hsrc
  rw [if_neg h1011, hr] at hdirect
  generalize hoff : 18 + f.hdr IdLength +
      littleEndianInt f.mHeader CMapLength * (littleEndianInt f.mHeader CMapDepth / 8) = off
      at hsrc hdata hdirect
  have hproc := QTgaFile.rleProcess_packets f r (by omega) ps hwf
    (QImage.create f.width f.height) { f.mDevice with pos := off } []
    (by simp only [List.append_nil]; exact hdata) (by omega) (Or.inr rfl)
  rw [hproc] at hdirect
  have hlen : off + (specPacketStream ps).length = f.mDevice.data.length := by
    have := congrArg List.length hdata
    rw [List.length_drop] at this
    omega
  obtain ⟨w1, w2, w3, w4⟩ := f.writeSeq_spec ((packetSamples ps).map (sampleColor r))
    (QImage.create f.width f.height) 0 (QImage.create_fits f hw hh)
    (by rw [List.length_map]; omega)
  refine ⟨_, _, hdirect, hv, rfl, ?_, w1.1, w1.2.1, ?_, hlen, ?_, ?_⟩
  · simp only [QImage.isNull, w1.1, w1.2.1]
    have a : ¬ f.width = 0 := by omega
    have b : ¬ f.height = 0 := by omega
    simp [a, b]
  · rw [w2, QImage.create_warnings]
  · intro k s hk
    have := w3 k (sampleColor r s) (by rw [List.getElem?_map, hk]; rfl)
    rw [Nat.zero_add] at this
    exact this
  · intro k hk1 hk2
    rw [w4, QImage.create_pixel]
    intro i hi hc
    rw [List.length_map] at hi
    rw [Nat.zero_add] at hc
    have := f.out_inj k i hk2 (by omega) hc.1 hc.2
    omega

/-- C13 on a 2x2 image whose stream is a raw packet of one sample and a repeat packet of
two: three pixels are written, the fourth is not. -/
theorem readImage_rle_stream_ends_early_witness :
    ∃ img f1,
      (QTgaFile.new (bufferOf (header2x2 10 24 ++ [0, 1, 2, 3, 0x81, 4, 5, 6]))).readImage =
        .ok (img, f1) ∧
      f1.isValid = true ∧ img.width = 2 ∧ img.height = 2 ∧ img.warnings = [] ∧
      img.pixel 0 1 = some (qRgb 3 2 1) ∧ img.pixel 1 1 = some (qRgb 6 5 4) ∧
      img.pixel 0 0 = some (qRgb 6 5 4) ∧ img.pixel 1 0 = none := by
  obtain ⟨img, f1, h1, h2, _, _, h5, h6, h7, _, h9, h10⟩ := readImage_rle_stream_ends_early
    (QTgaFile.new (bufferOf (header2x2 10 24 ++ [0, 1, 2, 3, 0x81, 4, 5, 6])))
    (by decide) (by decide) .tga24 (by decide) (by decide) (by decide) (by decide) (by decide)
    [.raw [[1, 2, 3]], .rep 2 [4, 5, 6]] (by decide) (by decide) (by decide)
  exact ⟨img, f1, h1, h2, h5, h6, h7, h9 0 [1, 2, 3] (by decide), h9 1 [4, 5, 6] (by decide),
    h9 2 [4, 5, 6] (by decide), h10 3 (by decide) (by decide)⟩

/-- C14. The 16-bit reader on a source with two bytes `b0`, `b1` at the cursor, with
`d = b0 + 256*b1`: the color has alpha 255 if bit 15 of `d` is set and 0 otherwise, red
`((d >> 10) & 31) << 3`, green `((d >> 5) & 31) << 3`, blue `(d & 31) << 3`, each a
multiple of 8; the index read returns `d`; both reads advance the cursor by 2. -/
theorem tga16_channels (s : QIODevice) (h : s.pos + 2 ≤ s.data.length) :
    qAlpha (Tga16Reader.call s).1 =
      (if (s.byteAt s.pos + 256 * s.byteAt (s.pos + 1)).testBit 15 then 255 else 0) ∧
    qRed (Tga16Reader.call s).1 =
      (((s.byteAt s.pos + 256 * s.byteAt (s.pos + 1)) >>> 10) &&& 31) <<< 3 ∧
    qGreen (Tga16Reader.call s).1 =
      (((s.byteAt s.pos + 256 * s.byteAt (s.pos + 1)) >>> 5) &&& 31) <<< 3 ∧
    qBlue (Tga16Reader.call s).1 = ((s.byteAt s.pos + 256 * s.byteAt (s.pos + 1)) &&& 31) <<< 3 ∧
    qRed (Tga16Reader.call s).1 % 8 = 0 ∧ qGreen (Tga16Reader.call s).1 % 8 = 0 ∧
    qBlue (Tga16Reader.call s).1 % 8 = 0 ∧
    (Tga16Reader.getIndex s).1 = ((s.byteAt s.pos + 256 * s.byteAt (s.pos + 1) : Nat) : Int) ∧
    (Tga16Reader.call s).2 = { s with pos := s.pos + 2 } ∧
    (Tga16Reader.getIndex s).2 = { s with pos := s.pos + 2 } := by
  rw [Tga16Reader.call_of_fit16 s h, Tga16Reader.getIndex_of_fit16 s h]
  have e31 : (31 : Nat) = 2 ^ 5 - 1 := by decide
  have eff : (0xff : Nat) = 2 ^ 8 - 1 := by decide
  simp only [qAlpha, qRed, qGreen, qBlue]
  rw [e31, eff]
  simp only [Nat.and_pow_two_sub_one_eq_mod, Nat.shiftLeft_eq, Nat.shiftRight_eq_div_pow]
  generalize s.byteAt s.pos + 256 * s.byteAt (s.pos + 1) = d
  have e5 : (2 : Nat) ^ 5 = 32 := by decide
  rw [e5]
  have hA : (if d.testBit 15 = true then 255 else 0) ≤ 255 := by split <;> omega
  have hR : d / 2 ^ 10 % 32 < 32 := Nat.mod_lt _ (by decide)
  have hG : d / 32 % 32 < 32 := Nat.mod_lt _ (by decide)
  have hB : d % 32 < 32 := Nat.mod_lt _ (by decide)
  generalize (if d.testBit 15 = true then 255 else 0) = A at hA ⊢
  generalize d / 2 ^ 10 % 32 = R at hR ⊢
  generalize d / 32 % 32 = G at hG ⊢
  generalize d % 32 = B at hB ⊢
  refine ⟨by omega, by omega, by omega, by omega, by omega, by omega, by omega, trivial, trivial,
    trivial⟩

/-- C14 at the bytes `1F FC`, `d = 0xFC1F`: alpha 255, red 248, green 0, blue 248, index
64543. -/
theorem tga16_channels_witness :
    qAlpha (Tga16Reader.call (bufferOf [0x1F, 0xFC])).1 = 255 ∧
    qRed (Tga16Reader.call (bufferOf [0x1F, 0xFC])).1 = 248 ∧
    qGreen (Tga16Reader.call (bufferOf [0x1F, 0xFC])).1 = 0 ∧
    qBlue (Tga16Reader.call (bufferOf [0x1F, 0xFC])).1 = 248 ∧
    (Tga16Reader.getIndex (bufferOf [0x1F, 0xFC])).1 = 64543 :=
  have h := tga16_channels (bufferOf [0x1F, 0xFC]) (by decide)
  ⟨h.1.trans (by decide), h.2.1.trans (by decide), h.2.2.1.trans (by decide),
    h.2.2.2.1.trans (by decide), h.2.2.2.2.2.2.2.1.trans (by decide)⟩

/-- C15 fails as stated: on the four bytes `00 00 00 80` the 32-bit index read returns
`-2^31`, not the unsigned value `2^31`. -/
theorem getIndex32_negative :
    unsignedLE (bufferOf [0, 0, 0, 0x80]) 4 = 2 ^ 31 ∧
    (Tga32Reader.getIndex (bufferOf [0, 0, 0, 0x80])).1 = -2147483648 ∧
    (TgaReader.getIndex .tga32 (bufferOf [0, 0, 0, 0x80])).1 < 0 := by
  decide

/-- C15, amended. For a depth among 8, 16, 24, 32 and a source with `depth/8` bytes at the
cursor, `getIndex` returns the `int` that holds the 32-bit pattern of the unsigned
little-endian value `sum b_i * 256^i` of these bytes, which is below `2^depth`, and
advances the cursor by `depth/8`. For the depths 8, 16, 24, and for depth 32 when the
fourth byte is below 0x80, the result is that unsigned value; for depth 32 with a fourth
byte of 0x80 or more it is the unsigned value minus `2^32`, a negative number. -/
theorem getIndex_little_endian (depth : Nat) (r : TgaReader) (hr : newReader depth = some r)
    (s : QIODevice) (h : s.pos + depth / 8 ≤ s.data.length) :
    (r.getIndex s).1 = toInt (unsignedLE s (depth / 8)) ∧
    (r.getIndex s).2 = { s with pos := s.pos + depth / 8 } ∧
    unsignedLE s (depth / 8) < 2 ^ depth ∧
    (depth ≠ 32 ∨ s.byteAt (s.pos + 3) < 128 →
      (r.getIndex s).1 = ((unsignedLE s (depth / 8) : Nat) : Int)) ∧
    (depth = 32 → 128 ≤ s.byteAt (s.pos + 3) →
      (r.getIndex s).1 = ((unsignedLE s (depth / 8) : Nat) : Int) - 2 ^ 32 ∧ (r.getIndex s).1 < 0) := by
  obtain ⟨u1, u2, u3, u4⟩ := unsignedLE_four s
  have hb0 := QIODevice.byteAt_lt s s.pos
  have hb1 := QIODevice.byteAt_lt s (s.pos + 1)
  have hb2 := QIODevice.byteAt_lt s (s.pos + 2)
  have hb3 := QIODevice.byteAt_lt s (s.pos + 3)
  unfold newReader at hr
  split at hr
  · cases hr; subst_vars
    simp only [TgaReader.getIndex]
    rw [Tga8Reader.getIndex_of_fit8 s h]
    rw [show (8 : Nat) / 8 = 1 from rfl, u1, toInt_of_lt _ (by omega)]
    refine ⟨rfl, rfl, by omega, fun _ => rfl, fun hc => absurd hc (by decide)⟩
  · split at hr
    · cases hr; subst_vars
      simp only [TgaReader.getIndex]
      rw [Tga16Reader.getIndex_of_fit16 s h]
      rw [show (16 : Nat) / 8 = 2 from rfl, u2, toInt_of_lt _ (by omega)]
      refine ⟨rfl, rfl, by omega, fun _ => rfl, fun hc => absurd hc (by decide)⟩
    · split at hr
      · cases hr; subst_vars
        simp only [TgaReader.getIndex]
        rw [Tga24Reader.getIndex_of_fit24 s h]
        rw [show (24 : Nat) / 8 = 3 from rfl, u3, toInt_of_lt _ (by omega)]
        refine ⟨rfl, rfl, by omega, fun _ => rfl, fun hc => absurd hc (by decide)⟩
      · split at hr
        · cases hr; subst_vars
          simp only [TgaReader.getIndex]
          rw [Tga32Reader.getIndex_of_fit32 s h]
          rw [show (32 : Nat) / 8 = 4 from rfl, u4]
          refine ⟨rfl, rfl, by omega, ?_, ?_⟩
          · intro hc
            rcases hc with hc | hc
            · exact absurd rfl hc
            · rw [toInt_of_lt _ (by omega)]
          · intro _ hc
            unfold toInt
            rw [Nat.mod_eq_of_lt (by omega), if_neg (by omega)]
            omega
        · cases hr

/-- C15, amended, at depth 32 and the bytes `01 02 03 04`: the index is 0x04030201. -/
theorem getIndex_little_endian_witness :
    (TgaReader.getIndex .tga32 (bufferOf [1, 2, 3, 4])).1 = 67305985 ∧
    (TgaReader.getIndex .tga32 (bufferOf [1, 2, 3, 4])).2 = { bufferOf [1, 2, 3, 4] with pos := 4 } :=
  have h := getIndex_little_endian 32 .tga32 rfl (bufferOf [1, 2, 3, 4]) (by decide)
  ⟨(h.2.2.2.1 (Or.inr (by decide))).trans (by decide), h.2.1⟩

/-- C16. For each depth 8, 16, 24, 32, when fewer than depth/8 bytes are left on the
source, the color read and the index read of the reader of that depth both return 0; the
call through the reader pointer reports no fault, and the device is left with its
cursor at the end of the content. The readers take the device only, and a decode
leaves the error message and the validity of the decoder as they were. -/
theorem truncated_read_returns_zero (depth : Nat) (r : TgaReader)
    (hr : newReader depth = some r) (s : QIODevice) (h : s.data.length < s.pos + depth / 8) :
    (r.call s).1 = 0 ∧ (r.getIndex s).1 = 0 ∧
    callReader (some r) s = .ok (0, { s with pos := max s.pos s.data.length }) ∧
    callGetIndex (some r) s = .ok (0, { s with pos := max s.pos s.data.length }) ∧
    (∀ (f : QTgaFile) (img : QImage) (f1 : QTgaFile), f.readImage = .ok (img, f1) →
      f1.errorMessage = f.errorMessage ∧ f1.isValid = f.isValid) := by
  have key : (r.call s).1 = 0 ∧ (r.call s).2 = { s with pos := max s.pos s.data.length } ∧
      (r.getIndex s).1 = 0 ∧ (r.getIndex s).2 = { s with pos := max s.pos s.data.length } := by
    unfold newReader at hr
    split at hr
    · cases hr; subst_vars
      exact ⟨(Tga8Reader.call8_truncated s h).1, (Tga8Reader.call8_truncated s h).2,
        (Tga8Reader.getIndex8_truncated s h).1, (Tga8Reader.getIndex8_truncated s h).2⟩
    · split at hr
      · cases hr; subst_vars
        exact ⟨(Tga16Reader.call16_truncated s h).1, (Tga16Reader.call16_truncated s h).2,
          (Tga16Reader.getIndex16_truncated s h).1, (Tga16Reader.getIndex16_truncated s h).2⟩
      · split at hr
        · cases hr; subst_vars
          exact ⟨(Tga24Reader.call24_truncated s h).1, (Tga24Reader.call24_truncated s h).2,
            (Tga24Reader.getIndex24_truncated s h).1, (Tga24Reader.getIndex24_truncated s h).2⟩
        · split at hr
          · cases hr; subst_vars
            exact ⟨(Tga32Reader.call32_truncated s h).1, (Tga32Reader.call32_truncated s h).2,
              (Tga32Reader.getIndex32_truncated s h).1, (Tga32Reader.getIndex32_truncated s h).2⟩
          · cases hr
  obtain ⟨k1, k2, k3, k4⟩ := key
  refine ⟨k1, k3, ?_, ?_, ?_⟩
  · simp only [callReader]
    rw [← k1, ← k2]
  · simp only [callGetIndex]
    rw [← k3, ← k4]
  · intro f img f1 hf
    obtain ⟨m1, _, _⟩ := QTgaFile.readImage_message f img f1 hf
    unfold errorMessage isValid
    rw [m1]
    exact ⟨rfl, rfl⟩

/-- C16 at the 24-bit reader with two bytes left. -/
theorem truncated_read_returns_zero_witness :
    (TgaReader.call .tga24 { bufferOf [9, 8, 7, 6] with pos := 2 }).1 = 0 ∧
    (TgaReader.getIndex .tga24 { bufferOf [9, 8, 7, 6] with pos := 2 }).1 = 0 ∧
    callReader (some .tga24) { bufferOf [9, 8, 7, 6] with pos := 2 } =
      .ok (0, { bufferOf [9, 8, 7, 6] with pos := 4 }) :=
  have h := truncated_read_returns_zero 24 .tga24 rfl { bufferOf [9, 8, 7, 6] with pos := 2 }
    (by decide)
  ⟨h.1, h.2.1, h.2.2.1⟩

/-- C17. The code does not do what the claim asks: two 26-byte sources of an indexed 1x1
image that differ only in byte 8, the low byte of the x-origin field (0 and 1). Both
decoders are valid and byte 7 is 24 in both. `readImage` takes the entry size from
`littleEndianInt(&mHeader[CMapDepth])`, the 16-bit value of bytes 7 and 8: 24 for the first
source, which decodes to the palette color, and 280 for the second, for which `newReader`
returns the null pointer and the palette loop calls through it. -/
theorem cmap_depth_reads_two_bytes :
    (source1x1 1 1 24 0 8 [10, 20, 30, 0, 0, 0, 0, 0]).data.take 8 =
      (source1x1 1 1 24 1 8 [10, 20, 30, 0, 0, 0, 0, 0]).data.take 8 ∧
    (source1x1 1 1 24 0 8 [10, 20, 30, 0, 0, 0, 0, 0]).data.drop 9 =
      (source1x1 1 1 24 1 8 [10, 20, 30, 0, 0, 0, 0, 0]).data.drop 9 ∧
    (QTgaFile.new (source1x1 1 1 24 0 8 [10, 20, 30, 0, 0, 0, 0, 0])).isValid = true ∧
    (QTgaFile.new (source1x1 1 1 24 1 8 [10, 20, 30, 0, 0, 0, 0, 0])).isValid = true ∧
    (QTgaFile.new (source1x1 1 1 24 1 8 [10, 20, 30, 0, 0, 0, 0, 0])).hdr CMapDepth = 24 ∧
    littleEndianInt (QTgaFile.new (source1x1 1 1 24 1 8 [10, 20, 30, 0, 0, 0, 0, 0])).mHeader
      CMapDepth = 280 ∧
    (QTgaFile.new (source1x1 1 1 24 0 8 [10, 20, 30, 0, 0, 0, 0, 0])).readImage =
      .ok ({ width := 1, height := 1, pixels := [some (qRgb 30 20 10)], warnings := [] },
           { QTgaFile.new (source1x1 1 1 24 0 8 [10, 20, 30, 0, 0, 0, 0, 0]) with
             mDevice := { source1x1 1 1 24 0 8 [10, 20, 30, 0, 0, 0, 0, 0] with pos := 22 } }) ∧
    (QTgaFile.new (source1x1 1 1 24 1 8 [10, 20, 30, 0, 0, 0, 0, 0])).readImage =
      .error .nullReader := by
  decide

/-- C18 fails as stated: a valid 1x1 image of type 2 with 24-bit pixels, no id field, and
a header that announces a color map of one 24-bit entry. `readImage` consumes the three
bytes at offset 18 in the palette loop and reads the pixel at offset 21: the pixel is
`qRgb 6 5 4` and the cursor ends at 24, while the sample at offset 18 is `qRgb 3 2 1`. -/
theorem palette_read_for_direct_type :
    (QTgaFile.new (source1x1 2 1 24 0 24 [1, 2, 3, 4, 5, 6, 0, 0])).isValid = true ∧
    (QTgaFile.new (source1x1 2 1 24 0 24 [1, 2, 3, 4, 5, 6, 0, 0])).hdr ImageType = 2 ∧
    (QTgaFile.new (source1x1 2 1 24 0 24 [1, 2, 3, 4, 5, 6, 0, 0])).hdr IdLength = 0 ∧
    (QTgaFile.new (source1x1 2 1 24 0 24 [1, 2, 3, 4, 5, 6, 0, 0])).readImage =
      .ok ({ width := 1, height := 1, pixels := [some (qRgb 6 5 4)], warnings := [] },
           { QTgaFile.new (source1x1 2 1 24 0 24 [1, 2, 3, 4, 5, 6, 0, 0]) with
             mDevice := { source1x1 2 1 24 0 24 [1, 2, 3, 4, 5, 6, 0, 0] with pos := 24 } }) ∧
    (Tga24Reader.call { source1x1 2 1 24 0 24 [1, 2, 3, 4, 5, 6, 0, 0] with pos := 18 }).1 =
      qRgb 3 2 1 ∧
    qRgb 6 5 4 ≠ qRgb 3 2 1 := by
  decide

/-- C18, amended. A valid decoder of a direct-color type (2, 3, 10, 11) whose header has
color-map length `L` and color-map entry size `d` (the 16-bit value `readImage` reads at
offset 7), with `L = 0` or `d` one of 8, 16, 24, 32, on a source that holds the id field and
the `L` entries: `readImage` runs the palette loop, which consumes `L * (d/8)` bytes, and
then the direct path of the type from the source offset `18 + id-length + L * (d/8)`, where
the first pixel sample or packet header is read. That offset is `18 + id-length` when
`L = 0` and lies beyond it when `L > 0`. -/
theorem readImage_palette_then_direct (f : QTgaFile) (hv : f.isValid = true)
    (ht : f.hdr ImageType = 2 ∨ f.hdr ImageType = 3 ∨ f.hdr ImageType = 10 ∨
      f.hdr ImageType = 11)
    (hcm : littleEndianInt f.mHeader CMapLength = 0 ∨
      newReader (littleEndianInt f.mHeader CMapDepth) ≠ none)
    (hsrc : 18 + f.hdr IdLength +
      littleEndianInt f.mHeader CMapLength * (littleEndianInt f.mHeader CMapDepth / 8) ≤
        f.mDevice.data.length) :
    ∃ off : Nat,
      off = 18 + f.hdr IdLength +
        littleEndianInt f.mHeader CMapLength * (littleEndianInt f.mHeader CMapDepth / 8) ∧
      (littleEndianInt f.mHeader CMapLength = 0 → off = 18 + f.hdr IdLength) ∧
      (0 < littleEndianInt f.mHeader CMapLength → 18 + f.hdr IdLength < off) ∧
      f.readImage =
        match (if f.hdr ImageType = 2 ∨ f.hdr ImageType = 3 then
            f.noCompressProcess (newReader (f.hdr PixelDepth))
              (QImage.create f.width f.height, { f.mDevice with pos := off })
          else
            f.rleProcess (newReader (f.hdr PixelDepth))
              (QImage.create f.width f.height, { f.mDevice with pos := off }))
        with
        | .error e => .error e
        | .ok (img, dev2) => .ok (img, { f with mDevice := dev2 }) := by
  refine ⟨_, rfl, ?_, ?_, QTgaFile.readImage_direct f hv ht hcm hsrc⟩
  · intro h0
    rw [h0, Nat.zero_mul, Nat.add_zero]
  · intro hpos
    have hd : 1 ≤ littleEndianInt f.mHeader CMapDepth / 8 := by
      rcases hcm with h | h
      · omega
      · unfold newReader at h
        split at h
        · omega
        · split at h
          · omega
          · split at h
            · omega
            · split at h
              · omega
              · exact absurd rfl h
    have := Nat.mul_le_mul hpos hd
    omega

/-- C18, amended, at a 1x1 image of type 2 with a color map of one 24-bit entry: the
pixels are read from offset 21. -/
theorem readImage_palette_then_direct_witness :
    (QTgaFile.new (source1x1 2 1 24 0 24 [1, 2, 3, 4, 5, 6, 0, 0])).readImage =
      match noCompressProcess (QTgaFile.new (source1x1 2 1 24 0 24 [1, 2, 3, 4, 5, 6, 0, 0]))
          (some .tga24)
          (QImage.create 1 1, { source1x1 2 1 24 0 24 [1, 2, 3, 4, 5, 6, 0, 0] with pos := 21 })
      with
      | .error e => .error e
      | .ok (img, dev2) =>
        .ok (img, { QTgaFile.new (source1x1 2 1 24 0 24 [1, 2, 3, 4, 5, 6, 0, 0]) with
                    mDevice := dev2 }) := by
  obtain ⟨off, h1, _, _, h4⟩ := readImage_palette_then_direct
    (QTgaFile.new (source1x1 2 1 24 0 24 [1, 2, 3, 4, 5, 6, 0, 0]))
    (by decide) (by decide) (by decide) (by decide)
  have e : off = 21 := h1.trans (by decide)
  subst e
  exact h4

/-- C19. For a header of width at least 1, a supported pixel depth and any descriptor, a
sequence of packets each carrying between 1 and 128 samples of `depth/8` bytes, a raw
packet encoded as the byte `length - 1` and its samples, a repeat packet as the byte
`0x80 | (length - 1)` and its one sample, together carrying `width*height` samples:
`rleProcess` on a device that holds the packet stream at its cursor and `noCompressProcess`
on a device that holds the concatenated samples at its cursor both return, with the same
image; each device is left after what it held, and the image has the color of the `k`-th
sample at the output position of stream pixel `k`. No packet is bound to a row. -/
theorem rle_equals_uncompressed (f : QTgaFile) (depth : Nat) (r : TgaReader)
    (hr : newReader depth = some r) (hw : 1 ≤ f.width)
    (ps : List Packet) (hwf : ∀ p ∈ ps, p.wellFormed (depth / 8))
    (hn : (packetSamples ps).length = f.width * f.height)
    (img : QImage) (hf : f.fits img)
    (devR devP : QIODevice) (restR restP : List Nat)
    (hR : devR.data.drop devR.pos = specPacketStream ps ++ restR)
    (hP : devP.data.drop devP.pos = (packetSamples ps).flatten ++ restP) :
    ∃ out : QImage,
      rleProcess f (newReader depth) (img, devR) =
        .ok (out, { devR with pos := devR.pos + (specPacketStream ps).length }) ∧
      noCompressProcess f (newReader depth) (img, devP) =
        .ok (out, { devP with pos := devP.pos + f.width * f.height * (depth / 8) }) ∧
      f.fits out ∧ out.warnings = img.warnings ∧
      ∀ k s, (packetSamples ps)[k]? = some s →
        out.pixel (f.outX k) (f.outY k) = some (sampleColor r s) := by
  have hb := newReader_bytes depth r hr
  rw [← hb] at hwf ⊢
  obtain ⟨s1, s2, s3⟩ := readSamples_of_bytes r (packetSamples ps) devP restP
    (packetSamples_length r.bytes ps hwf) hP
  obtain ⟨w1, w2, w3, _⟩ := f.writeSeq_spec ((packetSamples ps).map (sampleColor r)) img 0 hf
    (by rw [List.length_map, hn]; omega)
  refine ⟨writeSeq f img 0 ((packetSamples ps).map (sampleColor r)), ?_, ?_, w1, w2, ?_⟩
  · rw [hr]
    exact QTgaFile.rleProcess_packets f r (by omega) ps hwf img devR restR hR (by omega)
      (Or.inl hn)
  · rw [hr, QTgaFile.noCompressProcess_eq, Nat.mul_comm f.height f.width, ← hn, s1, s3]
  · intro k s hk
    have := w3 k (sampleColor r s) (by rw [List.getElem?_map, hk]; rfl)
    rw [Nat.zero_add] at this
    exact this

/-- C19 on a 2x2 image: a repeat packet of three samples, which crosses the row boundary,
and a raw packet of one sample. -/
theorem rle_equals_uncompressed_witness :
    ∃ out : QImage,
      rleProcess (QTgaFile.new (bufferOf (header2x2 10 24 ++ [0, 0, 0, 0, 0, 0, 0, 0])))
          (newReader 24)
          (QImage.create 2 2, bufferOf (specPacketStream [.rep 3 [1, 2, 3], .raw [[4, 5, 6]]])) =
        .ok (out, { bufferOf (specPacketStream [.rep 3 [1, 2, 3], .raw [[4, 5, 6]]]) with pos := 8 }) ∧
      noCompressProcess (QTgaFile.new (bufferOf (header2x2 10 24 ++ [0, 0, 0, 0, 0, 0, 0, 0])))
          (newReader 24)
          (QImage.create 2 2, bufferOf [1, 2, 3, 1, 2, 3, 1, 2, 3, 4, 5, 6]) =
        .ok (out, { bufferOf [1, 2, 3, 1, 2, 3, 1, 2, 3, 4, 5, 6] with pos := 12 }) ∧
      out.pixel 0 1 = some (qRgb 3 2 1) ∧ out.pixel 0 0 = some (qRgb 3 2 1) ∧
      out.pixel 1 0 = some (qRgb 6 5 4) := by
  obtain ⟨out, h1, h2, _, _, h5⟩ := rle_equals_uncompressed
    (QTgaFile.new (bufferOf (header2x2 10 24 ++ [0, 0, 0, 0, 0, 0, 0, 0]))) 24 .tga24 rfl
    (by decide) [.rep 3 [1, 2, 3], .raw [[4, 5, 6]]] (by decide) (by decide)
    (QImage.create 2 2) (by decide)
    (bufferOf (specPacketStream [.rep 3 [1, 2, 3], .raw [[4, 5, 6]]]))
    (bufferOf [1, 2, 3, 1, 2, 3, 1, 2, 3, 4, 5, 6]) [] [] (by decide) (by decide)
  exact ⟨out, h1, h2, h5 0 [1, 2, 3] (by decide), h5 2 [1, 2, 3] (by decide),
    h5 3 [4, 5, 6] (by decide)⟩

/-- C20. For every header, reader, palette and device: the iteration budget of the model
of `rleProcess` and of `rleCMapProcess`, one more than the bytes left, is never what stops
them; with a reader, `rleProcess` returns an image whenever the width is not 0, and for
width 0 whenever fewer than `2^31 / 128` bytes are left (the column counter is an `int`).
A packet header announces at most 128 pixels; it either takes exactly one byte from the
source or, at the end of the source, announces 0 pixels and takes nothing, and then an
iteration of either outer loop ends the loop. With width 0 a pixel write advances the
column counter and leaves the row counter alone. -/
theorem rle_loops_terminate (f : QTgaFile) (cMap : List QRgb) (pReader : Option TgaReader)
    (st : QImage × QIODevice) :
    rleProcess f pReader st ≠ .error .outOfFuel ∧
    rleCMapProcess f cMap pReader st ≠ .error .outOfFuel ∧
    (∀ r, pReader = some r →
      (1 ≤ f.width ∨ 128 * (st.2.data.length - st.2.pos) < 2 ^ 31) →
      ∃ v, rleProcess f pReader st = .ok v) ∧
    (∀ s : QIODevice,
      (TgaRleReader.call s).1.number ≤ 128 ∧
      ((TgaRleReader.call s).1.number = 0 →
        s.data.length ≤ s.pos ∧ (TgaRleReader.call s).2 = s) ∧
      ((TgaRleReader.call s).1.number ≠ 0 →
        s.pos < s.data.length ∧ (TgaRleReader.call s).2 = { s with pos := s.pos + 1 })) ∧
    (∀ (fuel : Nat) (s : RleState), s.y < f.height → (TgaRleReader.call s.dev).1.number = 0 →
      rleLoop f pReader (fuel + 1) s = .ok s ∧ rleCMapLoop f cMap pReader (fuel + 1) s = .ok s) ∧
    (f.width = 0 → ∀ (s s1 : RleState) (c : QRgb) (dev : QIODevice),
      putPixel f s c dev = .ok s1 → s1.x = s.x + 1 ∧ s1.y = s.y) := by
  refine ⟨QTgaFile.rleProcess_fuel f pReader st, QTgaFile.rleCMapProcess_fuel f cMap pReader st,
    ?_, ?_, ?_, ?_⟩
  · intro r hr hsz
    rw [hr]
    exact QTgaFile.rleProcess_ok f r st hsz
  · intro s
    obtain ⟨b1, b2, b3, _⟩ := TgaRleReader.call_bound s
    exact ⟨b1, b2, b3⟩
  · intro fuel s hy hn
    have hdev := ((TgaRleReader.call_bound s.dev).2.1 hn).2
    constructor
    · rw [rleLoop]
      simp only [if_pos hy, if_pos hn, hdev]
    · rw [rleCMapLoop]
      simp only [if_pos hy, if_pos hn, hdev]
  · intro h0 s s1 c dev hp
    unfold putPixel at hp
    simp only at hp
    split at hp
    · cases hp
    · rw [if_neg (by omega)] at hp
      cases hp
      exact ⟨rfl, rfl⟩

/-- C20 on a header of width 0 and height 1: `rleProcess` returns. -/
theorem rle_loops_terminate_witness :
    ∃ v, rleProcess
      (QTgaFile.new (bufferOf
        [0, 0, 10, 0, 0, 0, 0, 0, 0, 0, 0, 0, 0, 0, 1, 0, 24, 0, 0x81, 1, 2, 3, 0, 4, 5, 6]))
      (some .tga24)
      (QImage.create 0 1,
       { bufferOf
          [0, 0, 10, 0, 0, 0, 0, 0, 0, 0, 0, 0, 0, 0, 1, 0, 24, 0, 0x81, 1, 2, 3, 0, 4, 5, 6]
         with pos := 18 }) = .ok v :=
  (rle_loops_terminate
    (QTgaFile.new (bufferOf
      [0, 0, 10, 0, 0, 0, 0, 0, 0, 0, 0, 0, 0, 0, 1, 0, 24, 0, 0x81, 1, 2, 3, 0, 4, 5, 6]))
    [] (some .tga24)
    (QImage.create 0 1,
     { bufferOf
        [0, 0, 10, 0, 0, 0, 0, 0, 0, 0, 0, 0, 0, 0, 1, 0, 24, 0, 0x81, 1, 2, 3, 0, 4, 5, 6]
       with pos := 18 })).2.2.1 .tga24 rfl (Or.inr (by decide))

end QTga
